import Mathlib

/-!
# Verification of the haxqer/rank indexed skip-list leaderboard

This file gives a shallow embedding of the Go sources (`skiplist.go` and the
leaderboard facade) and proves/refutes the specification claims about them.

Modelling conventions, applied uniformly:

* Go pointers are modelled as indices into an append-only node store
  (`SkipList.nodes`); index 0 is the sentinel head node, exactly as the Go
  code allocates a head `*node` that carries no data.  Deleting a node
  unlinks it but leaves the record in the store (the Go garbage collector
  is irrelevant to observable behaviour).
* `randomLevel()` is modelled by an explicit `lvl` argument to `Insert`:
  every theorem quantifying over `lvl` covers every possible outcome of the
  random draw.
* Go `int64` scores are modelled as `Int`.  The only `int64` arithmetic the
  code performs on scores is the negation in the leaderboard facade, which
  wraps on the minimum value; `negInt64` models that wrap explicitly.
* Go `uint64` counters (`length`, `rank`, `traversed`) are modelled as `Nat`:
  their additive overflow would need 2^64 stored entries and is not
  reachable in any physical execution.  Subtraction underflow, however, IS
  reachable at small list sizes (see the C2 counterexample), so every
  `uint64` subtraction in the source is modelled by `usub`, which wraps
  exactly like Go.  The compound Go statement
  `update[i].level[i].span += x.level[i].span - 1`
  is modelled as `usub (span + x.span) 1`, which agrees with the Go value
  modulo 2^64 at every reachable state.
* The Go loops `for x.level[i].forward != nil && ...` are modelled with
  explicit fuel `s.nodes.length`; on every well-formed state the walk visits
  pairwise distinct stored nodes, so the fuel is never exhausted and the
  embedding computes exactly what the Go loop computes.
-/

set_option maxHeartbeats 1000000
set_option linter.unusedSectionVars false

namespace Rank

/-- 2^64, the wrap modulus of Go `uint64` arithmetic. -/
def U64 : Nat := 18446744073709551616

/-- Go `uint64` subtraction `a - b` (wraps around on underflow). -/
def usub (a b : Nat) : Nat := if b ≤ a then a - b else a + U64 - b

/-- An element stored in the skip list (`Element` in `skiplist.go`):
member identifier, sorting score and an opaque payload. -/
structure Element (δ : Type) where
  member : String
  score : Int
  data : δ
deriving Repr, DecidableEq, Inhabited

/-- One level slot of a node (`levelNode` in `skiplist.go`): the forward
pointer at this level and the span (number of level-0 steps) it covers. -/
structure LevelNode where
  forward : Option Nat
  span : Nat
deriving Repr, DecidableEq, Inhabited

/-- An internal node (`node` in `skiplist.go`). `level.length` is the height
drawn for the node at insertion time. -/
structure Node (δ : Type) where
  element : Element δ
  level : List LevelNode
deriving Repr, DecidableEq, Inhabited

/-- The skip list (`SkipList` in `skiplist.go`).  `nodes` is the pointer
store (index 0 = sentinel head); `elementMap` is the member-to-node side
map, modelled as an association list with distinct keys. -/
structure SkipList (δ : Type) where
  nodes : List (Node δ)
  tail : Option Nat
  length : Nat
  level : Nat
  elementMap : List (String × Nat)
deriving Repr, DecidableEq, Inhabited

/-- `MaxLevel` from `skiplist.go` (the `src/skiplist.go` translation uses 42;
the second translation uses 36 — nothing below depends on the exact value
beyond it being positive). -/
def MaxLevel : Nat := 42

variable {δ : Type} [Inhabited δ]

/-- Dereference a node pointer.  On well-formed states the index is always
in range; the default is never reached there. -/
def getNode (s : SkipList δ) (i : Nat) : Node δ := s.nodes.getD i default

/-- Read level slot `ℓ` of a node (`n.level[ℓ]` in Go). -/
def slotOf (n : Node δ) (ℓ : Nat) : LevelNode := n.level.getD ℓ ⟨none, 0⟩

/-- Height of a node (its number of level slots). -/
def heightOf (n : Node δ) : Nat := n.level.length

/-- `NewSkipList()`: a head with `MaxLevel` nil slots, level 1, empty map. -/
def NewSkipList : SkipList δ :=
  { nodes := [{ element := ⟨"", 0, default⟩, level := List.replicate MaxLevel ⟨none, 0⟩ }]
    tail := none
    length := 0
    level := 1
    elementMap := [] }

/-- Lexicographic comparison of character lists. -/
def charsLt : List Char → List Char → Bool
  | [], [] => false
  | [], _ :: _ => true
  | _ :: _, [] => false
  | a :: as, b :: bs => if a < b then true else if b < a then false else charsLt as bs

/-- Go's `string <` comparison: byte-wise lexicographic order, which on
UTF-8 encoded strings coincides with code-point-wise lexicographic order
(UTF-8 byte order preserves code-point order), i.e. with Lean's `String.lt`.
Defined structurally on the character list so that it evaluates inside the
kernel. -/
def strLt (a b : String) : Bool := charsLt a.data b.data

/-- The single comparison used by every search loop in `skiplist.go`:
the candidate `e` precedes the target `(score, member)` iff it has a higher
score, or an equal score and a lexicographically smaller member. -/
def precB (e : Element δ) (score : Int) (member : String) : Bool :=
  decide (score < e.score) || (decide (e.score = score) && strLt e.member member)

/-- Association-list lookup for the side map (Go `sl.elementMap[member]`). -/
def lookupMap (l : List (String × Nat)) (m : String) : Option Nat :=
  match l with
  | [] => none
  | kv :: rest => if kv.1 = m then some kv.2 else lookupMap rest m

/-- Remove a key from the side map (Go `delete(sl.elementMap, member)`). -/
def eraseKey (m : String) : List (String × Nat) → List (String × Nat)
  | [] => []
  | kv :: rest => if kv.1 = m then eraseKey m rest else kv :: eraseKey m rest

/-- The inner search loop at one level: advance while the forward node
exists and precedes the target, accumulating the traversed spans
(this is the loop body shared verbatim by `Insert`, `Delete` and
`GetRank` in `skiplist.go`).  Returns the stop node and accumulated rank. -/
def walkLevel (s : SkipList δ) (score : Int) (member : String) (ℓ : Nat) :
    Nat → Nat → Nat → Nat × Nat
  | 0, x, r => (x, r)
  | fuel + 1, x, r =>
    let sl := slotOf (getNode s x) ℓ
    match sl.forward with
    | none => (x, r)
    | some f =>
      if precB (getNode s f).element score member then
        walkLevel s score member ℓ fuel f (r + sl.span)
      else (x, r)

/-- The descent from level `i - 1` down to level 0, recording the stop node
and accumulated rank at each level (Go's `update[]` and `rank[]` arrays).
The result lists level `i - 1` first. -/
def searchFrom (s : SkipList δ) (score : Int) (member : String) :
    Nat → Nat → Nat → List (Nat × Nat)
  | 0, _, _ => []
  | i + 1, x, r =>
    let p := walkLevel s score member i s.nodes.length x r
    p :: searchFrom s score member i p.1 p.2

/-- Search for the insertion position of `(score, member)`: entry `ℓ` of the
result is `(update[ℓ], rank[ℓ])` in Go's notation. -/
def updates (s : SkipList δ) (score : Int) (member : String) : List (Nat × Nat) :=
  (searchFrom s score member s.level 0 0).reverse

/-- Overwrite level slot `ℓ` of node `i` in the store (a Go pointer write
`n.level[ℓ] = sl`). -/
def setSlot (s : SkipList δ) (i ℓ : Nat) (sl : LevelNode) : SkipList δ :=
  let n := getNode s i
  { s with nodes := s.nodes.set i { n with level := n.level.set ℓ sl } }

/-- The splice loop of `Insert` for levels `0 .. lvl - 1`: link the new node
in after `update[ℓ]` and recompute both spans, exactly as in the source:
`newNode.span = update[ℓ].span - (rank[0] - rank[ℓ])` (uint64, may wrap) and
`update[ℓ].span = (rank[0] - rank[ℓ]) + 1`. -/
def insertSplice (s : SkipList δ) (ups : List (Nat × Nat)) (rank0 newIdx : Nat) :
    Nat → SkipList δ
  | 0 => s
  | ℓ + 1 =>
    let s1 := insertSplice s ups rank0 newIdx ℓ
    let u := (ups.getD ℓ (0, 0)).1
    let rℓ := (ups.getD ℓ (0, 0)).2
    let us := slotOf (getNode s1 u) ℓ
    let s2 := setSlot s1 newIdx ℓ ⟨us.forward, usub us.span (rank0 - rℓ)⟩
    setSlot s2 u ℓ ⟨some newIdx, (rank0 - rℓ) + 1⟩

/-- The span-increment loop of `Insert` for levels `lvl .. level - 1`
(`update[i].level[i].span++`): `k` counts the remaining levels. -/
def insertBump (s : SkipList δ) (ups : List (Nat × Nat)) (lo : Nat) :
    Nat → SkipList δ
  | 0 => s
  | k + 1 =>
    let u := (ups.getD lo (0, 0)).1
    let us := slotOf (getNode s u) lo
    insertBump (setSlot s u lo ⟨us.forward, us.span + 1⟩) ups (lo + 1) k

/-- The body of `Insert` after the member-already-present check: raise the
current level, search, splice at levels `0..lvl-1`, bump spans above, fix
the tail, register in the side map and bump the length. -/
def insertCore (s0 : SkipList δ) (member : String) (score : Int) (data : δ)
    (lvl : Nat) : SkipList δ × Element δ :=
  let s1 : SkipList δ := { s0 with level := max s0.level lvl }
  let ups := updates s1 score member
  let rank0 := (ups.getD 0 (0, 0)).2
  let newIdx := s1.nodes.length
  let e : Element δ := ⟨member, score, data⟩
  let s2 := { s1 with nodes := s1.nodes ++ [{ element := e, level := List.replicate lvl ⟨none, 0⟩ }] }
  let s3 := insertSplice s2 ups rank0 newIdx lvl
  let s4 := insertBump s3 ups lvl (s1.level - lvl)
  let s5 :=
    if (slotOf (getNode s4 newIdx) 0).forward = none then { s4 with tail := some newIdx }
    else s4
  ({ s5 with
      elementMap := (member, newIdx) :: eraseKey member s5.elementMap
      length := s5.length + 1 }, e)

/-- The unlink loop of `Delete` for levels `0 .. level - 1`.  Where the
predecessor points at the victim the source does
`update[ℓ].span += x.span - 1` in `uint64`; `usub (us.span + xs.span) 1`
is the same value modulo 2^64. -/
def removeLoop (s : SkipList δ) (ups : List (Nat × Nat)) (xi : Nat) :
    Nat → SkipList δ
  | 0 => s
  | ℓ + 1 =>
    let s1 := removeLoop s ups xi ℓ
    let u := (ups.getD ℓ (0, 0)).1
    let us := slotOf (getNode s1 u) ℓ
    let xs := slotOf (getNode s1 xi) ℓ
    if us.forward = some xi then
      setSlot s1 u ℓ ⟨xs.forward, usub (us.span + xs.span) 1⟩
    else
      setSlot s1 u ℓ ⟨us.forward, usub us.span 1⟩

/-- The level-shrink loop at the end of `Delete`:
`for level > 1 && head.level[level-1].forward == nil { level-- }`. -/
def shrink (s : SkipList δ) : Nat → Nat
  | 0 => 0
  | 1 => 1
  | n + 2 =>
    if (slotOf (getNode s 0) (n + 1)).forward = none then shrink s (n + 1)
    else n + 2

/-- `Delete(member, score)` from `skiplist.go`: search, check the level-0
successor of `update[0]` for an exact match, unlink it, fix the tail
(note: the tail is set to `update[0]` even when that is the head), shrink
the level and unregister the member. -/
def SkipList.Delete (s : SkipList δ) (member : String) (score : Int) :
    SkipList δ × Bool :=
  let ups := updates s score member
  let u0 := (ups.getD 0 (0, 0)).1
  match (slotOf (getNode s u0) 0).forward with
  | none => (s, false)
  | some xi =>
    let xe := (getNode s xi).element
    if xe.score = score ∧ xe.member = member then
      let s1 := removeLoop s ups xi s.level
      let s2 :=
        if (slotOf (getNode s1 xi) 0).forward = none then { s1 with tail := some u0 }
        else s1
      let s3 := { s2 with level := shrink s2 s2.level }
      ({ s3 with elementMap := eraseKey member s3.elementMap, length := s3.length - 1 }, true)
    else (s, false)

/-- `Insert(member, score, data)` from `skiplist.go` with the random level
draw made explicit: if the member is already present, first delete its node
(keyed by the stored score), then run the insertion body. -/
def SkipList.Insert (s : SkipList δ) (member : String) (score : Int) (data : δ)
    (lvl : Nat) : SkipList δ × Element δ :=
  match lookupMap s.elementMap member with
  | some oldIdx =>
    insertCore (SkipList.Delete s member (getNode s oldIdx).element.score).1 member score data lvl
  | none => insertCore s member score data lvl

/-- `GetRank(member, score)` from `skiplist.go`: run the same descent as
`Insert`/`Delete` accumulating spans, then return `rank + 1` iff the next
level-0 node is the queried member, else 0. -/
def SkipList.GetRank (s : SkipList δ) (member : String) (score : Int) : Int :=
  let ups := updates s score member
  let u0 := (ups.getD 0 (0, 0)).1
  let r0 := (ups.getD 0 (0, 0)).2
  match (slotOf (getNode s u0) 0).forward with
  | none => 0
  | some f => if (getNode s f).element.member = member then ((r0 : Int) + 1) else 0

/-- Inner loop of `src/skiplist.go`'s `GetByRank`: advance while
`traversed + span < rank` (strict). -/
def byRankWalkLt (s : SkipList δ) (r ℓ : Nat) : Nat → Nat → Nat → Nat × Nat
  | 0, x, t => (x, t)
  | fuel + 1, x, t =>
    let sl := slotOf (getNode s x) ℓ
    match sl.forward with
    | none => (x, t)
    | some f =>
      if t + sl.span < r then byRankWalkLt s r ℓ fuel f (t + sl.span)
      else (x, t)

/-- Level descent of `src/skiplist.go`'s `GetByRank`: after the walk at each
level, if `traversed + 1 == rank` and the stop node has a forward pointer at
that level, return that forward node's element. -/
def byRankLoopSrc (s : SkipList δ) (r : Nat) : Nat → Nat → Nat → Option (Element δ)
  | 0, _, _ => none
  | i + 1, x, t =>
    let p := byRankWalkLt s r i s.nodes.length x t
    let sl := slotOf (getNode s p.1) i
    if p.2 + 1 = r then
      match sl.forward with
      | some f => some (getNode s f).element
      | none => byRankLoopSrc s r i p.1 p.2
    else byRankLoopSrc s r i p.1 p.2

/-- `GetByRank` as translated in `src/skiplist.go` (the early-return
variant). -/
def SkipList.GetByRankSrc (s : SkipList δ) (rank : Int) : Option (Element δ) :=
  if rank ≤ 0 ∨ rank > (s.length : Int) then none
  else byRankLoopSrc s rank.toNat s.level 0 0

/-- Inner loop of the second translation's `GetByRank`: advance while
`traversed + span ≤ rank`. -/
def byRankWalkLe (s : SkipList δ) (r ℓ : Nat) : Nat → Nat → Nat → Nat × Nat
  | 0, x, t => (x, t)
  | fuel + 1, x, t =>
    let sl := slotOf (getNode s x) ℓ
    match sl.forward with
    | none => (x, t)
    | some f =>
      if t + sl.span ≤ r then byRankWalkLe s r ℓ fuel f (t + sl.span)
      else (x, t)

/-- Level descent of the second translation's `GetByRank`: after the walk
at each level, if `traversed == rank`, return the current node's element. -/
def byRankLoop (s : SkipList δ) (r : Nat) : Nat → Nat → Nat → Option (Element δ)
  | 0, _, _ => none
  | i + 1, x, t =>
    let p := byRankWalkLe s r i s.nodes.length x t
    if p.2 = r then some (getNode s p.1).element
    else byRankLoop s r i p.1 p.2

/-- `GetByRank` as translated in the repository's second skip-list file
(`src/unnamed/part_000`), the standard single-descent variant. -/
def SkipList.GetByRank (s : SkipList δ) (rank : Int) : Option (Element δ) :=
  if rank ≤ 0 ∨ rank > (s.length : Int) then none
  else byRankLoop s rank.toNat s.level 0 0

/-- `GetElementByMember`: side-map lookup. -/
def SkipList.GetElementByMember (s : SkipList δ) (member : String) : Option (Element δ) :=
  match lookupMap s.elementMap member with
  | some i => some (getNode s i).element
  | none => none

/-- `UpdateScore(member, newScore)`: delete the old node (keyed by the
stored score) and re-insert with the preserved payload. -/
def SkipList.UpdateScore (s : SkipList δ) (member : String) (newScore : Int)
    (lvl : Nat) : SkipList δ × Bool :=
  match lookupMap s.elementMap member with
  | some i =>
    let oldScore := (getNode s i).element.score
    let d := (getNode s i).element.data
    let s1 := (SkipList.Delete s member oldScore).1
    ((SkipList.Insert s1 member newScore d lvl).1, true)
  | none => (s, false)

/-- `Len()`. -/
def SkipList.Len (s : SkipList δ) : Nat := s.length

/-- `GetRankRange(start, end)`: clamp both bounds, then collect
`GetByRank i` for `i = start .. end` (the per-rank re-seek of the source),
dropping `nil` results.  Uses the corrected `GetByRank`; `src/skiplist.go`'s
copy of this function differs only in calling its own `GetByRank`. -/
def SkipList.GetRankRange (s : SkipList δ) (start stop : Int) : List (Element δ) :=
  let st := if start ≤ 0 then 1 else start
  let en := if stop > (s.length : Int) then (s.length : Int) else stop
  if st > en then []
  else (List.range ((en - st).toNat + 1)).filterMap
    (fun (k : Nat) => SkipList.GetByRank s (st + (k : Int)))

/-! ## The leaderboard facade

Translated from the `leaderboard.go` source embedded in the repository
(the two translations appended to `README.md`).  The `sync.RWMutex` is a
pure serialisation device with no observable effect on the sequential
semantics and is omitted; `time.Now()` is modelled by an explicit `now`
argument, and the random level draw of the underlying `Insert` by `lvl`. -/

/-- `UpdatePolicy` from `leaderboard.go`. -/
inductive UpdatePolicy
  | UpdateIfHigher
  | UpdateIfLower
  | UpdateAlways
deriving Repr, DecidableEq, Inhabited

/-- `LeaderboardConfig` from `leaderboard.go`. -/
structure LeaderboardConfig where
  id : String
  name : String
  scoreOrder : Bool
  updatePolicy : UpdatePolicy
deriving Repr, DecidableEq, Inhabited

/-- `MemberData` from `leaderboard.go`: the user-visible record, carrying
the member's original (non-inverted) score and an opaque payload. -/
structure MemberData (α : Type) where
  member : String
  score : Int
  data : α
  updatedAt : Nat
deriving Repr, DecidableEq, Inhabited

/-- `RankData` from `leaderboard.go`: a member record plus its 1-based rank
(Go `int64`). -/
structure RankData (α : Type) where
  rank : Int
  memberData : MemberData α
deriving Repr, DecidableEq, Inhabited

/-- `Leaderboard` from `leaderboard.go`.  The skip list stores `MemberData`
payloads (which is all the facade ever inserts, so the Go type assertions
`element.Data.(MemberData)` always succeed and their fallback branches are
unreachable through this API). -/
structure Leaderboard (α : Type) where
  config : LeaderboardConfig
  skipList : SkipList (MemberData α)

/-- The minimum `int64` value, −2⁶³. -/
def int64Min : Int := -9223372036854775808

/-- Go `int64` negation: two's-complement negation wraps on the minimum
value (`-(−2⁶³) = −2⁶³`); on every other in-range value it is plain
negation. -/
def negInt64 (s : Int) : Int := if s = int64Min then int64Min else -s

/-- `NewLeaderboard(config)`. -/
def NewLeaderboard {α : Type} [Inhabited α] (config : LeaderboardConfig) : Leaderboard α :=
  { config := config, skipList := NewSkipList }

variable {α : Type} [Inhabited α]

/-- The update-policy rejection test of `Leaderboard.Add`, returning the Go
error message when the new score is rejected against the stored original
score.  The source's two sequential `if` statements per policy arm are
disjoint on `scoreOrder`, so this `if/else` chain is the same function. -/
def policyReject (cfg : LeaderboardConfig) (existingScore score : Int) : Option String :=
  match cfg.updatePolicy with
  | .UpdateIfHigher =>
    if cfg.scoreOrder ∧ score ≤ existingScore then some "new score is not higher than existing score"
    else if ¬cfg.scoreOrder ∧ score ≥ existingScore then some "new score is not lower than existing score"
    else none
  | .UpdateIfLower =>
    if cfg.scoreOrder ∧ score ≥ existingScore then some "new score is not lower than existing score"
    else if ¬cfg.scoreOrder ∧ score ≤ existingScore then some "new score is not higher than existing score"
    else none
  | .UpdateAlways => none

/-- `Leaderboard.Add(member, score, data)`: policy check against the stored
original score (`existing.Data.(MemberData).Score`), then insert with the
score inverted in low-score-first mode, then read back the rank. -/
def Leaderboard.Add (lb : Leaderboard α) (member : String) (score : Int) (data : α)
    (now : Nat) (lvl : Nat) : Leaderboard α × Except String (RankData α) :=
  let rej :=
    match lb.skipList.GetElementByMember member with
    | some e => policyReject lb.config e.data.score score
    | none => none
  match rej with
  | some msg => (lb, Except.error msg)
  | none =>
    let skipListScore := if lb.config.scoreOrder then score else negInt64 score
    let md : MemberData α := ⟨member, score, data, now⟩
    let sl2 := (lb.skipList.Insert member skipListScore md lvl).1
    let rank := sl2.GetRank member skipListScore
    ({ lb with skipList := sl2 }, Except.ok ⟨rank, md⟩)

/-- `Leaderboard.Remove(member)`. -/
def Leaderboard.Remove (lb : Leaderboard α) (member : String) : Leaderboard α × Bool :=
  match lb.skipList.GetElementByMember member with
  | none => (lb, false)
  | some e =>
    let p := lb.skipList.Delete member e.score
    ({ lb with skipList := p.1 }, p.2)

/-- `Leaderboard.GetRank(member)`. -/
def Leaderboard.GetRank (lb : Leaderboard α) (member : String) : Except String Int :=
  match lb.skipList.GetElementByMember member with
  | none => Except.error "member does not exist"
  | some e => Except.ok (lb.skipList.GetRank member e.score)

/-- `Leaderboard.GetMember(member)`: the stored `MemberData` (the Go type
assertion always succeeds through this API). -/
def Leaderboard.GetMember (lb : Leaderboard α) (member : String) :
    Except String (MemberData α) :=
  match lb.skipList.GetElementByMember member with
  | none => Except.error "member does not exist"
  | some e => Except.ok e.data

/-- `Leaderboard.GetMemberAndRank(member)`. -/
def Leaderboard.GetMemberAndRank (lb : Leaderboard α) (member : String) :
    Except String (RankData α) :=
  match lb.skipList.GetElementByMember member with
  | none => Except.error "member does not exist"
  | some e => Except.ok ⟨lb.skipList.GetRank member e.score, e.data⟩

/-- `Leaderboard.GetRankList(start, end)`, the sequential-rank translation
(`README.md` lines 722–740): ranks are assigned as `start + i` from the raw,
unclamped `start`. -/
def Leaderboard.GetRankList (lb : Leaderboard α) (start stop : Int) :
    Except String (List (RankData α)) :=
  let elements := lb.skipList.GetRankRange start stop
  Except.ok (elements.enum.map (fun p => ⟨start + (p.1 : Int), p.2.data⟩))

/-- `Leaderboard.GetRankList(start, end)`, the per-element re-query
translation (`README.md` lines 453–475): each returned rank is re-computed
by `GetRank` on the stored (possibly inverted) score. -/
def Leaderboard.GetRankListRequery (lb : Leaderboard α) (start stop : Int) :
    Except String (List (RankData α)) :=
  let elements := lb.skipList.GetRankRange start stop
  Except.ok (elements.map (fun e => ⟨lb.skipList.GetRank e.member e.score, e.data⟩))

/-- `Leaderboard.GetAroundMember(member, count)`: compute the member's rank,
clamp `rank ± count` to `[1, Len]`, and delegate to `GetRankList`. -/
def Leaderboard.GetAroundMember (lb : Leaderboard α) (member : String) (count : Int) :
    Except String (List (RankData α)) :=
  match lb.skipList.GetElementByMember member with
  | none => Except.error "member does not exist"
  | some e =>
    let rank := lb.skipList.GetRank member e.score
    let start := if rank - count < 1 then 1 else rank - count
    let stop :=
      if rank + count > (lb.skipList.length : Int) then (lb.skipList.length : Int)
      else rank + count
    lb.GetRankList start stop

/-- `Leaderboard.GetTotal()`. -/
def Leaderboard.GetTotal (lb : Leaderboard α) : Nat := lb.skipList.length

/-- `Leaderboard.Reset()`. -/
def Leaderboard.Reset (lb : Leaderboard α) : Leaderboard α :=
  { lb with skipList := NewSkipList }

/-! ## Observation functions

Executable views of the pointer structure, used to state the claims about
chains and spans. -/

/-- Follow the forward pointers at level `ℓ` starting after node `x`,
collecting the visited node indices (fuel-bounded; the fuel suffices on
every well-formed state). -/
def chainAfter (s : SkipList δ) (ℓ : Nat) : Nat → Nat → List Nat
  | 0, _ => []
  | fuel + 1, x =>
    match (slotOf (getNode s x) ℓ).forward with
    | none => []
    | some f => f :: chainAfter s ℓ fuel f

/-- The forward chain at level `ℓ` starting at the head (head included). -/
def headChainAt (s : SkipList δ) (ℓ : Nat) : List Nat :=
  0 :: chainAfter s ℓ s.nodes.length 0

/-- The sum of the `span` values stored along the forward chain at level
`ℓ` starting at the head. -/
def spanSumAt (s : SkipList δ) (ℓ : Nat) : Nat :=
  ((headChainAt s ℓ).map (fun i => (slotOf (getNode s i) ℓ).span)).sum

/-- The level-0 chain excluding the head: the list of all stored entries in
list order. -/
def entriesOf (s : SkipList δ) : List (Element δ) :=
  (chainAfter s 0 s.nodes.length 0).map (fun i => (getNode s i).element)

/-- States reachable from the empty list by the public mutating operations,
with the random level draw ranging over everything `randomLevel()` can
return. -/
inductive Reach : SkipList δ → Prop
  | empty : Reach NewSkipList
  | insert {s : SkipList δ} (m : String) (sc : Int) (d : δ) {lvl : Nat} :
      Reach s → 1 ≤ lvl → lvl ≤ MaxLevel → Reach (SkipList.Insert s m sc d lvl).1
  | delete {s : SkipList δ} (m : String) (sc : Int) :
      Reach s → Reach (SkipList.Delete s m sc).1

/-! ## The well-formedness invariant

`Inv s c` says that `c` lists the node indices of the level-0 chain of `s`
in order and that the whole pointer/span structure is the one documented in
the specification (§3), with one deliberate weakening: spans stored on a
`nil` forward pointer above level 0 are unconstrained, because the source's
`Insert` genuinely leaves garbage there (see claim C2).  Every component is
decidable, so concrete witnesses can be checked by `decide`. -/

/-- Node `i` of `s` participates in level `ℓ` (its height exceeds `ℓ`). -/
def tall (s : SkipList δ) (ℓ i : Nat) : Prop := ℓ < heightOf (getNode s i)

instance (s : SkipList δ) (ℓ i : Nat) : Decidable (tall s ℓ i) :=
  inferInstanceAs (Decidable (_ < _))

/-- The first node of the list that participates in level `ℓ`, together
with its 0-based offset into the list. -/
def firstTall (s : SkipList δ) (ℓ : Nat) : List Nat → Option (Nat × Nat)
  | [] => none
  | y :: ys =>
    if tall s ℓ y then some (0, y)
    else (firstTall s ℓ ys).map (fun p => (p.1 + 1, p.2))

/-- The strict total order of the list: higher score first, ties broken by
ascending member (the `Prop` version of `precB`). -/
def Prec (a b : Element δ) : Prop :=
  b.score < a.score ∨ (a.score = b.score ∧ strLt a.member b.member = true)

instance (a b : Element δ) : Decidable (Prec a b) :=
  inferInstanceAs (Decidable (_ ∨ _))

/-- The slot of the node at position `p` of the head chain `0 :: c`. -/
def slotAt (s : SkipList δ) (c : List Nat) (p ℓ : Nat) : LevelNode :=
  slotOf (getNode s ((0 :: c).getD p 0)) ℓ

/-- Well-formedness of a skip-list state `s` with level-0 chain `c`
(node indices, head excluded). -/
structure Inv (s : SkipList δ) (c : List Nat) : Prop where
  headIn : 0 < s.nodes.length
  headHeight : heightOf (getNode s 0) = MaxLevel
  bounds : ∀ i ∈ c, i < s.nodes.length ∧ i ≠ 0
  nodup : c.Nodup
  heights : ∀ i ∈ c, 1 ≤ heightOf (getNode s i) ∧ heightOf (getNode s i) ≤ MaxLevel
  levelOk : 1 ≤ s.level ∧ s.level ≤ MaxLevel
  spansOk : ∀ ℓ < MaxLevel, ∀ p < (0 :: c).length, tall s ℓ ((0 :: c).getD p 0) →
    match firstTall s ℓ ((0 :: c).drop (p + 1)) with
    | none => (slotAt s c p ℓ).forward = none
    | some q => (slotAt s c p ℓ).forward = some q.2 ∧ (slotAt s c p ℓ).span = q.1 + 1
  nilSpan0 : ∀ p < (0 :: c).length,
    (slotAt s c p 0).forward = none → (slotAt s c p 0).span = 0
  headUpper : ∀ ℓ, s.level ≤ ℓ → ℓ < MaxLevel → (slotOf (getNode s 0) ℓ).forward = none
  ordering : List.Pairwise Prec (c.map (fun i => (getNode s i).element))
  mapSound : ∀ kv ∈ s.elementMap, kv.2 ∈ c ∧ (getNode s kv.2).element.member = kv.1
  mapComplete : ∀ i ∈ c, ((getNode s i).element.member, i) ∈ s.elementMap
  mapKeysNodup : (s.elementMap.map Prod.fst).Nodup
  lengthOk : s.length = c.length
  tailOk : match c.getLast? with
    | none => s.tail = none ∨ s.tail = some 0
    | some t => s.tail = some t

/-- The elements along a chain, in order. -/
def chainElems (s : SkipList δ) (c : List Nat) : List (Element δ) :=
  c.map (fun i => (getNode s i).element)

/-- The node index at position `p` of the head chain (`p = 0` is the head). -/
def nodeAtPos (c : List Nat) (p : Nat) : Nat := (0 :: c).getD p 0

/-- The number of chain entries that precede the target `(score, member)`
under the total order; on a sorted chain these are exactly the entries at
positions `1 .. cutOf` and the search descent stops at position `cutOf`. -/
def cutOf (s : SkipList δ) (c : List Nat) (score : Int) (member : String) : Nat :=
  c.countP (fun i => precB (getNode s i).element score member)

/-- One `Add` call on a leaderboard, with the hidden inputs (timestamp and
random level draw) made explicit. -/
structure AddOp (α : Type) where
  member : String
  score : Int
  data : α
  now : Nat
  lvl : Nat

/-- Apply a sequence of `Add` calls, keeping the updated leaderboard state
from each step (exactly what a caller issuing the sequence observes). -/
def applyAdds (lb : Leaderboard α) : List (AddOp α) → Leaderboard α
  | [] => lb
  | op :: ops => applyAdds (lb.Add op.member op.score op.data op.now op.lvl).1 ops

/-- The skip-list entry a leaderboard with score order `so` stores for the
member record `md`: the member keyed by the (possibly inverted) score. -/
def toEntry (so : Bool) (md : MemberData α) : Element (MemberData α) :=
  ⟨md.member, if so then md.score else negInt64 md.score, md⟩

/-- The member records held after a sequence of always-accepted `Add`
calls: each call replaces any previous record of the same member. -/
def modelAdds : List (MemberData α) → List (AddOp α) → List (MemberData α)
  | acc, [] => acc
  | acc, op :: ops =>
    modelAdds ((⟨op.member, op.score, op.data, op.now⟩ : MemberData α) ::
      acc.filter (fun md => decide (md.member ≠ op.member))) ops

/-! ## Concrete states for the counterexamples

`cexA` inserts member "a" with score 2 at level 1 into the empty list, then
`cexS` inserts member "b" with score 1 at level 2.  Both are reachable
states (level 2 is a possible `randomLevel()` outcome).  In `cexS` the
level raise makes `Insert` compute the new node's level-1 span as
`0 - 1` in `uint64`, storing the garbage value 2⁶⁴ − 1 on b's nil edge,
and the head's level-1 edge points at "b" with span 2. -/

/-- The empty skip list over `String` payloads. -/
def cex0 : SkipList String := NewSkipList

/-- One entry: ("a", score 2), node height 1. -/
def cexA : SkipList String := (SkipList.Insert cex0 "a" 2 "da" 1).1

/-- Two entries: ("a", 2) then ("b", 1), the second with node height 2. -/
def cexS : SkipList String := (SkipList.Insert cexA "b" 1 "db" 2).1

/-- Deleting the only entry of `cexA`. -/
def cexDel : SkipList String := (SkipList.Delete cexA "a" 2).1

/-- A high-score-first leaderboard holding "alice" and "bob", both with
score 5 (a tie), inserted at height 1. -/
def cexLbHigh : Leaderboard String :=
  (Leaderboard.Add ((Leaderboard.Add (NewLeaderboard ⟨"t", "t", true, .UpdateAlways⟩)
    "alice" 5 "x" 0 1).1) "bob" 5 "y" 0 1).1

/-- The low-score-first leaderboard built by the same insertion sequence. -/
def cexLbLow : Leaderboard String :=
  (Leaderboard.Add ((Leaderboard.Add (NewLeaderboard ⟨"t", "t", false, .UpdateAlways⟩)
    "alice" 5 "x" 0 1).1) "bob" 5 "y" 0 1).1

/-! ## Theorems

First the machinery: order lemmas, list lemmas, store lemmas, the search
walk lemma, the invariant preservation proofs; then the claim theorems. -/

theorem charsLt_cons_iff {a b : Char} {as bs : List Char} :
    charsLt (a :: as) (b :: bs) = true ↔ (a < b ∨ (a = b ∧ charsLt as bs = true)) := by
  by_cases hab : a < b
  · simp [charsLt, hab]
  · by_cases hba : b < a
    · have hne : ¬ a = b := by rintro rfl; exact lt_irrefl a hba
      simp [charsLt, hab, hba, hne]
    · have heq : a = b := le_antisymm (not_lt.mp hba) (not_lt.mp hab)
      simp [charsLt, hab, hba, heq]

theorem charsLt_irrefl : ∀ l : List Char, charsLt l l = false
  | [] => rfl
  | a :: as => by
    rw [Bool.eq_false_iff]
    intro h
    rcases charsLt_cons_iff.mp h with h1 | ⟨-, h2⟩
    · exact lt_irrefl a h1
    · rw [charsLt_irrefl as] at h2; exact Bool.noConfusion h2

theorem charsLt_trans : ∀ {l1 l2 l3 : List Char},
    charsLt l1 l2 = true → charsLt l2 l3 = true → charsLt l1 l3 = true
  | [], _ :: _, _ :: _, _, _ => rfl
  | _ :: _, [], _, h1, _ => Bool.noConfusion h1
  | _, _ :: _, [], _, h2 => Bool.noConfusion h2
  | [], [], _, h1, _ => Bool.noConfusion h1
  | a :: as, b :: bs, cc :: cs, h1, h2 => by
    rcases charsLt_cons_iff.mp h1 with hab | ⟨rfl, hab⟩
    · rcases charsLt_cons_iff.mp h2 with hbc | ⟨rfl, _⟩
      · exact charsLt_cons_iff.mpr (Or.inl (lt_trans hab hbc))
      · exact charsLt_cons_iff.mpr (Or.inl hab)
    · rcases charsLt_cons_iff.mp h2 with hbc | ⟨rfl, hbc⟩
      · exact charsLt_cons_iff.mpr (Or.inl hbc)
      · exact charsLt_cons_iff.mpr (Or.inr ⟨rfl, charsLt_trans hab hbc⟩)

theorem charsLt_total : ∀ {l1 l2 : List Char},
    charsLt l1 l2 = false → charsLt l2 l1 = false → l1 = l2
  | [], [], _, _ => rfl
  | [], _ :: _, h1, _ => Bool.noConfusion h1
  | _ :: _, [], _, h2 => Bool.noConfusion h2
  | a :: as, b :: bs, h1, h2 => by
    have nab : ¬ a < b := by
      intro h
      have hx := (@charsLt_cons_iff a b as bs).mpr (Or.inl h)
      rw [h1] at hx; exact Bool.noConfusion hx
    have nba : ¬ b < a := by
      intro h
      have hx := (@charsLt_cons_iff b a bs as).mpr (Or.inl h)
      rw [h2] at hx; exact Bool.noConfusion hx
    have heq : a = b := le_antisymm (not_lt.mp nba) (not_lt.mp nab)
    subst heq
    have tas : charsLt as bs = false := by
      cases hh : charsLt as bs with
      | false => rfl
      | true =>
        have hx := (@charsLt_cons_iff a a as bs).mpr (Or.inr ⟨rfl, hh⟩)
        rw [h1] at hx; exact Bool.noConfusion hx
    have tbs : charsLt bs as = false := by
      cases hh : charsLt bs as with
      | false => rfl
      | true =>
        have hx := (@charsLt_cons_iff a a bs as).mpr (Or.inr ⟨rfl, hh⟩)
        rw [h2] at hx; exact Bool.noConfusion hx
    rw [charsLt_total tas tbs]

theorem strLt_irrefl (a : String) : strLt a a = false := charsLt_irrefl a.data

theorem strLt_trans {a b c : String} (h1 : strLt a b = true) (h2 : strLt b c = true) :
    strLt a c = true := charsLt_trans h1 h2

theorem strLt_total {a b : String} (h1 : strLt a b = false) (h2 : strLt b a = false) :
    a = b := by
  cases a; cases b
  exact congrArg String.mk (charsLt_total h1 h2)

theorem strLt_asymm {a b : String} (h : strLt a b = true) : strLt b a = false := by
  cases hh : strLt b a with
  | false => rfl
  | true => exact absurd (strLt_trans h hh) (by simp [strLt_irrefl])

/-! ### List lemmas -/

theorem getD_drop {β : Type} (l : List β) (n m : Nat) (d : β) :
    (l.drop n).getD m d = l.getD (n + m) d := by
  simp [List.getD_eq_getElem?_getD, List.getElem?_drop]

theorem getD_eq_get {β : Type} (l : List β) (d : β) {n : Nat} (h : n < l.length) :
    l.getD n d = l.get ⟨n, h⟩ := by
  simp [List.getD_eq_getElem?_getD, List.getElem?_eq_getElem h, List.get_eq_getElem]

theorem getD_mem_of_lt {β : Type} (l : List β) (d : β) {n : Nat} (h : n < l.length) :
    l.getD n d ∈ l := by
  rw [getD_eq_get l d h]; exact l.get_mem n h

theorem firstTall_none_iff (s : SkipList δ) (ℓ : Nat) :
    ∀ l : List Nat, (firstTall s ℓ l = none ↔ ∀ i ∈ l, ¬ tall s ℓ i)
  | [] => by simp [firstTall]
  | y :: ys => by
    by_cases h : tall s ℓ y
    · refine iff_of_false (by simp [firstTall, h]) ?_
      intro hall; exact hall y (List.mem_cons_self y ys) h
    · have ih := firstTall_none_iff s ℓ ys
      simp [firstTall, h, ih]

theorem firstTall_some_spec (s : SkipList δ) (ℓ : Nat) :
    ∀ (l : List Nat) (k f : Nat), firstTall s ℓ l = some (k, f) →
      k < l.length ∧ l.getD k 0 = f ∧ tall s ℓ f ∧ ∀ j < k, ¬ tall s ℓ (l.getD j 0)
  | [], k, f => by simp [firstTall]
  | y :: ys, k, f => by
    by_cases h : tall s ℓ y
    · intro hf
      simp only [firstTall, if_pos h, Option.some_inj, Prod.mk.injEq] at hf
      obtain ⟨rfl, rfl⟩ := hf
      exact ⟨Nat.succ_pos _, rfl, h, fun j hj => absurd hj (Nat.not_lt_zero j)⟩
    · intro hf
      simp only [firstTall, if_neg h, Option.map_eq_some'] at hf
      obtain ⟨⟨k0, f0⟩, hfy, heq⟩ := hf
      cases heq
      obtain ⟨h1, h2, h3, h4⟩ := firstTall_some_spec s ℓ ys k0 f0 hfy
      refine ⟨Nat.succ_lt_succ h1, h2, h3, ?_⟩
      intro j hj
      cases j with
      | zero => exact h
      | succ j0 => exact h4 j0 (Nat.lt_of_succ_lt_succ hj)

theorem firstTall_eq_some_of (s : SkipList δ) (ℓ : Nat) :
    ∀ (l : List Nat) (k f : Nat), k < l.length → l.getD k 0 = f → tall s ℓ f →
      (∀ j < k, ¬ tall s ℓ (l.getD j 0)) → firstTall s ℓ l = some (k, f)
  | [], k, f => by intro hk; exact absurd hk (Nat.not_lt_zero k)
  | y :: ys, k, f => by
    intro hk hget htall hbefore
    cases k with
    | zero =>
      simp only [List.getD_cons_zero] at hget
      subst hget
      simp [firstTall, htall]
    | succ k0 =>
      have hy : ¬ tall s ℓ y := by
        have := hbefore 0 (Nat.succ_pos k0)
        simpa using this
      have hrec := firstTall_eq_some_of s ℓ ys k0 f (Nat.lt_of_succ_lt_succ hk)
        (by simpa using hget) htall
        (fun j hj => by
          have := hbefore (j + 1) (Nat.succ_lt_succ hj)
          simpa using this)
      simp [firstTall, hy, hrec]

theorem firstTall_congr (s1 s2 : SkipList δ) (ℓ : Nat) :
    ∀ l : List Nat, (∀ i ∈ l, heightOf (getNode s2 i) = heightOf (getNode s1 i)) →
      firstTall s2 ℓ l = firstTall s1 ℓ l
  | [], _ => rfl
  | y :: ys, h => by
    have hy : (getNode s2 y).level.length = (getNode s1 y).level.length :=
      h y (List.mem_cons_self y ys)
    have ih := firstTall_congr s1 s2 ℓ ys (fun i hi => h i (List.mem_cons_of_mem y hi))
    by_cases h2 : tall s1 ℓ y
    · have h2b : tall s2 ℓ y := by simpa [tall, heightOf, hy] using h2
      simp [firstTall, h2, h2b]
    · have h2b : ¬ tall s2 ℓ y := by simpa [tall, heightOf, hy] using h2
      simp [firstTall, h2, h2b, ih]

theorem countP_prefix_iff {β : Type} (p : β → Bool) (d : β) :
    ∀ l : List β,
      (∀ i j, i < j → j < l.length → p (l.getD j d) = true → p (l.getD i d) = true) →
      ∀ j < l.length, (p (l.getD j d) = true ↔ j < l.countP p)
  | [] => by intro _ j hj; exact absurd hj (Nat.not_lt_zero j)
  | a :: t => by
    intro hmono j hj
    by_cases ha : p a = true
    · rw [List.countP_cons_of_pos _ _ ha]
      cases j with
      | zero => simpa [ha] using Nat.succ_pos _
      | succ j0 =>
        have ih := countP_prefix_iff p d t
          (fun i j hij hjl hp => hmono (i + 1) (j + 1) (Nat.succ_lt_succ hij)
            (Nat.succ_lt_succ hjl) (by simpa using hp)) j0 (Nat.lt_of_succ_lt_succ hj)
        simpa [Nat.succ_lt_succ_iff] using ih
    · have hall : ∀ x ∈ t, ¬ p x = true := by
        intro x hx hpx
        obtain ⟨⟨jx, hjx⟩, hget⟩ := List.mem_iff_get.mp hx
        have hgd : t.getD jx d = x := by rw [getD_eq_get t d hjx]; exact hget
        exact ha (hmono 0 (jx + 1) (Nat.succ_pos jx) (Nat.succ_lt_succ hjx)
          (by rw [← hgd] at hpx; exact hpx))
      have hcnt : (a :: t).countP p = 0 := by
        rw [List.countP_cons_of_neg _ _ (by simpa using ha)]
        exact List.countP_eq_zero.mpr (by simpa using hall)
      rw [hcnt]
      cases j with
      | zero => simpa using ha
      | succ j0 =>
        refine iff_of_false ?_ (by omega)
        intro hp
        have hmem : t.getD j0 d ∈ t := getD_mem_of_lt t d (Nat.lt_of_succ_lt_succ hj)
        exact hall _ hmem (by simpa using hp)

theorem countP_eq_of_prefix {β : Type} (p : β → Bool) (d : β) :
    ∀ (l : List β) (k : Nat), k ≤ l.length →
      (∀ j < l.length, (p (l.getD j d) = true ↔ j < k)) → l.countP p = k
  | [], k => by intro hk _; have hz := Nat.le_zero.mp hk; simp [hz]
  | a :: t, k => by
    intro hk h
    cases k with
    | zero =>
      have ha : p a = false := by
        have := h 0 (Nat.succ_pos _)
        simpa using this
      rw [List.countP_cons_of_neg _ _ (by simp [ha])]
      exact countP_eq_of_prefix p d t 0 (Nat.zero_le _)
        (fun j hj => by
          have := h (j + 1) (Nat.succ_lt_succ hj)
          simpa using this)
    | succ k0 =>
      have ha : p a = true := by
        have := h 0 (Nat.succ_pos _)
        simpa using this.mpr (Nat.succ_pos k0)
      rw [List.countP_cons_of_pos _ _ ha]
      have := countP_eq_of_prefix p d t k0 (Nat.le_of_succ_le_succ hk)
        (fun j hj => by
          have := h (j + 1) (Nat.succ_lt_succ hj)
          simpa [Nat.succ_lt_succ_iff] using this)
      omega

/-! ### Store lemmas -/

theorem setSlot_oob (s : SkipList δ) (i ℓ : Nat) (sl : LevelNode)
    (h : s.nodes.length ≤ i) : setSlot s i ℓ sl = s := by
  simp [setSlot, List.set_eq_of_length_le h]

theorem nodesLength_setSlot (s : SkipList δ) (i ℓ : Nat) (sl : LevelNode) :
    (setSlot s i ℓ sl).nodes.length = s.nodes.length := by
  simp [setSlot]

theorem tail_setSlot (s : SkipList δ) (i ℓ : Nat) (sl : LevelNode) :
    (setSlot s i ℓ sl).tail = s.tail := rfl

theorem length_setSlot (s : SkipList δ) (i ℓ : Nat) (sl : LevelNode) :
    (setSlot s i ℓ sl).length = s.length := rfl

theorem level_setSlot (s : SkipList δ) (i ℓ : Nat) (sl : LevelNode) :
    (setSlot s i ℓ sl).level = s.level := rfl

theorem elementMap_setSlot (s : SkipList δ) (i ℓ : Nat) (sl : LevelNode) :
    (setSlot s i ℓ sl).elementMap = s.elementMap := rfl

theorem getNode_setSlot_ne (s : SkipList δ) (i ℓ : Nat) (sl : LevelNode) (j : Nat)
    (h : i ≠ j) : getNode (setSlot s i ℓ sl) j = getNode s j := by
  simp [setSlot, getNode, List.getD_eq_getElem?_getD, List.getElem?_set_ne h]

theorem getNode_setSlot_self (s : SkipList δ) (i ℓ : Nat) (sl : LevelNode)
    (h : i < s.nodes.length) :
    getNode (setSlot s i ℓ sl) i =
      { getNode s i with level := (getNode s i).level.set ℓ sl } := by
  simp [setSlot, getNode, List.getD_eq_getElem?_getD, List.getElem?_set_self h]

theorem element_getNode_setSlot (s : SkipList δ) (i ℓ : Nat) (sl : LevelNode) (j : Nat) :
    (getNode (setSlot s i ℓ sl) j).element = (getNode s j).element := by
  by_cases h : i = j
  · subst h
    by_cases h2 : i < s.nodes.length
    · rw [getNode_setSlot_self s i ℓ sl h2]
    · rw [setSlot_oob s i ℓ sl (Nat.le_of_not_lt h2)]
  · rw [getNode_setSlot_ne s i ℓ sl j h]

theorem heightOf_getNode_setSlot (s : SkipList δ) (i ℓ : Nat) (sl : LevelNode) (j : Nat) :
    heightOf (getNode (setSlot s i ℓ sl) j) = heightOf (getNode s j) := by
  by_cases h : i = j
  · subst h
    by_cases h2 : i < s.nodes.length
    · rw [getNode_setSlot_self s i ℓ sl h2]; simp [heightOf]
    · rw [setSlot_oob s i ℓ sl (Nat.le_of_not_lt h2)]
  · rw [getNode_setSlot_ne s i ℓ sl j h]

theorem slotOf_set_level_ne (n : Node δ) (ℓ m : Nat) (sl : LevelNode) (h : ℓ ≠ m) :
    slotOf { n with level := n.level.set ℓ sl } m = slotOf n m := by
  simp [slotOf, List.getD_eq_getElem?_getD, List.getElem?_set_ne h]

theorem slotOf_getNode_setSlot_ne_node (s : SkipList δ) (i ℓ : Nat) (sl : LevelNode)
    (j m : Nat) (h : i ≠ j) :
    slotOf (getNode (setSlot s i ℓ sl) j) m = slotOf (getNode s j) m := by
  rw [getNode_setSlot_ne s i ℓ sl j h]

theorem slotOf_getNode_setSlot_ne_level (s : SkipList δ) (i ℓ : Nat) (sl : LevelNode)
    (j m : Nat) (h : ℓ ≠ m) :
    slotOf (getNode (setSlot s i ℓ sl) j) m = slotOf (getNode s j) m := by
  by_cases hj : i = j
  · subst hj
    by_cases h2 : i < s.nodes.length
    · rw [getNode_setSlot_self s i ℓ sl h2, slotOf_set_level_ne _ _ _ _ h]
    · rw [setSlot_oob s i ℓ sl (Nat.le_of_not_lt h2)]
  · rw [getNode_setSlot_ne s i ℓ sl j hj]

theorem slotOf_getNode_setSlot_self (s : SkipList δ) (i ℓ : Nat) (sl : LevelNode)
    (hi : i < s.nodes.length) (hℓ : ℓ < heightOf (getNode s i)) :
    slotOf (getNode (setSlot s i ℓ sl) i) ℓ = sl := by
  rw [getNode_setSlot_self s i ℓ sl hi]
  simp only [slotOf]
  rw [List.getD_eq_getElem _ _ (by simpa [heightOf] using hℓ)]
  simp

/-! ### Loop characterisation lemmas

The three store-mutating loops write pairwise distinct `(node, level)` slots,
so each final slot is determined by the pre-state.  `ups` is the `update[]`
array paired with `rank[]`; `(ups.getD ℓ (0,0)).1` is `update[ℓ]`. -/

theorem insertSplice_fields (s : SkipList δ) (ups : List (Nat × Nat)) (rank0 newIdx : Nat) :
    ∀ k, (insertSplice s ups rank0 newIdx k).tail = s.tail ∧
      (insertSplice s ups rank0 newIdx k).length = s.length ∧
      (insertSplice s ups rank0 newIdx k).level = s.level ∧
      (insertSplice s ups rank0 newIdx k).elementMap = s.elementMap ∧
      (insertSplice s ups rank0 newIdx k).nodes.length = s.nodes.length
  | 0 => ⟨rfl, rfl, rfl, rfl, rfl⟩
  | k + 1 => by
    obtain ⟨h1, h2, h3, h4, h5⟩ := insertSplice_fields s ups rank0 newIdx k
    simp [insertSplice, tail_setSlot, length_setSlot, level_setSlot, elementMap_setSlot,
      nodesLength_setSlot, h1, h2, h3, h4, h5]

theorem insertSplice_element (s : SkipList δ) (ups : List (Nat × Nat)) (rank0 newIdx : Nat) :
    ∀ k j, (getNode (insertSplice s ups rank0 newIdx k) j).element = (getNode s j).element
  | 0, _ => rfl
  | k + 1, j => by
    simp [insertSplice, element_getNode_setSlot,
      insertSplice_element s ups rank0 newIdx k j]

theorem insertSplice_height (s : SkipList δ) (ups : List (Nat × Nat)) (rank0 newIdx : Nat) :
    ∀ k j, heightOf (getNode (insertSplice s ups rank0 newIdx k) j) =
      heightOf (getNode s j)
  | 0, _ => rfl
  | k + 1, j => by
    simp [insertSplice, heightOf_getNode_setSlot,
      insertSplice_height s ups rank0 newIdx k j]

theorem insertSplice_slot_untouched (s : SkipList δ) (ups : List (Nat × Nat))
    (rank0 newIdx : Nat) :
    ∀ k j m, (m < k → j ≠ newIdx ∧ j ≠ (ups.getD m (0, 0)).1) →
      slotOf (getNode (insertSplice s ups rank0 newIdx k) j) m = slotOf (getNode s j) m
  | 0, _, _, _ => rfl
  | k + 1, j, m, h => by
    by_cases hm : m = k
    · subst hm
      obtain ⟨hj1, hj2⟩ := h (Nat.lt_succ_self m)
      simp only [insertSplice]
      rw [slotOf_getNode_setSlot_ne_node _ _ _ _ _ _ (Ne.symm hj2),
        slotOf_getNode_setSlot_ne_node _ _ _ _ _ _ (Ne.symm hj1)]
      exact insertSplice_slot_untouched s ups rank0 newIdx m j m
        (fun hmm => absurd hmm (lt_irrefl m))
    · simp only [insertSplice]
      rw [slotOf_getNode_setSlot_ne_level _ _ _ _ _ _ (Ne.symm hm),
        slotOf_getNode_setSlot_ne_level _ _ _ _ _ _ (Ne.symm hm)]
      exact insertSplice_slot_untouched s ups rank0 newIdx k j m
        (fun hmk => h (Nat.lt_succ_of_lt hmk))

theorem insertSplice_slot_new (s : SkipList δ) (ups : List (Nat × Nat))
    (rank0 newIdx : Nat) :
    ∀ k ℓ, ℓ < k → (∀ m < k, (ups.getD m (0, 0)).1 ≠ newIdx) →
      newIdx < s.nodes.length → (∀ m < k, m < heightOf (getNode s newIdx)) →
      slotOf (getNode (insertSplice s ups rank0 newIdx k) newIdx) ℓ =
        ⟨(slotOf (getNode s (ups.getD ℓ (0, 0)).1) ℓ).forward,
         usub (slotOf (getNode s (ups.getD ℓ (0, 0)).1) ℓ).span
           (rank0 - (ups.getD ℓ (0, 0)).2)⟩
  | 0, ℓ, hℓ => absurd hℓ (Nat.not_lt_zero ℓ)
  | k + 1, ℓ, hℓ => by
    intro hne hin ht
    by_cases hm : ℓ = k
    · subst hm
      simp only [insertSplice]
      have hA : slotOf (getNode (insertSplice s ups rank0 newIdx ℓ) (ups.getD ℓ (0, 0)).1) ℓ =
          slotOf (getNode s (ups.getD ℓ (0, 0)).1) ℓ :=
        insertSplice_slot_untouched s ups rank0 newIdx ℓ _ ℓ
          (fun hmm => absurd hmm (lt_irrefl ℓ))
      rw [slotOf_getNode_setSlot_ne_node _ _ _ _ _ _ (hne ℓ (Nat.lt_succ_self ℓ))]
      rw [hA]
      exact slotOf_getNode_setSlot_self _ _ _ _
        (by rw [(insertSplice_fields s ups rank0 newIdx ℓ).2.2.2.2]; exact hin)
        (by rw [insertSplice_height s ups rank0 newIdx ℓ newIdx]
            exact ht ℓ (Nat.lt_succ_self ℓ))
    · have hℓk : ℓ < k := Nat.lt_of_le_of_ne (Nat.lt_succ_iff.mp hℓ) hm
      simp only [insertSplice]
      rw [slotOf_getNode_setSlot_ne_level _ _ _ _ _ _ (Ne.symm hm),
        slotOf_getNode_setSlot_ne_level _ _ _ _ _ _ (Ne.symm hm)]
      exact insertSplice_slot_new s ups rank0 newIdx k ℓ hℓk
        (fun m hmk => hne m (Nat.lt_succ_of_lt hmk)) hin
        (fun m hmk => ht m (Nat.lt_succ_of_lt hmk))

theorem insertSplice_slot_upd (s : SkipList δ) (ups : List (Nat × Nat))
    (rank0 newIdx : Nat) :
    ∀ k ℓ, ℓ < k → (ups.getD ℓ (0, 0)).1 < s.nodes.length →
      ℓ < heightOf (getNode s (ups.getD ℓ (0, 0)).1) →
      slotOf (getNode (insertSplice s ups rank0 newIdx k) (ups.getD ℓ (0, 0)).1) ℓ =
        ⟨some newIdx, (rank0 - (ups.getD ℓ (0, 0)).2) + 1⟩
  | 0, ℓ, hℓ => absurd hℓ (Nat.not_lt_zero ℓ)
  | k + 1, ℓ, hℓ => by
    intro hin ht
    by_cases hm : ℓ = k
    · subst hm
      simp only [insertSplice]
      apply slotOf_getNode_setSlot_self
      · rw [nodesLength_setSlot, (insertSplice_fields s ups rank0 newIdx ℓ).2.2.2.2]
        exact hin
      · rw [heightOf_getNode_setSlot, insertSplice_height s ups rank0 newIdx ℓ]
        exact ht
    · have hℓk : ℓ < k := Nat.lt_of_le_of_ne (Nat.lt_succ_iff.mp hℓ) hm
      simp only [insertSplice]
      rw [slotOf_getNode_setSlot_ne_level _ _ _ _ _ _ (Ne.symm hm),
        slotOf_getNode_setSlot_ne_level _ _ _ _ _ _ (Ne.symm hm)]
      exact insertSplice_slot_upd s ups rank0 newIdx k ℓ hℓk hin ht

theorem insertBump_fields (ups : List (Nat × Nat)) :
    ∀ (k : Nat) (s : SkipList δ) (lo : Nat),
      (insertBump s ups lo k).tail = s.tail ∧
      (insertBump s ups lo k).length = s.length ∧
      (insertBump s ups lo k).level = s.level ∧
      (insertBump s ups lo k).elementMap = s.elementMap ∧
      (insertBump s ups lo k).nodes.length = s.nodes.length
  | 0, _, _ => ⟨rfl, rfl, rfl, rfl, rfl⟩
  | k + 1, s, lo => by
    obtain ⟨h1, h2, h3, h4, h5⟩ := insertBump_fields ups k (setSlot s
      (ups.getD lo (0, 0)).1 lo
      ⟨(slotOf (getNode s (ups.getD lo (0, 0)).1) lo).forward,
       (slotOf (getNode s (ups.getD lo (0, 0)).1) lo).span + 1⟩) (lo + 1)
    simp only [insertBump]
    rw [h1, h2, h3, h4, h5]
    simp [tail_setSlot, length_setSlot, level_setSlot, elementMap_setSlot, nodesLength_setSlot]

theorem insertBump_element (ups : List (Nat × Nat)) :
    ∀ (k : Nat) (s : SkipList δ) (lo j : Nat),
      (getNode (insertBump s ups lo k) j).element = (getNode s j).element
  | 0, _, _, _ => rfl
  | k + 1, s, lo, j => by
    simp only [insertBump]
    rw [insertBump_element ups k _ (lo + 1) j, element_getNode_setSlot]

theorem insertBump_height (ups : List (Nat × Nat)) :
    ∀ (k : Nat) (s : SkipList δ) (lo j : Nat),
      heightOf (getNode (insertBump s ups lo k) j) = heightOf (getNode s j)
  | 0, _, _, _ => rfl
  | k + 1, s, lo, j => by
    simp only [insertBump]
    rw [insertBump_height ups k _ (lo + 1) j, heightOf_getNode_setSlot]

theorem insertBump_slot_untouched (ups : List (Nat × Nat)) :
    ∀ (k : Nat) (s : SkipList δ) (lo j m : Nat),
      (lo ≤ m → m < lo + k → j ≠ (ups.getD m (0, 0)).1) →
      slotOf (getNode (insertBump s ups lo k) j) m = slotOf (getNode s j) m
  | 0, _, _, _, _, _ => rfl
  | k + 1, s, lo, j, m, h => by
    simp only [insertBump]
    rw [insertBump_slot_untouched ups k _ (lo + 1) j m
      (fun h1 h2 => h (Nat.le_of_succ_le h1) (by omega))]
    by_cases hm : m = lo
    · subst hm
      exact slotOf_getNode_setSlot_ne_node _ _ _ _ _ _
        (Ne.symm (h (Nat.le_refl m) (by omega)))
    · exact slotOf_getNode_setSlot_ne_level _ _ _ _ _ _ (fun e => hm e.symm)


theorem insertBump_slot_upd (ups : List (Nat × Nat)) :
    ∀ (k : Nat) (s : SkipList δ) (lo m : Nat), lo ≤ m → m < lo + k →
      (ups.getD m (0, 0)).1 < s.nodes.length →
      m < heightOf (getNode s (ups.getD m (0, 0)).1) →
      slotOf (getNode (insertBump s ups lo k) (ups.getD m (0, 0)).1) m =
        ⟨(slotOf (getNode s (ups.getD m (0, 0)).1) m).forward,
         (slotOf (getNode s (ups.getD m (0, 0)).1) m).span + 1⟩
  | 0, _, _, m, hlo, hhi => by omega
  | k + 1, s, lo, m, hlo, hhi => by
    intro hin ht
    by_cases hm : m = lo
    · subst hm
      simp only [insertBump]
      rw [insertBump_slot_untouched ups k _ (m + 1) _ m (fun h1 _ => by omega)]
      exact slotOf_getNode_setSlot_self _ _ _ _ hin ht
    · have hlo2 : lo + 1 ≤ m := by omega
      simp only [insertBump]
      rw [insertBump_slot_upd ups k _ (lo + 1) m hlo2 (by omega)
        (by rw [nodesLength_setSlot]; exact hin)
        (by rw [heightOf_getNode_setSlot]; exact ht)]
      rw [slotOf_getNode_setSlot_ne_level _ _ _ _ _ _ (fun e => hm e.symm)]

theorem removeLoop_fields (s : SkipList δ) (ups : List (Nat × Nat)) (xi : Nat) :
    ∀ k, (removeLoop s ups xi k).tail = s.tail ∧
      (removeLoop s ups xi k).length = s.length ∧
      (removeLoop s ups xi k).level = s.level ∧
      (removeLoop s ups xi k).elementMap = s.elementMap ∧
      (removeLoop s ups xi k).nodes.length = s.nodes.length
  | 0 => ⟨rfl, rfl, rfl, rfl, rfl⟩
  | k + 1 => by
    obtain ⟨h1, h2, h3, h4, h5⟩ := removeLoop_fields s ups xi k
    simp only [removeLoop]
    split <;>
      simp [tail_setSlot, length_setSlot, level_setSlot,
        elementMap_setSlot, nodesLength_setSlot, h1, h2, h3, h4, h5]

theorem removeLoop_element (s : SkipList δ) (ups : List (Nat × Nat)) (xi : Nat) :
    ∀ k j, (getNode (removeLoop s ups xi k) j).element = (getNode s j).element
  | 0, _ => rfl
  | k + 1, j => by
    have ih := removeLoop_element s ups xi k j
    simp only [removeLoop]
    split <;> simp [element_getNode_setSlot, ih]

theorem removeLoop_height (s : SkipList δ) (ups : List (Nat × Nat)) (xi : Nat) :
    ∀ k j, heightOf (getNode (removeLoop s ups xi k) j) = heightOf (getNode s j)
  | 0, _ => rfl
  | k + 1, j => by
    have ih := removeLoop_height s ups xi k j
    simp only [removeLoop]
    split <;> simp [heightOf_getNode_setSlot, ih]

theorem removeLoop_slot_untouched (s : SkipList δ) (ups : List (Nat × Nat)) (xi : Nat) :
    ∀ k j m, (m < k → j ≠ (ups.getD m (0, 0)).1) →
      slotOf (getNode (removeLoop s ups xi k) j) m = slotOf (getNode s j) m
  | 0, _, _, _ => rfl
  | k + 1, j, m, h => by
    have ih := removeLoop_slot_untouched s ups xi k j m
      (fun hmk => h (Nat.lt_succ_of_lt hmk))
    simp only [removeLoop]
    by_cases hm : m = k
    · subst hm
      have hj := h (Nat.lt_succ_self m)
      split <;> (rw [slotOf_getNode_setSlot_ne_node _ _ _ _ _ _ (Ne.symm hj)]; exact ih)
    · split <;>
        (rw [slotOf_getNode_setSlot_ne_level _ _ _ _ _ _ (fun e => hm e.symm)]; exact ih)

theorem removeLoop_slot_upd (s : SkipList δ) (ups : List (Nat × Nat)) (xi : Nat) :
    ∀ k m, m < k → (∀ j < k, (ups.getD j (0, 0)).1 ≠ xi) →
      (ups.getD m (0, 0)).1 < s.nodes.length →
      m < heightOf (getNode s (ups.getD m (0, 0)).1) →
      slotOf (getNode (removeLoop s ups xi k) (ups.getD m (0, 0)).1) m =
        (if (slotOf (getNode s (ups.getD m (0, 0)).1) m).forward = some xi then
          ⟨(slotOf (getNode s xi) m).forward,
           usub ((slotOf (getNode s (ups.getD m (0, 0)).1) m).span +
             (slotOf (getNode s xi) m).span) 1⟩
        else
          ⟨(slotOf (getNode s (ups.getD m (0, 0)).1) m).forward,
           usub (slotOf (getNode s (ups.getD m (0, 0)).1) m).span 1⟩) := by
  intro k
  induction k with
  | zero => intro m hm; exact absurd hm (Nat.not_lt_zero m)
  | succ k ih =>
    intro m hm hx hin ht
    by_cases hmk : m = k
    · subst hmk
      have hus : slotOf (getNode (removeLoop s ups xi m) (ups.getD m (0, 0)).1) m =
          slotOf (getNode s (ups.getD m (0, 0)).1) m :=
        removeLoop_slot_untouched s ups xi m _ m (fun hmm => absurd hmm (lt_irrefl m))
      have hxs : slotOf (getNode (removeLoop s ups xi m) xi) m = slotOf (getNode s xi) m :=
        removeLoop_slot_untouched s ups xi m xi m
          (fun hmm => absurd hmm (lt_irrefl m))
      simp only [removeLoop, hus, hxs]
      by_cases hif : (slotOf (getNode s (ups.getD m (0, 0)).1) m).forward = some xi
      · rw [if_pos hif, if_pos hif]
        exact slotOf_getNode_setSlot_self _ _ _ _
          (by rw [(removeLoop_fields s ups xi m).2.2.2.2]; exact hin)
          (by rw [removeLoop_height s ups xi m]; exact ht)
      · rw [if_neg hif, if_neg hif]
        exact slotOf_getNode_setSlot_self _ _ _ _
          (by rw [(removeLoop_fields s ups xi m).2.2.2.2]; exact hin)
          (by rw [removeLoop_height s ups xi m]; exact ht)

    · have hmk2 : m < k := Nat.lt_of_le_of_ne (Nat.lt_succ_iff.mp hm) hmk
      have ih2 := ih m hmk2 (fun j hj => hx j (Nat.lt_succ_of_lt hj)) hin ht
      simp only [removeLoop]
      split <;>
        (rw [slotOf_getNode_setSlot_ne_level _ _ _ _ _ _ (fun e => hmk e.symm)]; exact ih2)

/-- `precB` against an element's own key is exactly the total order `Prec`. -/
theorem precB_iff_prec {x e : Element δ} :
    precB x e.score e.member = true ↔ Prec x e := by
  simp [precB, Prec]

theorem prec_irrefl (a : Element δ) : ¬ Prec a a := by
  rintro (h | ⟨-, h⟩)
  · exact lt_irrefl _ h
  · rw [strLt_irrefl] at h; cases h

theorem prec_trans {a b c : Element δ} (h1 : Prec a b) (h2 : Prec b c) : Prec a c := by
  rcases h1 with h1 | ⟨e1, s1⟩ <;> rcases h2 with h2 | ⟨e2, s2⟩
  · exact Or.inl (lt_trans h2 h1)
  · exact Or.inl (e2 ▸ h1)
  · exact Or.inl (e1 ▸ h2)
  · exact Or.inr ⟨e1.trans e2, strLt_trans s1 s2⟩

theorem prec_asymm {a b : Element δ} (h : Prec a b) : ¬ Prec b a :=
  fun h2 => prec_irrefl a (prec_trans h h2)

/-- Target monotonicity: anything preceding `b` also precedes `b`'s target. -/
theorem precB_of_prec {a b : Element δ} {sc : Int} {m : String}
    (h1 : Prec a b) (h2 : precB b sc m = true) : precB a sc m = true := by
  simp only [precB, Bool.or_eq_true, Bool.and_eq_true, decide_eq_true_eq] at h2 ⊢
  rcases h1 with h1 | ⟨e1, s1⟩ <;> rcases h2 with h2 | ⟨e2, s2⟩
  · exact Or.inl (lt_trans h2 h1)
  · exact Or.inl (e2 ▸ h1)
  · exact Or.inl (e1 ▸ h2)
  · exact Or.inr ⟨e1.trans e2, strLt_trans s1 s2⟩

/-- Totality at the insertion point: an element that does not precede the
target and does not carry the target member comes strictly after the new
element built from the target. -/
theorem prec_new_of_not_precB {b : Element δ} {sc : Int} {m : String} {d : δ}
    (h : precB b sc m = false) (hm : b.member ≠ m) :
    Prec (⟨m, sc, d⟩ : Element δ) b := by
  simp only [precB, Bool.or_eq_false_iff, Bool.and_eq_false_iff, decide_eq_false_iff_not,
    not_lt] at h
  obtain ⟨hle, hor⟩ := h
  rcases lt_or_eq_of_le hle with hlt | heq
  · exact Or.inl hlt
  · refine Or.inr ⟨heq.symm, ?_⟩
    rcases hor with hne | hs
    · exact absurd heq (by simpa using hne)
    · cases hh : strLt m b.member with
      | false => exact absurd (strLt_total hh hs).symm hm
      | true => rfl

/-! ### Invariant consequences -/

theorem inv_hc_nodup {s : SkipList δ} {c : List Nat} (h : Inv s c) : (0 :: c).Nodup :=
  List.nodup_cons.mpr ⟨fun h0 => (h.bounds 0 h0).2 rfl, h.nodup⟩

theorem inv_chain_length_lt {s : SkipList δ} {c : List Nat} (h : Inv s c) :
    c.length < s.nodes.length := by
  have hsub : c.toFinset ⊆ (Finset.range s.nodes.length).erase 0 := by
    intro i hi
    obtain ⟨h1, h2⟩ := h.bounds i (List.mem_toFinset.mp hi)
    exact Finset.mem_erase.mpr ⟨h2, Finset.mem_range.mpr h1⟩
  have hcard := Finset.card_le_card hsub
  rw [List.toFinset_card_of_nodup h.nodup,
    Finset.card_erase_of_mem (Finset.mem_range.mpr h.headIn), Finset.card_range] at hcard
  have h0 := h.headIn
  omega

theorem inv_pos_lt_nodes {s : SkipList δ} {c : List Nat} (h : Inv s c) {p : Nat}
    (hp : p < (0 :: c).length) : (0 :: c).getD p 0 < s.nodes.length := by
  cases p with
  | zero => exact h.headIn
  | succ p0 =>
    have hmem : c.getD p0 0 ∈ c := getD_mem_of_lt c 0 (by simpa using hp)
    exact (h.bounds _ hmem).1

theorem inv_pos_inj {s : SkipList δ} {c : List Nat} (h : Inv s c) {p q : Nat}
    (hp : p < (0 :: c).length) (hq : q < (0 :: c).length)
    (he : (0 :: c).getD p 0 = (0 :: c).getD q 0) : p = q := by
  have hnd := inv_hc_nodup h
  rw [getD_eq_get _ 0 hp, getD_eq_get _ 0 hq] at he
  have := (List.Nodup.get_inj_iff hnd).mp he
  exact congrArg Fin.val this

/-- At level 0 every chain node is tall, so `firstTall` finds the immediate
successor. -/
theorem inv_tall0 {s : SkipList δ} {c : List Nat} (h : Inv s c) (p : Nat)
    (hp : p < (0 :: c).length) : tall s 0 ((0 :: c).getD p 0) := by
  cases p with
  | zero => simp [tall, h.headHeight, MaxLevel]
  | succ p0 =>
    have hmem : c.getD p0 0 ∈ c := getD_mem_of_lt c 0 (by simpa using hp)
    exact Nat.lt_of_lt_of_le Nat.zero_lt_one (h.heights _ hmem).1

theorem inv_chainAfter {s : SkipList δ} {c : List Nat} (h : Inv s c) :
    ∀ (k p : Nat), p + k = c.length → p < (0 :: c).length →
      ∀ fuel, k ≤ fuel → chainAfter s 0 fuel ((0 :: c).getD p 0) = c.drop p := by
  intro k
  induction k with
  | zero =>
    intro p hpk hp fuel _
    have hplen : p = c.length := by omega
    have hnone : (slotOf (getNode s ((0 :: c).getD p 0)) 0).forward = none := by
      have hsp := h.spansOk 0 (by simp [MaxLevel]) p hp (inv_tall0 h p hp)
      have hdrop : (0 :: c).drop (p + 1) = [] := by
        apply List.drop_eq_nil_of_le; simp [hplen]
      rw [hdrop] at hsp
      simpa [firstTall, slotAt] using hsp
    cases fuel with
    | zero => simp [chainAfter, List.drop_eq_nil_of_le, hplen]
    | succ f =>
      simp only [chainAfter, hnone]
      rw [List.drop_eq_nil_of_le (by omega)]
  | succ k0 ih =>
    intro p hpk hp fuel hfuel
    have hplen : p < c.length := by omega
    have hsp := h.spansOk 0 (by simp [MaxLevel]) p hp (inv_tall0 h p hp)
    have hdrop : (0 :: c).drop (p + 1) = c.drop p := rfl
    have hne : c.drop p ≠ [] := by
      intro hnil
      have := List.drop_eq_nil_iff.mp hnil
      omega
    obtain ⟨y, ys, hys⟩ := List.exists_cons_of_ne_nil hne
    have hy : y = c.getD p 0 := by
      have : (c.drop p).getD 0 0 = c.getD p 0 := by rw [getD_drop]; simp
      rw [hys] at this; simpa using this
    have htally : tall s 0 y := by
      rw [hy]
      exact inv_tall0 h (p + 1) (by simpa using hplen)
    have hfirst : firstTall s 0 ((0 :: c).drop (p + 1)) = some (0, y) := by
      rw [hdrop, hys]; simp [firstTall, htally]
    rw [hfirst] at hsp
    obtain ⟨hfwd, -⟩ := hsp
    cases fuel with
    | zero => omega
    | succ f =>
      simp only [chainAfter]
      rw [show (slotOf (getNode s ((0 :: c).getD p 0)) 0).forward = some y from hfwd]
      have hrec := ih (p + 1) (by omega) (by simpa using hplen) f (by omega)
      have hpos : (0 :: c).getD (p + 1) 0 = y := by
        simp only [List.getD_cons_succ]; exact hy.symm
      rw [hpos] at hrec
      show y :: chainAfter s 0 f y = List.drop p c
      have htl : c.drop (p + 1) = ys := by
        have hdd : c.drop (p + 1) = (c.drop p).drop 1 := by
          rw [List.drop_drop]
        rw [hdd, hys]
        simp
      rw [hrec, htl, hys]

theorem inv_entriesOf {s : SkipList δ} {c : List Nat} (h : Inv s c) :
    entriesOf s = chainElems s c := by
  have h0 := inv_chainAfter h c.length 0 (by omega) (by simp) s.nodes.length
    (Nat.le_of_lt (inv_chain_length_lt h))
  simp only [entriesOf, chainElems]
  rw [show (0 : Nat) :: c = (0 :: c) from rfl] at h0
  have : chainAfter s 0 s.nodes.length 0 = c := by simpa using h0
  rw [this]

/-- The level-0 span sum is exactly the chain length on every well-formed
state. -/
theorem inv_spanSum0 {s : SkipList δ} {c : List Nat} (h : Inv s c) :
    spanSumAt s 0 = c.length := by
  have hchain : chainAfter s 0 s.nodes.length 0 = c := by
    have h0 := inv_chainAfter h c.length 0 (by omega) (by simp) s.nodes.length
      (Nat.le_of_lt (inv_chain_length_lt h))
    simpa using h0
  have haux : ∀ (k p : Nat), p + k = c.length → p < (0 :: c).length →
      (((0 :: c).drop p).map (fun i => (slotOf (getNode s i) 0).span)).sum =
        c.length - p := by
    intro k
    induction k with
    | zero =>
      intro p hpk hp
      have hplen : p = c.length := by omega
      have hdrop : (0 :: c).drop p = [(0 :: c).getD p 0] := by
        have h1 : (0 :: c).drop p = (0 :: c).getD p 0 :: (0 :: c).drop (p + 1) := by
          rw [getD_eq_get _ 0 hp]
          exact (List.drop_eq_get_cons hp)
        rw [h1, List.drop_eq_nil_of_le (by simp [hplen])]
      have hnone : (slotOf (getNode s ((0 :: c).getD p 0)) 0).forward = none := by
        have hsp := h.spansOk 0 (by simp [MaxLevel]) p hp (inv_tall0 h p hp)
        have hd2 : (0 :: c).drop (p + 1) = [] := by
          apply List.drop_eq_nil_of_le; simp [hplen]
        rw [hd2] at hsp
        simpa [firstTall, slotAt] using hsp
      have hzero : (slotOf (getNode s ((0 :: c).getD p 0)) 0).span = 0 :=
        h.nilSpan0 p hp hnone
      rw [hdrop]
      simp only [List.map_cons, List.map_nil, List.sum_cons, List.sum_nil]
      rw [hzero]
      omega
    | succ k0 ih =>
      intro p hpk hp
      have hplen : p < c.length := by omega
      have hd1 : (0 :: c).drop p = (0 :: c).getD p 0 :: (0 :: c).drop (p + 1) := by
        rw [getD_eq_get _ 0 hp]
        exact (List.drop_eq_get_cons hp)
      have hsp := h.spansOk 0 (by simp [MaxLevel]) p hp (inv_tall0 h p hp)
      have hy : (0 :: c).getD (p + 1) 0 = c.getD p 0 := by simp
      have htally : tall s 0 ((0 :: c).getD (p + 1) 0) :=
        inv_tall0 h (p + 1) (by simpa using hplen)
      have hfirst : firstTall s 0 ((0 :: c).drop (p + 1)) = some (0, (0 :: c).getD (p + 1) 0) := by
        have hd2 : (0 :: c).drop (p + 1) = (0 :: c).getD (p + 1) 0 :: (0 :: c).drop (p + 2) := by
          rw [getD_eq_get _ 0 (by simpa using hplen)]
          exact (List.drop_eq_get_cons (by simpa using hplen))
        rw [hd2]
        simp only [firstTall]
        rw [if_pos htally]
      rw [hfirst] at hsp
      obtain ⟨-, hspan⟩ := hsp
      have hrec := ih (p + 1) (by omega) (by simpa using hplen)
      rw [hd1]
      simp only [List.map_cons, List.sum_cons]
      simp only [slotAt] at hspan
      rw [hspan, hrec]
      omega
  have := haux c.length 0 (by omega) (by simp)
  simp only [spanSumAt, headChainAt]
  rw [hchain]
  simpa using this

/-! ### The search walk lemma -/

theorem precB_pos_iff {s : SkipList δ} {c : List Nat} (h : Inv s c) (sc : Int) (m : String) :
    ∀ p, 1 ≤ p → p ≤ c.length →
      (precB (getNode s ((0 :: c).getD p 0)).element sc m = true ↔ p ≤ cutOf s c sc m) := by
  have hmono : ∀ i j, i < j → j < c.length →
      precB (getNode s (c.getD j 0)).element sc m = true →
      precB (getNode s (c.getD i 0)).element sc m = true := by
    intro i j hij hjl hpj
    have hpw := (List.pairwise_map.mp h.ordering)
    have hget := List.pairwise_iff_get.mp hpw ⟨i, by omega⟩ ⟨j, hjl⟩ hij
    have hi : c.getD i 0 = c.get ⟨i, by omega⟩ := getD_eq_get c 0 (by omega)
    have hj : c.getD j 0 = c.get ⟨j, hjl⟩ := getD_eq_get c 0 hjl
    rw [hj] at hpj
    rw [hi]
    exact precB_of_prec hget hpj
  have hchar := countP_prefix_iff (fun i => precB (getNode s i).element sc m) 0 c hmono
  intro p hp1 hplen
  have hgd : (0 :: c).getD p 0 = c.getD (p - 1) 0 := by
    cases p with
    | zero => omega
    | succ p0 => simp
  rw [hgd]
  have := hchar (p - 1) (by omega)
  rw [this]
  unfold cutOf
  omega

theorem cutOf_le (s : SkipList δ) (c : List Nat) (sc : Int) (m : String) :
    cutOf s c sc m ≤ c.length := List.countP_le_length _

theorem walkLevel_stop {s : SkipList δ} {c : List Nat} (h : Inv s c) (sc : Int) (m : String)
    (ℓ : Nat) (hℓ : ℓ < MaxLevel) :
    ∀ (fuel p : Nat), p ≤ cutOf s c sc m →
      tall s ℓ ((0 :: c).getD p 0) →
      cutOf s c sc m - p < fuel →
      ∃ q, p ≤ q ∧ q ≤ cutOf s c sc m ∧ tall s ℓ ((0 :: c).getD q 0) ∧
        (∀ j, q < j → j ≤ cutOf s c sc m → ¬ tall s ℓ ((0 :: c).getD j 0)) ∧
        walkLevel s sc m ℓ fuel ((0 :: c).getD p 0) p = ((0 :: c).getD q 0, q) := by
  intro fuel
  induction fuel with
  | zero => intro p _ _ hf; omega
  | succ f ih =>
    intro p hpcut htall hf
    have hn := cutOf_le s c sc m
    have hplen : p < (0 :: c).length := by simp; omega
    have hsp := h.spansOk ℓ hℓ p hplen htall
    simp only [slotAt] at hsp
    cases hft : firstTall s ℓ ((0 :: c).drop (p + 1)) with
    | none =>
      rw [hft] at hsp
      refine ⟨p, le_refl p, hpcut, htall, ?_, ?_⟩
      · intro j hqj hjcut htj
        have hjlen : j - p - 1 < ((0 :: c).drop (p + 1)).length := by
          simp; omega
        have hjget : ((0 :: c).drop (p + 1)).getD (j - p - 1) 0 = (0 :: c).getD j 0 := by
          rw [getD_drop]; congr 1; omega
        have hmem := getD_mem_of_lt ((0 :: c).drop (p + 1)) 0 hjlen
        rw [hjget] at hmem
        exact (firstTall_none_iff s ℓ _ |>.mp hft) _ hmem htj
      · simp only [walkLevel]
        rw [hsp]
    | some q0 =>
      obtain ⟨k, fq⟩ := q0
      rw [hft] at hsp
      obtain ⟨hfwd, hspan⟩ := hsp
      obtain ⟨hklen, hkget, hktall, hkbefore⟩ := firstTall_some_spec s ℓ _ k fq hft
      have hlen2 : ((0 :: c).drop (p + 1)).length = c.length - p := by simp
      have hp2 : p + 1 + k ≤ c.length := by omega
      have hfq : (0 :: c).getD (p + 1 + k) 0 = fq := by
        rw [← hkget, getD_drop]
      by_cases hcase : p + 1 + k ≤ cutOf s c sc m
      · have htest : precB (getNode s fq).element sc m = true := by
          rw [← hfq]
          exact (precB_pos_iff h sc m (p + 1 + k) (by omega) hp2).mpr hcase
        have ihres := ih (p + 1 + k) hcase (hfq ▸ hktall) (by omega)
        obtain ⟨q, hq1, hq2, hq3, hq4, hq5⟩ := ihres
        refine ⟨q, by omega, hq2, hq3, hq4, ?_⟩
        simp only [walkLevel]
        rw [hfwd]
        simp only [htest, if_pos]
        rw [hspan]
        have harith : p + (k + 1) = p + 1 + k := by omega
        rw [harith, ← hfq]
        exact hq5
      · refine ⟨p, le_refl p, hpcut, htall, ?_, ?_⟩
        · intro j hqj hjcut htj
          have hjk : j - p - 1 < k := by omega
          have hjget : ((0 :: c).drop (p + 1)).getD (j - p - 1) 0 = (0 :: c).getD j 0 := by
            rw [getD_drop]; congr 1; omega
          exact hkbefore (j - p - 1) hjk (hjget ▸ htj)
        · have htest : precB (getNode s fq).element sc m = false := by
            cases ht : precB (getNode s fq).element sc m with
            | false => rfl
            | true =>
              rw [← hfq] at ht
              have := (precB_pos_iff h sc m (p + 1 + k) (by omega) hp2).mp ht
              omega
          simp only [walkLevel]
          rw [hfwd]
          simp [htest]

theorem searchFrom_spec {s : SkipList δ} {c : List Nat} (h : Inv s c) (sc : Int) (m : String) :
    ∀ i p, i < MaxLevel → p ≤ cutOf s c sc m → tall s i ((0 :: c).getD p 0) →
      (searchFrom s sc m (i + 1) ((0 :: c).getD p 0) p).length = i + 1 ∧
      ∀ ℓ ≤ i, ∃ q,
        (searchFrom s sc m (i + 1) ((0 :: c).getD p 0) p).reverse.getD ℓ (0, 0) =
          ((0 :: c).getD q 0, q) ∧
        p ≤ q ∧ q ≤ cutOf s c sc m ∧ tall s ℓ ((0 :: c).getD q 0) ∧
        (∀ j, q < j → j ≤ cutOf s c sc m → ¬ tall s ℓ ((0 :: c).getD j 0)) := by
  intro i
  induction i with
  | zero =>
    intro p hmax hpcut htall
    have hfuel : cutOf s c sc m - p < s.nodes.length := by
      have := cutOf_le s c sc m
      have := inv_chain_length_lt h
      omega
    obtain ⟨q, hq1, hq2, hq3, hq4, hq5⟩ :=
      walkLevel_stop h sc m 0 hmax s.nodes.length p hpcut htall hfuel
    constructor
    · simp [searchFrom]
    · intro ℓ hℓ
      have hℓ0 : ℓ = 0 := Nat.le_zero.mp hℓ
      subst hℓ0
      refine ⟨q, ?_, hq1, hq2, hq3, hq4⟩
      simp only [searchFrom, hq5]
      rfl
  | succ i ih =>
    intro p hmax hpcut htall
    have hfuel : cutOf s c sc m - p < s.nodes.length := by
      have := cutOf_le s c sc m
      have := inv_chain_length_lt h
      omega
    obtain ⟨q, hq1, hq2, hq3, hq4, hq5⟩ :=
      walkLevel_stop h sc m (i + 1) hmax s.nodes.length p hpcut htall hfuel
    have htq : tall s i ((0 :: c).getD q 0) :=
      Nat.lt_of_le_of_lt (Nat.le_succ i) hq3
    obtain ⟨ihlen, ihspec⟩ := ih q (Nat.lt_of_succ_lt hmax) hq2 htq
    have hunfold : searchFrom s sc m (i + 1 + 1) ((0 :: c).getD p 0) p =
        ((0 :: c).getD q 0, q) :: searchFrom s sc m (i + 1) ((0 :: c).getD q 0) q := by
      conv_lhs => rw [searchFrom]
      rw [hq5]
    rw [hunfold]
    have hrl : (searchFrom s sc m (i + 1) ((0 :: c).getD q 0) q).reverse.length = i + 1 := by
      rw [List.length_reverse, ihlen]
    constructor
    · simp only [List.length_cons]
      rw [ihlen]
    · intro ℓ hℓ
      by_cases hcase : ℓ = i + 1
      · subst hcase
        refine ⟨q, ?_, hq1, hq2, hq3, hq4⟩
        simp only [List.reverse_cons]
        rw [List.getD_append_right _ _ _ _ (by rw [hrl])]
        rw [hrl]
        simp
      · have hℓi : ℓ ≤ i := by omega
        obtain ⟨q2, hq2a, hq2b, hq2c, hq2d, hq2e⟩ := ihspec ℓ hℓi
        refine ⟨q2, ?_, le_trans hq1 hq2b, hq2c, hq2d, hq2e⟩
        simp only [List.reverse_cons]
        rw [List.getD_append _ _ _ _ (by rw [hrl]; omega)]
        exact hq2a

/-- Specification of the full search: `update[ℓ]` is the node at the last
position `qℓ ≤ cut` that participates in level `ℓ`, and `rank[ℓ] = qℓ`. -/
theorem updates_spec {s : SkipList δ} {c : List Nat} (h : Inv s c) (sc : Int) (m : String) :
    (updates s sc m).length = s.level ∧
    ∀ ℓ < s.level, ∃ q,
      (updates s sc m).getD ℓ (0, 0) = ((0 :: c).getD q 0, q) ∧
      q ≤ cutOf s c sc m ∧ tall s ℓ ((0 :: c).getD q 0) ∧
      (∀ j, q < j → j ≤ cutOf s c sc m → ¬ tall s ℓ ((0 :: c).getD j 0)) := by
  have hl1 := h.levelOk.1
  have hl2 := h.levelOk.2
  have hstart : tall s (s.level - 1) ((0 :: c).getD 0 0) := by
    simp only [List.getD_cons_zero]
    simp only [tall, h.headHeight]
    omega
  obtain ⟨hlen, hspec⟩ := searchFrom_spec h sc m (s.level - 1) 0 (by omega)
    (Nat.zero_le _) hstart
  have heq : s.level - 1 + 1 = s.level := by omega
  rw [heq] at hlen hspec
  simp only [List.getD_cons_zero] at hlen hspec
  constructor
  · simp [updates, hlen]
  · intro ℓ hℓ
    obtain ⟨q, hq1, _, hq3, hq4, hq5⟩ := hspec ℓ (by omega)
    exact ⟨q, by simpa [updates] using hq1, hq3, hq4, hq5⟩

/-- At level 0 the search always stops exactly at position `cut`. -/
theorem updates_zero {s : SkipList δ} {c : List Nat} (h : Inv s c) (sc : Int) (m : String) :
    (updates s sc m).getD 0 (0, 0) = ((0 :: c).getD (cutOf s c sc m) 0, cutOf s c sc m) := by
  obtain ⟨-, hspec⟩ := updates_spec h sc m
  obtain ⟨q, hq1, hq2, -, hq4⟩ := hspec 0 h.levelOk.1
  have hqcut : q = cutOf s c sc m := by
    by_contra hne
    have hlt : q < cutOf s c sc m := Nat.lt_of_le_of_ne hq2 hne
    have hcut : cutOf s c sc m ≤ c.length := cutOf_le s c sc m
    exact hq4 (q + 1) (Nat.lt_succ_self q) hlt
      (inv_tall0 h (q + 1) (by simp; omega))
  rw [hqcut] at hq1
  exact hq1

/-- The level-0 successor of the node at position `p < n` is the node at
position `p + 1`. -/
theorem inv_forward0 {s : SkipList δ} {c : List Nat} (h : Inv s c) (p : Nat)
    (hp : p < c.length) :
    (slotOf (getNode s ((0 :: c).getD p 0)) 0).forward = some ((0 :: c).getD (p + 1) 0) := by
  have hsp := h.spansOk 0 (by simp [MaxLevel]) p (by simp; omega) (inv_tall0 h p (by simp; omega))
  have hd2 : (0 :: c).drop (p + 1) = (0 :: c).getD (p + 1) 0 :: (0 :: c).drop (p + 2) := by
    rw [getD_eq_get _ 0 (by simpa using hp)]
    exact (List.drop_eq_get_cons (by simpa using hp))
  have htally : tall s 0 ((0 :: c).getD (p + 1) 0) := inv_tall0 h (p + 1) (by simpa using hp)
  have hfirst : firstTall s 0 ((0 :: c).drop (p + 1)) = some (0, (0 :: c).getD (p + 1) 0) := by
    rw [hd2]
    simp only [firstTall]
    rw [if_pos htally]
  rw [hfirst] at hsp
  exact hsp.1

/-- The last chain node has no level-0 successor. -/
theorem inv_forward0_last {s : SkipList δ} {c : List Nat} (h : Inv s c) :
    (slotOf (getNode s ((0 :: c).getD c.length 0)) 0).forward = none := by
  have hsp := h.spansOk 0 (by simp [MaxLevel]) c.length (by simp)
    (inv_tall0 h c.length (by simp))
  have hdrop : (0 :: c).drop (c.length + 1) = [] := by
    apply List.drop_eq_nil_of_le; simp
  rw [hdrop] at hsp
  simpa [firstTall, slotAt] using hsp

/-- The cut of an element's own key is its 0-based chain index. -/
theorem cutOf_self {s : SkipList δ} {c : List Nat} (h : Inv s c) (jc : Nat)
    (hjc : jc < c.length) :
    cutOf s c ((getNode s (c.getD jc 0)).element.score)
      ((getNode s (c.getD jc 0)).element.member) = jc := by
  set e := (getNode s (c.getD jc 0)).element with he
  apply countP_eq_of_prefix _ 0 c jc (Nat.le_of_lt hjc)
  intro j hj
  have hpw := List.pairwise_map.mp h.ordering
  constructor
  · intro hpj
    by_contra hge
    have hge2 : jc ≤ j := by omega
    rcases Nat.lt_or_ge jc j with hlt | hle2
    · have hget := List.pairwise_iff_get.mp hpw ⟨jc, hjc⟩ ⟨j, hj⟩ hlt
      rw [← getD_eq_get c 0 hjc, ← getD_eq_get c 0 hj] at hget
      rw [← he] at hget
      have := precB_iff_prec.mp hpj
      exact prec_asymm hget this
    · have hjeq : j = jc := by omega
      subst hjeq
      have := precB_iff_prec.mp hpj
      rw [← he] at this
      exact prec_irrefl e this
  · intro hlt
    have hget := List.pairwise_iff_get.mp hpw ⟨j, hj⟩ ⟨jc, hjc⟩ hlt
    rw [← getD_eq_get c 0 hjc, ← getD_eq_get c 0 hj] at hget
    rw [← he] at hget
    exact precB_iff_prec.mpr hget

/-- Correctness of `GetRank`: a present member's rank is its 1-based chain
position. -/
theorem getRank_spec {s : SkipList δ} {c : List Nat} (h : Inv s c) (jc : Nat)
    (hjc : jc < c.length) :
    s.GetRank ((getNode s (c.getD jc 0)).element.member)
      ((getNode s (c.getD jc 0)).element.score) = ((jc : Int) + 1) := by
  set e := (getNode s (c.getD jc 0)).element with he
  have hcut := cutOf_self h jc hjc
  have hzero := updates_zero h e.score e.member
  rw [hcut] at hzero
  have hfwd := inv_forward0 h jc hjc
  simp only [SkipList.GetRank]
  rw [hzero]
  simp only
  rw [hfwd]
  simp only [List.getD_cons_succ]
  simp

/-! ### Correctness of the corrected `GetByRank` -/

theorem byRankWalkLe_stop {s : SkipList δ} {c : List Nat} (h : Inv s c) (r : Nat)
    (hr : r ≤ c.length) (ℓ : Nat) (hℓ : ℓ < MaxLevel) :
    ∀ fuel p, p ≤ r → tall s ℓ ((0 :: c).getD p 0) → r - p < fuel →
      ∃ q, p ≤ q ∧ q ≤ r ∧ tall s ℓ ((0 :: c).getD q 0) ∧
        (∀ j, q < j → j ≤ r → ¬ tall s ℓ ((0 :: c).getD j 0)) ∧
        byRankWalkLe s r ℓ fuel ((0 :: c).getD p 0) p = ((0 :: c).getD q 0, q) := by
  intro fuel
  induction fuel with
  | zero => intro p _ _ hf; omega
  | succ f ih =>
    intro p hpr htall hf
    have hplen : p < (0 :: c).length := by simp; omega
    have hsp := h.spansOk ℓ hℓ p hplen htall
    simp only [slotAt] at hsp
    cases hft : firstTall s ℓ ((0 :: c).drop (p + 1)) with
    | none =>
      rw [hft] at hsp
      refine ⟨p, le_refl p, hpr, htall, ?_, ?_⟩
      · intro j hqj hjr htj
        have hjlen : j - p - 1 < ((0 :: c).drop (p + 1)).length := by simp; omega
        have hjget : ((0 :: c).drop (p + 1)).getD (j - p - 1) 0 = (0 :: c).getD j 0 := by
          rw [getD_drop]; congr 1; omega
        have hmem := getD_mem_of_lt ((0 :: c).drop (p + 1)) 0 hjlen
        rw [hjget] at hmem
        exact (firstTall_none_iff s ℓ _ |>.mp hft) _ hmem htj
      · simp only [byRankWalkLe]
        rw [hsp]
    | some q0 =>
      obtain ⟨k, fq⟩ := q0
      rw [hft] at hsp
      obtain ⟨hfwd0, hspan0⟩ := hsp
      have hfwd : (slotOf (getNode s ((0 :: c).getD p 0)) ℓ).forward = some fq := hfwd0
      have hspan : (slotOf (getNode s ((0 :: c).getD p 0)) ℓ).span = k + 1 := hspan0
      obtain ⟨hklen, hkget, hktall, hkbefore⟩ := firstTall_some_spec s ℓ _ k fq hft
      have hp2 : p + 1 + k ≤ c.length := by
        have : ((0 :: c).drop (p + 1)).length = c.length - p := by simp
        omega
      have hfq : (0 :: c).getD (p + 1 + k) 0 = fq := by
        rw [← hkget, getD_drop]
      by_cases hcase : p + 1 + k ≤ r
      · obtain ⟨q, hq1, hq2, hq3, hq4, hq5⟩ := ih (p + 1 + k) hcase (hfq ▸ hktall) (by omega)
        refine ⟨q, by omega, hq2, hq3, hq4, ?_⟩
        simp only [byRankWalkLe]
        rw [hfwd]
        simp only [hspan]
        have hle : p + (k + 1) ≤ r := by omega
        rw [if_pos hle]
        have harith : p + (k + 1) = p + 1 + k := by omega
        rw [harith, ← hfq]
        exact hq5
      · refine ⟨p, le_refl p, hpr, htall, ?_, ?_⟩
        · intro j hqj hjr htj
          have hjk : j - p - 1 < k := by omega
          have hjget : ((0 :: c).drop (p + 1)).getD (j - p - 1) 0 = (0 :: c).getD j 0 := by
            rw [getD_drop]; congr 1; omega
          exact hkbefore (j - p - 1) hjk (hjget ▸ htj)
        · simp only [byRankWalkLe]
          rw [hfwd]
          simp only [hspan]
          rw [if_neg (by omega)]

theorem byRankLoop_spec {s : SkipList δ} {c : List Nat} (h : Inv s c) (r : Nat)
    (hr1 : 1 ≤ r) (hrn : r ≤ c.length) :
    ∀ i p, i < MaxLevel → p ≤ r → tall s i ((0 :: c).getD p 0) →
      byRankLoop s r (i + 1) ((0 :: c).getD p 0) p =
        some ((getNode s ((0 :: c).getD r 0)).element) := by
  intro i
  induction i with
  | zero =>
    intro p hmax hpr htall
    have hfuel : r - p < s.nodes.length := by
      have := inv_chain_length_lt h
      omega
    obtain ⟨q, hq1, hq2, hq3, hq4, hq5⟩ :=
      byRankWalkLe_stop h r hrn 0 hmax s.nodes.length p hpr htall hfuel
    have hqr : q = r := by
      by_contra hne
      exact hq4 (q + 1) (Nat.lt_succ_self q) (by omega)
        (inv_tall0 h (q + 1) (by simp; omega))
    subst hqr
    simp only [byRankLoop, hq5]
    simp
  | succ i ih =>
    intro p hmax hpr htall
    have hfuel : r - p < s.nodes.length := by
      have := inv_chain_length_lt h
      omega
    obtain ⟨q, hq1, hq2, hq3, hq4, hq5⟩ :=
      byRankWalkLe_stop h r hrn (i + 1) hmax s.nodes.length p hpr htall hfuel
    by_cases hqr : q = r
    · subst hqr
      simp only [byRankLoop, hq5]
      simp
    · have hqlt : q < r := Nat.lt_of_le_of_ne hq2 hqr
      have := ih q (Nat.lt_of_succ_lt hmax) hq2
        (Nat.lt_of_le_of_lt (Nat.le_succ i) hq3)
      simp only [byRankLoop, hq5]
      rw [if_neg (by omega)]
      exact this

/-- Correctness of the corrected `GetByRank` (the `part_000` translation):
for `1 ≤ r ≤ N` it returns the element at 1-based position `r`. -/
theorem getByRank_spec {s : SkipList δ} {c : List Nat} (h : Inv s c) (r : Int)
    (hr1 : 1 ≤ r) (hrn : r ≤ (c.length : Int)) :
    s.GetByRank r = some ((getNode s ((0 :: c).getD r.toNat 0)).element) := by
  have hlen := h.lengthOk
  have hr1n : 1 ≤ r.toNat := by omega
  have hrnn : r.toNat ≤ c.length := by omega
  have hguard : ¬ (r ≤ 0 ∨ r > (s.length : Int)) := by
    rw [hlen]; omega
  simp only [SkipList.GetByRank]
  rw [if_neg hguard]
  have hl1 := h.levelOk.1
  have hl2 := h.levelOk.2
  have hstart : tall s (s.level - 1) ((0 :: c).getD 0 0) := by
    simp only [List.getD_cons_zero]
    simp only [tall, h.headHeight]
    omega
  have := byRankLoop_spec h r.toNat hr1n hrnn (s.level - 1) 0 (by omega)
    (Nat.zero_le _) hstart
  have heq : s.level - 1 + 1 = s.level := by omega
  rw [heq] at this
  simpa using this

/-- When the rank is out of `[1, N]`, `GetByRank` returns `none`. -/
theorem getByRank_oob {s : SkipList δ} {c : List Nat} (h : Inv s c) (r : Int)
    (hr : r ≤ 0 ∨ (c.length : Int) < r) : s.GetByRank r = none := by
  have hlen := h.lengthOk
  simp only [SkipList.GetByRank]
  rw [if_pos (by rw [hlen]; omega)]

/-! ### Helpers for the preservation proofs -/

theorem inv_level_max {s : SkipList δ} {c : List Nat} (h : Inv s c) (lvl : Nat)
    (h2 : lvl ≤ MaxLevel) : Inv { s with level := max s.level lvl } c := by
  refine ⟨h.headIn, h.headHeight, h.bounds, h.nodup, h.heights,
    ⟨le_trans h.levelOk.1 (le_max_left _ _), max_le h.levelOk.2 h2⟩,
    ?_, h.nilSpan0, ?_, h.ordering, h.mapSound, h.mapComplete,
    h.mapKeysNodup, h.lengthOk, h.tailOk⟩
  · intro ℓ hℓ p hp ht
    rw [firstTall_congr s { s with level := max s.level lvl } ℓ _ (fun i _ => rfl)]
    exact h.spansOk ℓ hℓ p hp ht
  · intro ℓ hℓ hℓ2
    exact h.headUpper ℓ (le_trans (le_max_left _ _) hℓ) hℓ2

theorem getNode_append_lt (s : SkipList δ) (nn : Node δ) (j : Nat)
    (hj : j < s.nodes.length) :
    getNode { s with nodes := s.nodes ++ [nn] } j = getNode s j := by
  simp [getNode, List.getD_eq_getElem?_getD, List.getElem?_append_left hj]

theorem getNode_append_self (s : SkipList δ) (nn : Node δ) :
    getNode { s with nodes := s.nodes ++ [nn] } s.nodes.length = nn := by
  simp [getNode, List.getD_eq_getElem?_getD, List.getElem?_concat_length]

theorem firstTall_append (s : SkipList δ) (ℓ : Nat) :
    ∀ xs ys : List Nat,
      firstTall s ℓ (xs ++ ys) =
        match firstTall s ℓ xs with
        | some p => some p
        | none => (firstTall s ℓ ys).map (fun p => (p.1 + xs.length, p.2))
  | [], ys => by simp [firstTall]
  | x :: xs, ys => by
    by_cases hx : tall s ℓ x
    · simp [firstTall, hx]
    · have ih := firstTall_append s ℓ xs ys
      simp only [List.cons_append, firstTall, if_neg hx]
      rw [show firstTall s ℓ (xs.append ys) = firstTall s ℓ (xs ++ ys) from rfl, ih]
      cases firstTall s ℓ xs with
      | some p => rfl
      | none =>
        cases firstTall s ℓ ys with
        | some p =>
          show some (p.1 + xs.length + 1, p.2) = some (p.1 + (xs.length + 1), p.2)
          rw [Nat.add_assoc]
        | none => rfl

theorem firstTall_take (s : SkipList δ) (ℓ : Nat) (l : List Nat) (k f m : Nat)
    (hf : firstTall s ℓ l = some (k, f)) (hk : k < m) :
    firstTall s ℓ (l.take m) = some (k, f) := by
  obtain ⟨h1, h2, h3, h4⟩ := firstTall_some_spec s ℓ l k f hf
  apply firstTall_eq_some_of s ℓ (l.take m) k f
  · simp; omega
  · rw [← h2]
    simp [List.getD_eq_getElem?_getD, List.getElem?_take, hk]
  · exact h3
  · intro j hj
    have hjt := h4 j hj
    have hget : (l.take m).getD j 0 = l.getD j 0 := by
      simp [List.getD_eq_getElem?_getD, List.getElem?_take, (by omega : j < m)]
    rw [hget]
    exact hjt

theorem firstTall_all_short (s : SkipList δ) (ℓ : Nat) (l : List Nat)
    (h : ∀ i ∈ l, ¬ tall s ℓ i) : firstTall s ℓ l = none :=
  (firstTall_none_iff s ℓ l).mpr h

theorem eraseKey_of_forall_ne (m : String) :
    ∀ l : List (String × Nat), (∀ kv ∈ l, kv.1 ≠ m) → eraseKey m l = l
  | [], _ => rfl
  | kv :: rest, h => by
    have h1 := h kv (List.mem_cons_self kv rest)
    simp only [eraseKey, if_neg h1]
    rw [eraseKey_of_forall_ne m rest (fun kv2 hkv2 => h kv2 (List.mem_cons_of_mem kv hkv2))]

theorem lookupMap_eq_some_of_mem {l : List (String × Nat)} {m : String} {i : Nat}
    (hnd : (l.map Prod.fst).Nodup) (hmem : (m, i) ∈ l) : lookupMap l m = some i := by
  induction l with
  | nil => cases hmem
  | cons kv rest ih =>
    rcases List.mem_cons.mp hmem with heq | htail
    · subst heq
      simp [lookupMap]
    · have hne : kv.1 ≠ m := by
        intro he
        have : m ∈ rest.map Prod.fst := List.mem_map.mpr ⟨(m, i), htail, rfl⟩
        rw [← he] at this
        exact (List.nodup_cons.mp hnd).1 this
      simp only [lookupMap, if_neg hne]
      exact ih (List.nodup_cons.mp hnd).2 htail

theorem lookupMap_mem {l : List (String × Nat)} {m : String} {i : Nat}
    (h : lookupMap l m = some i) : (m, i) ∈ l := by
  induction l with
  | nil => cases h
  | cons kv rest ih =>
    by_cases he : kv.1 = m
    · simp only [lookupMap, if_pos he] at h
      obtain rfl := Option.some_inj.mp h
      subst he
      exact List.mem_cons_self kv rest
    · simp only [lookupMap, if_neg he] at h
      exact List.mem_cons_of_mem kv (ih h)

theorem lookupMap_eq_none {l : List (String × Nat)} {m : String}
    (h : ∀ kv ∈ l, kv.1 ≠ m) : lookupMap l m = none := by
  induction l with
  | nil => rfl
  | cons kv rest ih =>
    simp only [lookupMap, if_neg (h kv (List.mem_cons_self kv rest))]
    exact ih (fun kv2 hkv2 => h kv2 (List.mem_cons_of_mem kv hkv2))

/-- A member present in the chain resolves through the side map to its node. -/
theorem inv_lookup_of_mem {s : SkipList δ} {c : List Nat} (h : Inv s c) {i : Nat}
    (hi : i ∈ c) : lookupMap s.elementMap ((getNode s i).element.member) = some i :=
  lookupMap_eq_some_of_mem h.mapKeysNodup (h.mapComplete i hi)

/-- A member absent from the chain resolves to `none`. -/
theorem inv_lookup_of_absent {s : SkipList δ} {c : List Nat} (h : Inv s c) {m : String}
    (hm : ∀ i ∈ c, (getNode s i).element.member ≠ m) :
    lookupMap s.elementMap m = none := by
  apply lookupMap_eq_none
  intro kv hkv
  obtain ⟨hmem, hname⟩ := h.mapSound kv hkv
  rw [← hname]
  exact hm kv.2 hmem

theorem mem_of_mem_eraseKey (m : String) :
    ∀ (l : List (String × Nat)) (kv : String × Nat), kv ∈ eraseKey m l → kv ∈ l ∧ kv.1 ≠ m
  | [], kv, h => by cases h
  | kv0 :: rest, kv, h => by
    by_cases he : kv0.1 = m
    · simp only [eraseKey, if_pos he] at h
      obtain ⟨h1, h2⟩ := mem_of_mem_eraseKey m rest kv h
      exact ⟨List.mem_cons_of_mem kv0 h1, h2⟩
    · simp only [eraseKey, if_neg he] at h
      rcases List.mem_cons.mp h with rfl | h2
      · exact ⟨List.mem_cons_self _ _, he⟩
      · obtain ⟨h1, h2⟩ := mem_of_mem_eraseKey m rest kv h2
        exact ⟨List.mem_cons_of_mem kv0 h1, h2⟩

theorem mem_eraseKey_of_ne (m : String) :
    ∀ (l : List (String × Nat)) (kv : String × Nat), kv ∈ l → kv.1 ≠ m → kv ∈ eraseKey m l
  | [], kv, h, _ => by cases h
  | kv0 :: rest, kv, h, hne => by
    by_cases he : kv0.1 = m
    · simp only [eraseKey, if_pos he]
      rcases List.mem_cons.mp h with rfl | h2
      · exact absurd he hne
      · exact mem_eraseKey_of_ne m rest kv h2 hne
    · simp only [eraseKey, if_neg he]
      rcases List.mem_cons.mp h with rfl | h2
      · exact List.mem_cons_self _ _
      · exact List.mem_cons_of_mem kv0 (mem_eraseKey_of_ne m rest kv h2 hne)

theorem eraseKey_keys_sublist (m : String) :
    ∀ l : List (String × Nat), ((eraseKey m l).map Prod.fst).Sublist (l.map Prod.fst)
  | [] => List.Sublist.refl _
  | kv :: rest => by
    by_cases he : kv.1 = m
    · simp only [eraseKey, if_pos he, List.map_cons]
      exact (eraseKey_keys_sublist m rest).cons _
    · simp only [eraseKey, if_neg he, List.map_cons]
      exact (eraseKey_keys_sublist m rest).cons₂ _

theorem not_mem_keys_eraseKey (m : String) (l : List (String × Nat)) :
    m ∉ (eraseKey m l).map Prod.fst := by
  intro hmem
  obtain ⟨kv, hkv, hfst⟩ := List.mem_map.mp hmem
  exact (mem_of_mem_eraseKey m l kv hkv).2 hfst

/-- Distinct positions of a well-formed chain carry distinct members. -/
theorem inv_member_inj {s : SkipList δ} {c : List Nat} (h : Inv s c) {i j : Nat}
    (hi : i ∈ c) (hj : j ∈ c)
    (he : (getNode s i).element.member = (getNode s j).element.member) : i = j := by
  have h1 := lookupMap_eq_some_of_mem h.mapKeysNodup (h.mapComplete i hi)
  have h2 := lookupMap_eq_some_of_mem h.mapKeysNodup (h.mapComplete j hj)
  rw [he] at h1
  rw [h1] at h2
  exact Option.some_inj.mp h2

theorem inv_members_pairwise {s : SkipList δ} {c : List Nat} (h : Inv s c) :
    c.Pairwise (fun i j => (getNode s i).element.member ≠ (getNode s j).element.member) := by
  refine List.Pairwise.imp_of_mem ?_ h.nodup
  intro i j hi hj hne he
  exact hne (inv_member_inj h hi hj he)

/-- No chain node participates in a level at or above the current level:
otherwise the head's slot there would have to point at it, contradicting
`headUpper`. -/
theorem inv_tall_lt_level {s : SkipList δ} {c : List Nat} (h : Inv s c) {ℓ p : Nat}
    (hℓ : ℓ < MaxLevel) (hp1 : 1 ≤ p) (hp : p < (0 :: c).length)
    (ht : tall s ℓ ((0 :: c).getD p 0)) : ℓ < s.level := by
  by_contra hge
  have hnone := h.headUpper ℓ (Nat.le_of_not_lt hge) hℓ
  have hth : tall s ℓ ((0 :: c).getD 0 0) := by
    simp only [List.getD_cons_zero, tall, h.headHeight]
    exact hℓ
  have hsp := h.spansOk ℓ hℓ 0 (by simp) hth
  have hmem : (0 :: c).getD p 0 ∈ (0 :: c).drop 1 := by
    show _ ∈ c
    cases p with
    | zero => omega
    | succ p0 => exact getD_mem_of_lt c 0 (by simpa using hp)
  cases hft : firstTall s ℓ ((0 :: c).drop 1) with
  | none => exact (firstTall_none_iff s ℓ _).mp hft _ hmem ht
  | some q =>
    rw [hft] at hsp
    simp only [slotAt, List.getD_cons_zero] at hsp
    rw [hsp.1] at hnone
    cases hnone

theorem take_cons_drop_perm {β : Type} (x : β) (c : List β) (k : Nat) :
    (c.take k ++ x :: c.drop k).Perm (x :: c) := by
  have h1 : (c.take k ++ x :: c.drop k).Perm (x :: (c.take k ++ c.drop k)) := List.perm_middle
  rwa [List.take_append_drop] at h1

theorem perm_getD_cons_eraseIdx {β : Type} (l : List β) (d : β) (j : Nat)
    (hj : j < l.length) : l.Perm (l.getD j d :: l.eraseIdx j) := by
  conv_lhs => rw [← List.take_append_drop j l]
  rw [List.eraseIdx_eq_take_drop_succ]
  have hdrop : l.drop j = l.getD j d :: l.drop (j + 1) := by
    rw [getD_eq_get _ _ hj]
    exact List.drop_eq_get_cons hj
  rw [hdrop]
  exact List.perm_middle

theorem map_eraseIdx {β γ : Type} (f : β → γ) :
    ∀ (l : List β) (j : Nat), (l.eraseIdx j).map f = (l.map f).eraseIdx j
  | [], _ => by simp [List.eraseIdx]
  | x :: xs, 0 => rfl
  | x :: xs, j + 1 => by
    simp only [List.eraseIdx, List.map_cons]
    rw [map_eraseIdx f xs j]

theorem eraseIdx_eq_filter {β : Type} (p : β → Bool) (d : β) :
    ∀ (l : List β) (j : Nat), j < l.length → p (l.getD j d) = false →
      (∀ i, i < l.length → i ≠ j → p (l.getD i d) = true) → l.eraseIdx j = l.filter p
  | [], j, hj, _, _ => by simp at hj
  | x :: xs, 0, hj, hx, hother => by
    simp only [List.getD_cons_zero] at hx
    have hall : ∀ a ∈ xs, p a = true := by
      intro a ha
      obtain ⟨i, hi, heq⟩ := List.mem_iff_getElem.mp ha
      have h2 := hother (i + 1) (by simpa using hi) (by omega)
      rw [List.getD_cons_succ, getD_eq_get xs d hi] at h2
      rw [← heq]
      exact h2
    simp [List.eraseIdx, List.filter, hx, List.filter_eq_self.mpr hall]
  | x :: xs, j + 1, hj, hx, hother => by
    have h0 : p x = true := by
      have h2 := hother 0 (by simp) (by omega)
      simpa using h2
    have ih := eraseIdx_eq_filter p d xs j (by simpa using hj) (by simpa using hx)
      (fun i hi hne => by
        have h2 := hother (i + 1) (by simpa using hi) (by omega)
        simpa using h2)
    simp [List.eraseIdx, List.filter, h0, ih]

theorem pair_eq_of_keys_nodup {γ : Type} :
    ∀ (l : List (String × γ)), (l.map Prod.fst).Nodup →
      ∀ (m : String) (x y : γ), (m, x) ∈ l → (m, y) ∈ l → x = y
  | [], _, m, x, y, hx, _ => by cases hx
  | kv :: rest, hnd, m, x, y, hx, hy => by
    rcases List.mem_cons.mp hx with hex | hx2
    · rcases List.mem_cons.mp hy with hey | hy2
      · rw [← hex] at hey
        injection hey with h1 h2
        exact h2.symm
      · exfalso
        have hm : m ∈ rest.map Prod.fst := List.mem_map.mpr ⟨(m, y), hy2, rfl⟩
        have hk : kv.1 = m := by rw [← hex]
        rw [← hk] at hm
        exact (List.nodup_cons.mp hnd).1 hm
    · rcases List.mem_cons.mp hy with hey | hy2
      · exfalso
        have hm : m ∈ rest.map Prod.fst := List.mem_map.mpr ⟨(m, x), hx2, rfl⟩
        have hk : kv.1 = m := by rw [← hey]
        rw [← hk] at hm
        exact (List.nodup_cons.mp hnd).1 hm
      · exact pair_eq_of_keys_nodup rest (List.nodup_cons.mp hnd).2 m x y hx2 hy2

/-- A present member's chain node, recovered from the side map. -/
theorem lookup_chain_index {s : SkipList δ} {c : List Nat} (h : Inv s c) {m : String}
    {i : Nat} (hlk : lookupMap s.elementMap m = some i) :
    i ∈ c ∧ (getNode s i).element.member = m :=
  h.mapSound (m, i) (lookupMap_mem hlk)

/-- The freshly constructed list is well-formed with the empty chain. -/
theorem inv_empty : Inv (NewSkipList : SkipList δ) [] := by
  have hhead : getNode (NewSkipList : SkipList δ) 0 =
      { element := ⟨"", 0, default⟩, level := List.replicate MaxLevel ⟨none, 0⟩ } := rfl
  have hslot : ∀ ℓ, slotOf (getNode (NewSkipList : SkipList δ) 0) ℓ = ⟨none, 0⟩ := by
    intro ℓ
    rw [hhead]
    simp only [slotOf]
    rcases Nat.lt_or_ge ℓ MaxLevel with hlt | hge
    · rw [List.getD_eq_getElem _ _ (by simpa using hlt)]
      simp
    · rw [List.getD_eq_default _ _ (by simpa using hge)]
  refine ⟨by simp [NewSkipList], by rw [hhead]; simp [heightOf], ?_, List.nodup_nil, ?_,
    ⟨le_refl 1, by simp [MaxLevel, NewSkipList]⟩, ?_, ?_, ?_, List.Pairwise.nil, ?_, ?_,
    List.nodup_nil, rfl, Or.inl rfl⟩
  · intro i hi; cases hi
  · intro i hi; cases hi
  · intro ℓ hℓ p hp ht
    have hp0 : p = 0 := by simpa using hp
    subst hp0
    simp only [firstTall, slotAt, List.getD_cons_zero]
    rw [hslot ℓ]
  · intro p hp _
    have hp0 : p = 0 := by simpa using hp
    subst hp0
    simp only [slotAt, List.getD_cons_zero]
    rw [hslot 0]
  · intro ℓ _ _
    rw [hslot ℓ]
  · intro kv hkv; cases hkv
  · intro i hi; cases hi

/-! ### Insertion preserves the invariant -/

/-- Full characterisation of `insertCore` on a well-formed state whose chain
does not carry the member: the new node (stored at index `|nodes|`) is
spliced in at chain position `cut`, the count of entries preceding the
target key, and the invariant is re-established. -/
theorem insertCore_spec {s0 : SkipList δ} {c : List Nat} (h : Inv s0 c)
    (m : String) (sc : Int) (d : δ) (lvl : Nat) (hl1 : 1 ≤ lvl) (hl2 : lvl ≤ MaxLevel)
    (hab : ∀ i ∈ c, (getNode s0 i).element.member ≠ m) :
    Inv (insertCore s0 m sc d lvl).1
      (c.take (cutOf s0 c sc m) ++ s0.nodes.length :: c.drop (cutOf s0 c sc m)) ∧
    (∀ j, j < s0.nodes.length →
      (getNode (insertCore s0 m sc d lvl).1 j).element = (getNode s0 j).element) ∧
    (getNode (insertCore s0 m sc d lvl).1 s0.nodes.length).element = ⟨m, sc, d⟩ ∧
    (insertCore s0 m sc d lvl).1.elementMap =
      (m, s0.nodes.length) :: eraseKey m s0.elementMap ∧
    (insertCore s0 m sc d lvl).1.length = s0.length + 1 ∧
    (insertCore s0 m sc d lvl).2 = ⟨m, sc, d⟩ := by
  have h1 : Inv { s0 with level := max s0.level lvl } c := inv_level_max h lvl hl2
  set s1 : SkipList δ := { s0 with level := max s0.level lvl } with hs1
  set ups := updates s1 sc m with hups
  set cut := cutOf s1 c sc m with hcut
  have hcut0 : cutOf s0 c sc m = cut := rfl
  rw [hcut0]
  set newIdx := s0.nodes.length with hnewIdx
  set nn : Node δ := { element := ⟨m, sc, d⟩, level := List.replicate lvl ⟨none, 0⟩ }
    with hnn
  set s2 : SkipList δ := { s1 with nodes := s1.nodes ++ [nn] } with hs2
  set rank0 := (ups.getD 0 (0, 0)).2 with hrank0
  set s3 : SkipList δ := insertSplice s2 ups rank0 newIdx lvl with hs3
  set s4 : SkipList δ := insertBump s3 ups lvl (s1.level - lvl) with hs4
  have hlvl_le : lvl ≤ s1.level := le_max_right _ _
  have hcutle : cut ≤ c.length := cutOf_le s1 c sc m
  have hupslen : ups.length = s1.level := (updates_spec h1 sc m).1
  have hspec : ∀ ℓ < s1.level, ∃ q, ups.getD ℓ (0, 0) = ((0 :: c).getD q 0, q) ∧
      q ≤ cut ∧ tall s1 ℓ ((0 :: c).getD q 0) ∧
      (∀ j, q < j → j ≤ cut → ¬ tall s1 ℓ ((0 :: c).getD j 0)) :=
    (updates_spec h1 sc m).2
  have hzero : ups.getD 0 (0, 0) = ((0 :: c).getD cut 0, cut) := updates_zero h1 sc m
  have hrank0cut : rank0 = cut := by rw [hrank0, hzero]
  have hmem_lt : ∀ i ∈ (0 :: c), i < s0.nodes.length := by
    intro i hi
    rcases List.mem_cons.mp hi with rfl | hic
    · exact h.headIn
    · exact (h.bounds i hic).1
  -- node store through the stages
  have hnodes2len : s2.nodes.length = newIdx + 1 := by
    rw [hs2]
    show (s1.nodes ++ [nn]).length = newIdx + 1
    rw [List.length_append]
    rfl
  have hget2_lt : ∀ j, j < s0.nodes.length → getNode s2 j = getNode s0 j := by
    intro j hj
    rw [hs2]
    rw [getNode_append_lt s1 nn j (by exact hj)]
    rfl
  have hget2_new : getNode s2 newIdx = nn := by
    rw [hs2]
    show getNode { s1 with nodes := s1.nodes ++ [nn] } s1.nodes.length = nn
    exact getNode_append_self s1 nn
  have hheight2_new : heightOf (getNode s2 newIdx) = lvl := by
    rw [hget2_new, hnn]
    simp [heightOf]
  have hslotnn : ∀ ℓ, slotOf nn ℓ = ⟨none, 0⟩ := by
    intro ℓ
    rw [hnn]
    simp only [slotOf]
    rcases Nat.lt_or_ge ℓ lvl with hlt | hge
    · rw [List.getD_eq_getElem _ _ (by simpa using hlt)]
      simp
    · rw [List.getD_eq_default _ _ (by simpa using hge)]
  have h4tail : s4.tail = s0.tail := by
    rw [hs4, (insertBump_fields ups (s1.level - lvl) s3 lvl).1, hs3,
      (insertSplice_fields s2 ups rank0 newIdx lvl).1]
  have h4length : s4.length = s0.length := by
    rw [hs4, (insertBump_fields ups (s1.level - lvl) s3 lvl).2.1, hs3,
      (insertSplice_fields s2 ups rank0 newIdx lvl).2.1]
  have h4level : s4.level = s1.level := by
    rw [hs4, (insertBump_fields ups (s1.level - lvl) s3 lvl).2.2.1, hs3,
      (insertSplice_fields s2 ups rank0 newIdx lvl).2.2.1]
  have h4map : s4.elementMap = s0.elementMap := by
    rw [hs4, (insertBump_fields ups (s1.level - lvl) s3 lvl).2.2.2.1, hs3,
      (insertSplice_fields s2 ups rank0 newIdx lvl).2.2.2.1]
  have h4nodeslen : s4.nodes.length = newIdx + 1 := by
    rw [hs4, (insertBump_fields ups (s1.level - lvl) s3 lvl).2.2.2.2, hs3,
      (insertSplice_fields s2 ups rank0 newIdx lvl).2.2.2.2]
    exact hnodes2len
  have hel4 : ∀ j, (getNode s4 j).element = (getNode s2 j).element := by
    intro j
    rw [hs4, insertBump_element, hs3, insertSplice_element]
  have hht4 : ∀ j, heightOf (getNode s4 j) = heightOf (getNode s2 j) := by
    intro j
    rw [hs4, insertBump_height, hs3, insertSplice_height]
  have hht41 : ∀ i, i < s0.nodes.length → heightOf (getNode s4 i) = heightOf (getNode s1 i) := by
    intro i hi
    rw [hht4 i, hget2_lt i hi]
    rfl
  have hht4new : heightOf (getNode s4 newIdx) = lvl := by
    rw [hht4 newIdx]
    exact hheight2_new
  have htall41 : ∀ ℓ i, i < s0.nodes.length → (tall s4 ℓ i ↔ tall s1 ℓ i) := by
    intro ℓ i hi
    unfold tall
    rw [hht41 i hi]
  have hfirst41 : ∀ ℓ (l : List Nat), (∀ i ∈ l, i < s0.nodes.length) →
      firstTall s4 ℓ l = firstTall s1 ℓ l := by
    intro ℓ l hl
    exact firstTall_congr s1 s4 ℓ l (fun i hi => hht41 i (hl i hi))
  -- slot characterisations at `s4`
  have hslot4_untouched : ∀ ℓd j, j < s0.nodes.length →
      (ℓd < s1.level → j ≠ (ups.getD ℓd (0, 0)).1) →
      slotOf (getNode s4 j) ℓd = slotOf (getNode s1 j) ℓd := by
    intro ℓd j hj hne
    rw [hs4, insertBump_slot_untouched ups (s1.level - lvl) s3 lvl j ℓd
      (fun h1b h2b => hne (by omega))]
    rw [hs3, insertSplice_slot_untouched s2 ups rank0 newIdx lvl j ℓd
      (fun hm => ⟨by rw [hnewIdx]; omega, hne (by omega)⟩)]
    rw [hs2, getNode_append_lt s1 nn j (by exact hj)]
  have hslot4_upd_low : ∀ ℓ, ℓ < lvl → ∀ q, ups.getD ℓ (0, 0) = ((0 :: c).getD q 0, q) →
      q < (0 :: c).length → tall s1 ℓ ((0 :: c).getD q 0) →
      slotOf (getNode s4 ((0 :: c).getD q 0)) ℓ = ⟨some newIdx, (cut - q) + 1⟩ := by
    intro ℓ hℓ q hq hqlen htq
    have hq1 : (ups.getD ℓ (0, 0)).1 = (0 :: c).getD q 0 := by rw [hq]
    have hq2 : (ups.getD ℓ (0, 0)).2 = q := by rw [hq]
    have hposlt : (0 :: c).getD q 0 < s0.nodes.length := inv_pos_lt_nodes h hqlen
    rw [← hq1]
    rw [hs4, insertBump_slot_untouched ups (s1.level - lvl) s3 lvl _ ℓ
      (fun hlo _ => absurd hℓ (by omega))]
    rw [hs3, insertSplice_slot_upd s2 ups rank0 newIdx lvl ℓ hℓ
      (by rw [hq1, hnodes2len, hnewIdx]; omega)
      (by rw [hq1, hs2, getNode_append_lt s1 nn _ hposlt]; exact htq)]
    rw [hq2, hrank0cut]
  have hslot4_upd_high : ∀ ℓ, lvl ≤ ℓ → ℓ < s1.level → ∀ q,
      ups.getD ℓ (0, 0) = ((0 :: c).getD q 0, q) →
      q < (0 :: c).length → tall s1 ℓ ((0 :: c).getD q 0) →
      slotOf (getNode s4 ((0 :: c).getD q 0)) ℓ =
        ⟨(slotOf (getNode s1 ((0 :: c).getD q 0)) ℓ).forward,
         (slotOf (getNode s1 ((0 :: c).getD q 0)) ℓ).span + 1⟩ := by
    intro ℓ hge hlt q hq hqlen htq
    have hq1 : (ups.getD ℓ (0, 0)).1 = (0 :: c).getD q 0 := by rw [hq]
    have hposlt : (0 :: c).getD q 0 < s0.nodes.length := inv_pos_lt_nodes h hqlen
    have hs3slot : slotOf (getNode s3 ((0 :: c).getD q 0)) ℓ =
        slotOf (getNode s1 ((0 :: c).getD q 0)) ℓ := by
      rw [hs3, insertSplice_slot_untouched s2 ups rank0 newIdx lvl _ ℓ
        (fun hm => absurd hm (by omega))]
      rw [hs2, getNode_append_lt s1 nn _ hposlt]
    rw [← hq1]
    rw [hs4, insertBump_slot_upd ups (s1.level - lvl) s3 lvl ℓ hge (by omega)
      (by rw [hq1, hs3, (insertSplice_fields s2 ups rank0 newIdx lvl).2.2.2.2,
            hnodes2len, hnewIdx]
          omega)
      (by rw [hq1, hs3, insertSplice_height s2 ups rank0 newIdx lvl, hs2,
            getNode_append_lt s1 nn _ hposlt]
          exact htq)]
    rw [hq1, hs3slot]
  have hupne : ∀ m', m' < s1.level → (ups.getD m' (0, 0)).1 ≠ newIdx := by
    intro m' hm'
    obtain ⟨q', hq'1, hq'2, _, _⟩ := hspec m' hm'
    rw [hq'1]
    show (0 :: c).getD q' 0 ≠ newIdx
    have := inv_pos_lt_nodes h (show q' < (0 :: c).length by simp; omega)
    rw [hnewIdx]
    omega
  have hslot4_new : ∀ ℓ, ℓ < lvl → ∀ q, ups.getD ℓ (0, 0) = ((0 :: c).getD q 0, q) →
      q < (0 :: c).length →
      slotOf (getNode s4 newIdx) ℓ =
        ⟨(slotOf (getNode s1 ((0 :: c).getD q 0)) ℓ).forward,
         usub (slotOf (getNode s1 ((0 :: c).getD q 0)) ℓ).span (cut - q)⟩ := by
    intro ℓ hℓ q hq hqlen
    have hq1 : (ups.getD ℓ (0, 0)).1 = (0 :: c).getD q 0 := by rw [hq]
    have hq2 : (ups.getD ℓ (0, 0)).2 = q := by rw [hq]
    have hposlt : (0 :: c).getD q 0 < s0.nodes.length := inv_pos_lt_nodes h hqlen
    rw [hs4, insertBump_slot_untouched ups (s1.level - lvl) s3 lvl newIdx ℓ
      (fun hlo _ => absurd hℓ (by omega))]
    rw [hs3, insertSplice_slot_new s2 ups rank0 newIdx lvl ℓ hℓ
      (fun m' hm' => hupne m' (by omega))
      (by rw [hnodes2len]; omega)
      (fun m' hm' => by rw [hheight2_new]; exact hm')]
    rw [hq1, hq2, hrank0cut, hs2, getNode_append_lt s1 nn _ hposlt]
  have hslot4_new_high : ∀ ℓ, lvl ≤ ℓ → slotOf (getNode s4 newIdx) ℓ = ⟨none, 0⟩ := by
    intro ℓ hge
    rw [hs4, insertBump_slot_untouched ups (s1.level - lvl) s3 lvl newIdx ℓ
      (fun h1b h2b => (hupne ℓ (by omega)).symm)]
    rw [hs3, insertSplice_slot_untouched s2 ups rank0 newIdx lvl newIdx ℓ
      (fun hm => absurd hm (by omega))]
    rw [hget2_new]
    exact hslotnn ℓ
  -- the new chain and its positions
  set c' := c.take cut ++ newIdx :: c.drop cut with hc'
  have hc'len : c'.length = c.length + 1 := by
    rw [hc']
    simp
    omega
  have hhc : (0 :: c') = (0 :: c).take (cut + 1) ++ newIdx :: (0 :: c).drop (cut + 1) := rfl
  have htakelen : ((0 :: c).take (cut + 1)).length = cut + 1 := by
    simp
    omega
  have hpos_le : ∀ p, p ≤ cut → (0 :: c').getD p 0 = (0 :: c).getD p 0 := by
    intro p hp
    rw [hhc, List.getD_append _ _ _ _ (by rw [htakelen]; omega)]
    rw [List.getD_eq_getElem?_getD, List.getD_eq_getElem?_getD, List.getElem?_take]
    rw [if_pos (by omega)]
  have hpos_new : (0 :: c').getD (cut + 1) 0 = newIdx := by
    rw [hhc, List.getD_append_right _ _ _ _ (by rw [htakelen])]
    rw [htakelen]
    simp
  have hpos_ge : ∀ p, cut + 2 ≤ p → (0 :: c').getD p 0 = (0 :: c).getD (p - 1) 0 := by
    intro p hp
    rw [hhc, List.getD_append_right _ _ _ _ (by rw [htakelen]; omega)]
    rw [htakelen]
    have h2 : p - (cut + 1) = (p - cut - 2) + 1 := by omega
    rw [h2, List.getD_cons_succ, getD_drop]
    congr 1
    omega
  have hdrop_le : ∀ p, p ≤ cut → (0 :: c').drop (p + 1) =
      ((0 :: c).drop (p + 1)).take (cut - p) ++ newIdx :: (0 :: c).drop (cut + 1) := by
    intro p hp
    rw [hhc, List.drop_append_of_le_length (by rw [htakelen]; omega)]
    congr 1
    rw [List.drop_take]
    congr 1
    omega
  have hdrop_new : (0 :: c').drop (cut + 2) = (0 :: c).drop (cut + 1) := by
    rw [hhc]
    have h2 : cut + 2 = ((0 :: c).take (cut + 1)).length + 1 := by rw [htakelen]
    rw [h2, List.drop_append]
    rfl
  have hdrop_ge : ∀ p, cut + 2 ≤ p → (0 :: c').drop (p + 1) = (0 :: c).drop p := by
    intro p hp
    have h2 : p + 1 = ((0 :: c).take (cut + 1)).length + (p - cut) := by
      rw [htakelen]
      omega
    rw [hhc, h2, List.drop_append]
    have h3 : p - cut = (p - cut - 1) + 1 := by omega
    rw [h3]
    show ((0 :: c).drop (cut + 1)).drop (p - cut - 1) = _
    rw [List.drop_drop]
    congr 1
    omega
  have hsegsplit : ∀ q, q ≤ cut → (0 :: c).drop (q + 1) =
      ((0 :: c).drop (q + 1)).take (cut - q) ++ (0 :: c).drop (cut + 1) := by
    intro q hq
    conv_lhs => rw [← List.take_append_drop (cut - q) ((0 :: c).drop (q + 1))]
    congr 1
    rw [List.drop_drop]
    congr 1
    omega
  have hseglen : ∀ q, q ≤ cut → (((0 :: c).drop (q + 1)).take (cut - q)).length = cut - q := by
    intro q hq
    simp
    omega
  have hseg_short : ∀ ℓ q, (∀ j, q < j → j ≤ cut → ¬ tall s1 ℓ ((0 :: c).getD j 0)) →
      ∀ i ∈ ((0 :: c).drop (q + 1)).take (cut - q), ¬ tall s1 ℓ i := by
    intro ℓ q hmax i hi
    obtain ⟨idx, hidx, heq⟩ := List.mem_iff_getElem.mp hi
    have hlen2 : idx < cut - q := by
      simp at hidx
      omega
    have hieq : i = (0 :: c).getD (q + 1 + idx) 0 := by
      rw [← heq, ← List.getD_eq_getElem _ 0 hidx]
      rw [show ((((0 :: c).drop (q + 1)).take (cut - q))).getD idx 0 =
          ((0 :: c).drop (q + 1)).getD idx 0 from by
        simp [List.getD_eq_getElem?_getD, List.getElem?_take, hlen2]]
      rw [getD_drop]
    rw [hieq]
    exact hmax (q + 1 + idx) (by omega) (by omega)
  have hB_old : ∀ i ∈ (0 :: c).drop (cut + 1), i < s0.nodes.length :=
    fun i hi => hmem_lt i (List.drop_subset _ _ hi)
  have hold_short_high : ∀ ℓ, s1.level ≤ ℓ → ℓ < MaxLevel → ∀ i ∈ c, ¬ tall s4 ℓ i := by
    intro ℓ hge hlt i hic hti
    obtain ⟨idx, hidx⟩ := List.mem_iff_get.mp hic
    have hposi : (0 :: c).getD (idx.1 + 1) 0 = i := by
      simp only [List.getD_cons_succ]
      rw [getD_eq_get c 0 idx.2]
      exact hidx
    have ht1 : tall s1 ℓ ((0 :: c).getD (idx.1 + 1) 0) := by
      rw [hposi]
      exact (htall41 ℓ i (h.bounds i hic).1).mp hti
    have := inv_tall_lt_level h1 hlt (by omega) (by simp) ht1
    omega
  -- the span structure of `s4` along the new chain
  have hspans4 : ∀ ℓ < MaxLevel, ∀ p < (0 :: c').length, tall s4 ℓ ((0 :: c').getD p 0) →
      match firstTall s4 ℓ ((0 :: c').drop (p + 1)) with
      | none => (slotOf (getNode s4 ((0 :: c').getD p 0)) ℓ).forward = none
      | some r => (slotOf (getNode s4 ((0 :: c').getD p 0)) ℓ).forward = some r.2 ∧
          (slotOf (getNode s4 ((0 :: c').getD p 0)) ℓ).span = r.1 + 1 := by
    intro ℓ hℓ p hp ht
    have hp2 : p < c.length + 2 := by
      simp only [List.length_cons, hc'len] at hp
      omega
    rcases Nat.lt_or_ge p (cut + 1) with hple | hpge1
    · -- positions up to the splice point
      have hple' : p ≤ cut := by omega
      rw [hpos_le p hple'] at ht ⊢
      have hpold : p < (0 :: c).length := by simp; omega
      have hposlt : (0 :: c).getD p 0 < s0.nodes.length := inv_pos_lt_nodes h hpold
      have htall1 : tall s1 ℓ ((0 :: c).getD p 0) := (htall41 ℓ _ hposlt).mp ht
      have hseg_old : ∀ i ∈ ((0 :: c).drop (p + 1)).take (cut - p), i < s0.nodes.length :=
        fun i hi => hmem_lt i (List.drop_subset _ _ (List.take_subset _ _ hi))
      cases hseg : firstTall s1 ℓ (((0 :: c).drop (p + 1)).take (cut - p)) with
      | some r =>
        obtain ⟨k, f⟩ := r
        obtain ⟨hklen, hkget, hktall, hkbefore⟩ := firstTall_some_spec s1 ℓ _ k f hseg
        have hklt : k < cut - p := by
          simp at hklen
          omega
        have hfull : firstTall s1 ℓ ((0 :: c).drop (p + 1)) = some (k, f) := by
          apply firstTall_eq_some_of s1 ℓ _ k f
          · simp
            omega
          · rw [← hkget]
            simp [List.getD_eq_getElem?_getD, List.getElem?_take, hklt]
          · exact hktall
          · intro j hj
            have h2 := hkbefore j hj
            rw [show (((0 :: c).drop (p + 1)).take (cut - p)).getD j 0 =
                ((0 :: c).drop (p + 1)).getD j 0 from by
              simp [List.getD_eq_getElem?_getD, List.getElem?_take,
                (show j < cut - p by omega)]] at h2
            exact h2
        have hF : firstTall s4 ℓ ((0 :: c').drop (p + 1)) = some (k, f) := by
          rw [hdrop_le p hple', firstTall_append, hfirst41 ℓ _ hseg_old, hseg]
        have hsp := h1.spansOk ℓ hℓ p hpold htall1
        rw [hfull] at hsp
        simp only [slotAt] at hsp
        obtain ⟨hfw, hspn⟩ := hsp
        have hfpos : (0 :: c).getD (p + 1 + k) 0 = f := by
          rw [← hkget]
          rw [show (((0 :: c).drop (p + 1)).take (cut - p)).getD k 0 =
              ((0 :: c).drop (p + 1)).getD k 0 from by
            simp [List.getD_eq_getElem?_getD, List.getElem?_take, hklt]]
          rw [getD_drop]
        have hℓlt : ℓ < s1.level :=
          @inv_tall_lt_level δ _ s1 c h1 ℓ (p + 1 + k) hℓ (by omega)
            (by simp; omega) (by rw [hfpos]; exact hktall)
        obtain ⟨q, hq1, hq2, hq3, hq4⟩ := hspec ℓ hℓlt
        have hpq : p ≠ q := by
          rintro rfl
          exact hq4 (p + 1 + k) (by omega) (by omega) (by rw [hfpos]; exact hktall)
        have hunt : slotOf (getNode s4 ((0 :: c).getD p 0)) ℓ =
            slotOf (getNode s1 ((0 :: c).getD p 0)) ℓ := by
          apply hslot4_untouched ℓ _ hposlt
          intro hlt2
          rw [hq1]
          intro he
          exact hpq (inv_pos_inj h1 hpold (by simp; omega) he)
        rw [hF, hunt]
        exact ⟨hfw, hspn⟩
      | none =>
        have hshort : ∀ j, p < j → j ≤ cut → ¬ tall s1 ℓ ((0 :: c).getD j 0) := by
          intro j hj1 hj2 htj
          have hidx : j - p - 1 < (((0 :: c).drop (p + 1)).take (cut - p)).length := by
            simp
            omega
          have hgd : (((0 :: c).drop (p + 1)).take (cut - p)).getD (j - p - 1) 0 =
              (0 :: c).getD j 0 := by
            rw [show (((0 :: c).drop (p + 1)).take (cut - p)).getD (j - p - 1) 0 =
                ((0 :: c).drop (p + 1)).getD (j - p - 1) 0 from by
              simp [List.getD_eq_getElem?_getD, List.getElem?_take,
                (show j - p - 1 < cut - p by omega)]]
            rw [getD_drop]
            congr 1
            omega
          have hmem2 : (0 :: c).getD j 0 ∈ ((0 :: c).drop (p + 1)).take (cut - p) := by
            rw [← hgd]
            exact getD_mem_of_lt _ 0 hidx
          exact (firstTall_none_iff s1 ℓ _).mp hseg _ hmem2 htj
        rcases Nat.lt_or_ge ℓ s1.level with hℓlt | hℓge
        · obtain ⟨q, hq1, hq2, hq3, hq4⟩ := hspec ℓ hℓlt
          have hqp : q = p := by
            rcases Nat.lt_trichotomy q p with hlt2 | heq2 | hgt2
            · exact absurd htall1 (hq4 p hlt2 hple')
            · exact heq2
            · exact absurd hq3 (hshort q hgt2 hq2)
          rw [hqp] at hq1 hq2 hq3 hq4
          rcases Nat.lt_or_ge ℓ lvl with hlvlt | hlvge
          · -- spliced level: the next participant is the new node itself
            have hsl := hslot4_upd_low ℓ hlvlt p hq1 (by simp; omega) hq3
            have htnew : tall s4 ℓ newIdx := by
              unfold tall
              rw [hht4new]
              exact hlvlt
            have hfnb : firstTall s4 ℓ (newIdx :: (0 :: c).drop (cut + 1)) =
                some (0, newIdx) := by
              simp [firstTall, htnew]
            have hF : firstTall s4 ℓ ((0 :: c').drop (p + 1)) = some (cut - p, newIdx) := by
              rw [hdrop_le p hple', firstTall_append, hfirst41 ℓ _ hseg_old, hseg, hfnb]
              show some (0 + (((0 :: c).drop (p + 1)).take (cut - p)).length, newIdx) =
                some (cut - p, newIdx)
              rw [hseglen p hple']
              simp
            rw [hF, hsl]
            refine ⟨rfl, by simp⟩
          · -- bumped level
            have hsl := hslot4_upd_high ℓ hlvge hℓlt p hq1 (by simp; omega) hq3
            have htnew : ¬ tall s4 ℓ newIdx := by
              unfold tall
              rw [hht4new]
              omega
            have hsp := h1.spansOk ℓ hℓ p (by simp; omega) hq3
            rw [hsegsplit p hple', firstTall_append, hseg] at hsp
            simp only [slotAt] at hsp
            cases hB : firstTall s1 ℓ ((0 :: c).drop (cut + 1)) with
            | none =>
              rw [hB] at hsp
              have hfnb : firstTall s4 ℓ (newIdx :: (0 :: c).drop (cut + 1)) = none := by
                simp only [firstTall]
                rw [if_neg htnew, hfirst41 ℓ _ hB_old, hB]
                rfl
              have hF : firstTall s4 ℓ ((0 :: c').drop (p + 1)) = none := by
                rw [hdrop_le p hple', firstTall_append, hfirst41 ℓ _ hseg_old, hseg, hfnb]
                rfl
              rw [hF, hsl]
              exact hsp
            | some r =>
              obtain ⟨kB, fB⟩ := r
              rw [hB] at hsp
              obtain ⟨hsp1, hsp2⟩ := hsp
              have hfnb : firstTall s4 ℓ (newIdx :: (0 :: c).drop (cut + 1)) =
                  some (kB + 1, fB) := by
                simp only [firstTall]
                rw [if_neg htnew, hfirst41 ℓ _ hB_old, hB]
                rfl
              have hF : firstTall s4 ℓ ((0 :: c').drop (p + 1)) =
                  some (kB + 1 + (cut - p), fB) := by
                rw [hdrop_le p hple', firstTall_append, hfirst41 ℓ _ hseg_old, hseg, hfnb]
                show some (kB + 1 + (((0 :: c).drop (p + 1)).take (cut - p)).length, fB) =
                  some (kB + 1 + (cut - p), fB)
                rw [hseglen p hple']
              rw [hF, hsl]
              constructor
              · exact hsp1
              · show (slotOf (getNode s1 ((0 :: c).getD p 0)) ℓ).span + 1 =
                  kB + 1 + (cut - p) + 1
                have hsp2b : (slotOf (getNode s1 ((0 :: c).getD p 0)) ℓ).span =
                    kB + (((0 :: c).drop (p + 1)).take (cut - p)).length + 1 := hsp2
                rw [hseglen p hple'] at hsp2b
                omega
        · -- levels at or above the current level: only the head is tall
          have hp0 : p = 0 := by
            by_contra hne
            have := inv_tall_lt_level h1 hℓ (by omega) hpold htall1
            omega
          subst hp0
          have hunt : slotOf (getNode s4 ((0 :: c).getD 0 0)) ℓ =
              slotOf (getNode s1 ((0 :: c).getD 0 0)) ℓ :=
            hslot4_untouched ℓ _ (inv_pos_lt_nodes h (by simp))
              (fun hlt2 => absurd hlt2 (by omega))
          have hF : firstTall s4 ℓ ((0 :: c').drop (0 + 1)) = none := by
            apply firstTall_all_short
            intro i hi
            have hi' : i ∈ c' := by simpa using hi
            rw [hc'] at hi'
            rcases List.mem_append.mp hi' with htk | hcn
            · exact hold_short_high ℓ hℓge hℓ i (List.take_subset _ _ htk)
            · rcases List.mem_cons.mp hcn with rfl | hdp
              · unfold tall
                rw [hht4new]
                omega
              · exact hold_short_high ℓ hℓge hℓ i (List.drop_subset _ _ hdp)
          rw [hF, hunt]
          exact h1.headUpper ℓ (by omega) hℓ
    · rcases Nat.lt_or_ge p (cut + 2) with hpeq | hpge2
      · -- the new node's own slots
        have hpc : p = cut + 1 := by omega
        subst hpc
        rw [hpos_new] at ht ⊢
        have hℓlvl : ℓ < lvl := by
          unfold tall at ht
          rw [hht4new] at ht
          exact ht
        obtain ⟨q, hq1, hq2, hq3, hq4⟩ := hspec ℓ (by omega)
        have hsl := hslot4_new ℓ hℓlvl q hq1 (by simp; omega)
        have hsp := h1.spansOk ℓ hℓ q (by simp; omega) hq3
        rw [hsegsplit q hq2, firstTall_append,
          firstTall_all_short s1 ℓ _ (hseg_short ℓ q hq4)] at hsp
        simp only [slotAt] at hsp
        rw [show cut + 1 + 1 = cut + 2 from rfl, hdrop_new]
        cases hB : firstTall s1 ℓ ((0 :: c).drop (cut + 1)) with
        | none =>
          rw [hB] at hsp
          have hF : firstTall s4 ℓ ((0 :: c).drop (cut + 1)) = none := by
            rw [hfirst41 ℓ _ hB_old]
            exact hB
          rw [hF, hsl]
          exact hsp
        | some r =>
          obtain ⟨kB, fB⟩ := r
          rw [hB] at hsp
          obtain ⟨hsp1, hsp2⟩ := hsp
          have hF : firstTall s4 ℓ ((0 :: c).drop (cut + 1)) = some (kB, fB) := by
            rw [hfirst41 ℓ _ hB_old]
            exact hB
          rw [hF, hsl]
          constructor
          · exact hsp1
          · show usub (slotOf (getNode s1 ((0 :: c).getD q 0)) ℓ).span (cut - q) = kB + 1
            have hsp2b : (slotOf (getNode s1 ((0 :: c).getD q 0)) ℓ).span =
                kB + (((0 :: c).drop (q + 1)).take (cut - q)).length + 1 := hsp2
            rw [hseglen q hq2] at hsp2b
            rw [hsp2b]
            unfold usub
            rw [if_pos (by omega)]
            omega
      · -- positions after the splice point: everything is shifted by one
        rw [hpos_ge p hpge2] at ht ⊢
        have hpm1 : p - 1 < (0 :: c).length := by simp; omega
        have hposlt : (0 :: c).getD (p - 1) 0 < s0.nodes.length := inv_pos_lt_nodes h hpm1
        have htall1 : tall s1 ℓ ((0 :: c).getD (p - 1) 0) := (htall41 ℓ _ hposlt).mp ht
        have hℓlt : ℓ < s1.level := inv_tall_lt_level h1 hℓ (by omega) hpm1 htall1
        obtain ⟨q, hq1, hq2, hq3, hq4⟩ := hspec ℓ hℓlt
        have hpq : (0 :: c).getD (p - 1) 0 ≠ (0 :: c).getD q 0 := by
          intro he
          have := inv_pos_inj h1 hpm1 (by simp; omega) he
          omega
        have hunt := hslot4_untouched ℓ _ hposlt (fun _ => by rw [hq1]; exact hpq)
        have hF : firstTall s4 ℓ ((0 :: c').drop (p + 1)) =
            firstTall s1 ℓ ((0 :: c).drop p) := by
          rw [hdrop_ge p hpge2,
            hfirst41 ℓ _ (fun i hi => hmem_lt i (List.drop_subset _ _ hi))]
        have hsp := h1.spansOk ℓ hℓ (p - 1) hpm1 htall1
        simp only [slotAt] at hsp
        have hdp : (0 :: c).drop ((p - 1) + 1) = (0 :: c).drop p := by
          congr 1
          omega
        rw [hdp] at hsp
        rw [hF, hunt]
        exact hsp
  -- level-0 spans stored on nil forward pointers
  have hnil4 : ∀ p < (0 :: c').length,
      (slotOf (getNode s4 ((0 :: c').getD p 0)) 0).forward = none →
      (slotOf (getNode s4 ((0 :: c').getD p 0)) 0).span = 0 := by
    intro p hp hfwd
    have hp2 : p < c.length + 2 := by
      simp only [List.length_cons, hc'len] at hp
      omega
    rcases Nat.lt_or_ge p (cut + 1) with hple | hpge1
    · have hple' : p ≤ cut := by omega
      rw [hpos_le p hple'] at hfwd ⊢
      exfalso
      rcases Nat.lt_or_ge p cut with hlt | hge
      · have hunt : slotOf (getNode s4 ((0 :: c).getD p 0)) 0 =
            slotOf (getNode s1 ((0 :: c).getD p 0)) 0 := by
          apply hslot4_untouched 0 _ (inv_pos_lt_nodes h (by simp; omega))
          intro _
          rw [hzero]
          intro he
          have := inv_pos_inj h1 (by simp; omega) (by simp; omega) he
          omega
        rw [hunt, inv_forward0 h1 p (by omega)] at hfwd
        cases hfwd
      · have hpcut : p = cut := by omega
        subst hpcut
        have hsl := hslot4_upd_low 0 hl1 cut hzero (by simp; omega)
          (inv_tall0 h1 cut (by simp; omega))
        rw [hsl] at hfwd
        simp at hfwd
    · rcases Nat.lt_or_ge p (cut + 2) with hpeq | hpge2
      · have hpc : p = cut + 1 := by omega
        subst hpc
        rw [hpos_new] at hfwd ⊢
        have hsl := hslot4_new 0 hl1 cut hzero (by simp; omega)
        rw [hsl] at hfwd ⊢
        have hspan0 : (slotOf (getNode s1 ((0 :: c).getD cut 0)) 0).span = 0 := by
          apply h1.nilSpan0 cut (by simp; omega)
          exact hfwd
        show usub (slotOf (getNode s1 ((0 :: c).getD cut 0)) 0).span (cut - cut) = 0
        rw [hspan0]
        unfold usub
        rw [if_pos (by omega)]
        omega
      · rw [hpos_ge p hpge2] at hfwd ⊢
        have hpm1 : p - 1 < (0 :: c).length := by simp; omega
        have hunt : slotOf (getNode s4 ((0 :: c).getD (p - 1) 0)) 0 =
            slotOf (getNode s1 ((0 :: c).getD (p - 1) 0)) 0 := by
          apply hslot4_untouched 0 _ (inv_pos_lt_nodes h hpm1)
          intro _
          rw [hzero]
          intro he
          have := inv_pos_inj h1 hpm1 (by simp; omega) he
          omega
        rw [hunt] at hfwd ⊢
        exact h1.nilSpan0 (p - 1) hpm1 hfwd
  -- head slots above the current level stay nil
  have hhead4 : ∀ ℓ, s1.level ≤ ℓ → ℓ < MaxLevel →
      (slotOf (getNode s4 0) ℓ).forward = none := by
    intro ℓ hge hlt
    rw [hslot4_untouched ℓ 0 h.headIn (fun hlt2 => absurd hlt2 (by omega))]
    exact h1.headUpper ℓ hge hlt
  -- elements of the final store
  have helnew : (getNode s4 newIdx).element = ⟨m, sc, d⟩ := by
    rw [hel4, hget2_new, hnn]
  have hel40 : ∀ j, j < s0.nodes.length →
      (getNode s4 j).element = (getNode s0 j).element := by
    intro j hj
    rw [hel4, hget2_lt j hj]
  -- the cut splits the chain by the comparison against the new key
  have hprecB_lt : ∀ j, j < cut → precB (getNode s0 (c.getD j 0)).element sc m = true := by
    intro j hj
    have h2 := (precB_pos_iff h sc m (j + 1) (by omega) (by omega)).mpr
    rw [hcut0] at h2
    have h3 := h2 (by omega)
    simpa using h3
  have hprecB_ge : ∀ j, cut ≤ j → j < c.length →
      precB (getNode s0 (c.getD j 0)).element sc m = false := by
    intro j hj1 hj2
    cases hpb : precB (getNode s0 (c.getD j 0)).element sc m with
    | false => rfl
    | true =>
      exfalso
      have h2 := (precB_pos_iff h sc m (j + 1) (by omega) (by omega)).mp (by simpa using hpb)
      rw [hcut0] at h2
      omega
  have htkmem : ∀ i ∈ c.take cut, i ∈ c := fun i hi => List.take_subset _ _ hi
  have hdpmem : ∀ i ∈ c.drop cut, i ∈ c := fun i hi => List.drop_subset _ _ hi
  have hord4 : List.Pairwise Prec (c'.map (fun i => (getNode s4 i).element)) := by
    rw [hc', List.map_append, List.map_cons, helnew]
    have hmapold : ∀ (l : List Nat), (∀ i ∈ l, i ∈ c) →
        l.map (fun i => (getNode s4 i).element) = l.map (fun i => (getNode s0 i).element) := by
      intro l hl
      apply List.map_congr_left
      intro i hi
      exact hel40 i (h.bounds i (hl i hi)).1
    rw [hmapold _ htkmem, hmapold _ hdpmem]
    have hord0 : List.Pairwise Prec ((c.take cut).map (fun i => (getNode s0 i).element) ++
        (c.drop cut).map (fun i => (getNode s0 i).element)) := by
      rw [← List.map_append, List.take_append_drop]
      exact h.ordering
    rw [List.pairwise_append] at hord0
    obtain ⟨hordtk, horddp, hcross⟩ := hord0
    rw [List.pairwise_append]
    refine ⟨hordtk, ?_, ?_⟩
    · rw [List.pairwise_cons]
      constructor
      · intro e he
        obtain ⟨i, hidp, rfl⟩ := List.mem_map.mp he
        have hic : i ∈ c := hdpmem i hidp
        obtain ⟨idx, hidx, heq⟩ := List.mem_iff_getElem.mp hidp
        have hidx2 : idx < c.length - cut := by simpa using hidx
        have hieq : i = c.getD (cut + idx) 0 := by
          rw [← heq, ← List.getD_eq_getElem _ 0 hidx, getD_drop]
        apply prec_new_of_not_precB
        · rw [hieq]
          exact hprecB_ge (cut + idx) (by omega) (by omega)
        · exact hab i hic
      · exact horddp
    · intro a ha b hb
      rcases List.mem_cons.mp hb with rfl | hbdp
      · obtain ⟨i, hitk, rfl⟩ := List.mem_map.mp ha
        obtain ⟨idx, hidx, heq⟩ := List.mem_iff_getElem.mp hitk
        have hidx2 : idx < cut := by
          simp at hidx
          omega
        have hieq : i = c.getD idx 0 := by
          rw [← heq, ← List.getD_eq_getElem _ 0 hidx]
          simp [List.getD_eq_getElem?_getD, List.getElem?_take, hidx2]
        have h2 := hprecB_lt idx hidx2
        rw [← hieq] at h2
        exact precB_iff_prec.mp h2
      · exact hcross _ ha _ hbdp
  -- membership in the new chain
  have hcmem : ∀ i ∈ c, i ∈ c' := by
    intro i hic
    exact (take_cons_drop_perm newIdx c cut).symm.subset (List.mem_cons_of_mem newIdx hic)
  have hnewmem : newIdx ∈ c' :=
    (take_cons_drop_perm newIdx c cut).symm.subset (List.mem_cons_self newIdx c)
  have hIbounds : ∀ i ∈ c', i < newIdx + 1 ∧ i ≠ 0 := by
    intro i hic'
    have h2 : i ∈ newIdx :: c := (take_cons_drop_perm newIdx c cut).subset hic'
    rcases List.mem_cons.mp h2 with rfl | hic
    · refine ⟨by omega, ?_⟩
      rw [hnewIdx]
      have := h.headIn
      omega
    · obtain ⟨hb1, hb2⟩ := h.bounds i hic
      refine ⟨?_, hb2⟩
      rw [hnewIdx]
      omega
  have hInodup : c'.Nodup := by
    rw [(take_cons_drop_perm newIdx c cut).nodup_iff]
    rw [List.nodup_cons]
    constructor
    · intro hmem2
      have h2 := (h.bounds newIdx hmem2).1
      rw [hnewIdx] at h2
      exact absurd h2 (lt_irrefl _)
    · exact h.nodup
  have hIheights : ∀ i ∈ c', 1 ≤ heightOf (getNode s4 i) ∧
      heightOf (getNode s4 i) ≤ MaxLevel := by
    intro i hic'
    have h2 : i ∈ newIdx :: c := (take_cons_drop_perm newIdx c cut).subset hic'
    rcases List.mem_cons.mp h2 with rfl | hic
    · rw [hht4new]
      exact ⟨hl1, hl2⟩
    · rw [hht41 i (h.bounds i hic).1]
      exact h.heights i hic
  -- side-map soundness/completeness for the rebuilt map
  have hmapsound4 : ∀ kv ∈ ((m, newIdx) :: eraseKey m s0.elementMap),
      kv.2 ∈ c' ∧ (getNode s4 kv.2).element.member = kv.1 := by
    intro kv hkv
    rcases List.mem_cons.mp hkv with rfl | hkv2
    · exact ⟨hnewmem, by rw [helnew]⟩
    · obtain ⟨hkmem, hkne⟩ := mem_of_mem_eraseKey m _ kv hkv2
      obtain ⟨hs0mem, hs0name⟩ := h.mapSound kv hkmem
      refine ⟨hcmem _ hs0mem, ?_⟩
      rw [hel40 kv.2 (h.bounds _ hs0mem).1]
      exact hs0name
  have hmapcomplete4 : ∀ i ∈ c', ((getNode s4 i).element.member, i) ∈
      ((m, newIdx) :: eraseKey m s0.elementMap) := by
    intro i hic'
    have h2 : i ∈ newIdx :: c := (take_cons_drop_perm newIdx c cut).subset hic'
    rcases List.mem_cons.mp h2 with rfl | hic
    · rw [helnew]
      exact List.mem_cons_self _ _
    · rw [hel40 i (h.bounds i hic).1]
      apply List.mem_cons_of_mem
      exact mem_eraseKey_of_ne m _ _ (h.mapComplete i hic) (hab i hic)
  have hkeys4 : (((m, newIdx) :: eraseKey m s0.elementMap).map Prod.fst).Nodup := by
    rw [List.map_cons, List.nodup_cons]
    exact ⟨not_mem_keys_eraseKey m _, h.mapKeysNodup.sublist (eraseKey_keys_sublist m _)⟩
  -- the tail resolution
  have hcutn : (slotOf (getNode s4 newIdx) 0).forward = none ↔ cut = c.length := by
    rw [hslot4_new 0 hl1 cut hzero (by simp; omega)]
    show (slotOf (getNode s1 ((0 :: c).getD cut 0)) 0).forward = none ↔ cut = c.length
    constructor
    · intro hnone
      by_contra hne
      rw [inv_forward0 h1 cut (by omega)] at hnone
      cases hnone
    · intro he
      rw [he]
      exact inv_forward0_last h1
  have hlast_eq : cut = c.length → c'.getLast? = some newIdx := by
    intro he
    rw [hc', he, List.drop_length]
    rw [List.getLast?_append_of_ne_nil _ (by simp)]
    rfl
  have hlast_lt : cut < c.length → c'.getLast? = c.getLast? := by
    intro hlt
    have hdropne : c.drop cut ≠ [] := by
      intro hnil
      have := List.drop_eq_nil_iff.mp hnil
      omega
    have h2 : c'.getLast? = (c.drop cut).getLast? := by
      rw [hc', show newIdx :: c.drop cut = [newIdx] ++ c.drop cut from rfl,
        ← List.append_assoc]
      exact List.getLast?_append_of_ne_nil _ hdropne
    have h3 : c.getLast? = (c.drop cut).getLast? := by
      conv_lhs => rw [← List.take_append_drop cut c]
      exact List.getLast?_append_of_ne_nil _ hdropne
    rw [h2, h3]
  -- building the invariant for any tail value satisfying `tailOk`
  have hbuild : ∀ tl : Option Nat,
      (match c'.getLast? with
       | none => tl = none ∨ tl = some 0
       | some t => tl = some t) →
      Inv { s4 with
          tail := tl
          elementMap := (m, newIdx) :: eraseKey m s4.elementMap
          length := s4.length + 1 } c' := by
    intro tl htlc
    rw [h4map]
    refine ⟨?_, ?_, ?_, hInodup, ?_, ?_, ?_, ?_, ?_, ?_, ?_, ?_, hkeys4, ?_, ?_⟩
    · show 0 < s4.nodes.length
      rw [h4nodeslen]
      omega
    · show heightOf (getNode s4 0) = MaxLevel
      rw [hht41 0 h.headIn]
      exact h1.headHeight
    · intro i hic'
      obtain ⟨hb1, hb2⟩ := hIbounds i hic'
      refine ⟨?_, hb2⟩
      show i < s4.nodes.length
      rw [h4nodeslen]
      exact hb1
    · intro i hic'
      exact hIheights i hic'
    · show 1 ≤ s4.level ∧ s4.level ≤ MaxLevel
      rw [h4level]
      exact h1.levelOk
    · intro ℓ hℓ p hp ht
      rw [firstTall_congr s4 { s4 with
          tail := tl
          elementMap := (m, newIdx) :: eraseKey m s0.elementMap
          length := s4.length + 1 } ℓ ((0 :: c').drop (p + 1)) (fun i _ => rfl)]
      exact hspans4 ℓ hℓ p hp ht
    · intro p hp hf
      exact hnil4 p hp hf
    · intro ℓ hge hlt
      refine hhead4 ℓ ?_ hlt
      rw [← h4level]
      exact hge
    · exact hord4
    · intro kv hkv
      exact hmapsound4 kv hkv
    · intro i hic'
      exact hmapcomplete4 i hic'
    · show s4.length + 1 = c'.length
      rw [h4length, h.lengthOk, hc'len]
    · exact htlc
  -- final assembly
  have hfin0 : insertCore s0 m sc d lvl =
      (let s5 := if (slotOf (getNode s4 newIdx) 0).forward = none
        then { s4 with tail := some newIdx } else s4
       ({ s5 with
          elementMap := (m, newIdx) :: eraseKey m s5.elementMap
          length := s5.length + 1 }, (⟨m, sc, d⟩ : Element δ))) := rfl
  simp only [] at hfin0
  by_cases htl : (slotOf (getNode s4 newIdx) 0).forward = none
  · rw [if_pos htl] at hfin0
    have hfin : insertCore s0 m sc d lvl =
        ({ s4 with
            tail := some newIdx
            elementMap := (m, newIdx) :: eraseKey m s4.elementMap
            length := s4.length + 1 }, (⟨m, sc, d⟩ : Element δ)) := hfin0
    rw [hfin]
    refine ⟨?_, ?_, ?_, ?_, ?_, rfl⟩
    · refine hbuild (some newIdx) ?_
      rw [hlast_eq (hcutn.mp htl)]
    · intro j hj
      show (getNode s4 j).element = (getNode s0 j).element
      exact hel40 j hj
    · show (getNode s4 newIdx).element = ⟨m, sc, d⟩
      exact helnew
    · show (m, newIdx) :: eraseKey m s4.elementMap = (m, newIdx) :: eraseKey m s0.elementMap
      rw [h4map]
    · show s4.length + 1 = s0.length + 1
      rw [h4length]
  · rw [if_neg htl] at hfin0
    have hfin : insertCore s0 m sc d lvl =
        ({ s4 with
            tail := s4.tail
            elementMap := (m, newIdx) :: eraseKey m s4.elementMap
            length := s4.length + 1 }, (⟨m, sc, d⟩ : Element δ)) := hfin0
    rw [hfin]
    refine ⟨?_, ?_, ?_, ?_, ?_, rfl⟩
    · refine hbuild s4.tail ?_
      have hlt : cut < c.length := by
        rcases Nat.lt_or_ge cut c.length with h2 | h2
        · exact h2
        · exact absurd (hcutn.mpr (by omega)) htl
      rw [hlast_lt hlt, h4tail]
      exact h.tailOk
    · intro j hj
      show (getNode s4 j).element = (getNode s0 j).element
      exact hel40 j hj
    · show (getNode s4 newIdx).element = ⟨m, sc, d⟩
      exact helnew
    · show (m, newIdx) :: eraseKey m s4.elementMap = (m, newIdx) :: eraseKey m s0.elementMap
      rw [h4map]
    · show s4.length + 1 = s0.length + 1
      rw [h4length]

theorem mem_eraseIdx_of_mem_ne {β : Type} (l : List β) (d : β) (j : Nat)
    (hj : j < l.length) {a : β} (ha : a ∈ l) (hne : a ≠ l.getD j d) : a ∈ l.eraseIdx j := by
  have hp := (perm_getD_cons_eraseIdx l d j hj).subset ha
  rcases List.mem_cons.mp hp with he | h2
  · exact absurd he hne
  · exact h2

theorem not_mem_eraseIdx_self {β : Type} (l : List β) (d : β) (j : Nat)
    (hj : j < l.length) (hnd : l.Nodup) : l.getD j d ∉ l.eraseIdx j := by
  have hnd2 : (l.getD j d :: l.eraseIdx j).Nodup :=
    ((perm_getD_cons_eraseIdx l d j hj).nodup_iff).mp hnd
  exact (List.nodup_cons.mp hnd2).1

theorem shrink_le (s : SkipList δ) : ∀ t, shrink s t ≤ t
  | 0 => le_refl 0
  | 1 => le_refl 1
  | n + 2 => by
    simp only [shrink]
    split
    · exact le_trans (shrink_le s (n + 1)) (by omega)
    · exact le_refl _

theorem shrink_pos (s : SkipList δ) : ∀ t, 1 ≤ t → 1 ≤ shrink s t
  | 0, h => absurd h (by omega)
  | 1, _ => le_refl 1
  | n + 2, _ => by
    simp only [shrink]
    split
    · exact shrink_pos s (n + 1) (by omega)
    · omega

/-- The shrink loop stops exactly when the head slot below it is occupied:
everything from the result up to the old level is a nil head slot. -/
theorem shrink_above (s : SkipList δ) : ∀ t ℓ, shrink s t ≤ ℓ → ℓ < t →
    (slotOf (getNode s 0) ℓ).forward = none
  | 0, ℓ, _, h2 => absurd h2 (by omega)
  | 1, ℓ, h1, h2 => by
    simp only [shrink] at h1
    omega
  | n + 2, ℓ, h1, h2 => by
    simp only [shrink] at h1
    by_cases hcnd : (slotOf (getNode s 0) (n + 1)).forward = none
    · rw [if_pos hcnd] at h1
      rcases Nat.lt_or_ge ℓ (n + 1) with hlt | hge
      · exact shrink_above s (n + 1) ℓ h1 hlt
      · have he : ℓ = n + 1 := by omega
        rw [he]
        exact hcnd
    · rw [if_neg hcnd] at h1
      omega

/-! ### Deletion preserves the invariant -/

/-- Full characterisation of `Delete` on a well-formed state: it fails
(returning the state unchanged) unless the entry at chain position
`cut + 1` carries exactly the queried score and member, in which case that
entry is unlinked, the invariant holds for the chain with position `cut`
erased, and the tail is set to the predecessor node (which may be the head
sentinel) when the victim was last. -/
theorem delete_spec {s0 : SkipList δ} {c : List Nat} (h : Inv s0 c) (m : String) (sc : Int) :
    ((cutOf s0 c sc m = c.length ∨
      ¬((getNode s0 (c.getD (cutOf s0 c sc m) 0)).element.score = sc ∧
        (getNode s0 (c.getD (cutOf s0 c sc m) 0)).element.member = m)) →
      SkipList.Delete s0 m sc = (s0, false)) ∧
    (cutOf s0 c sc m < c.length →
      (getNode s0 (c.getD (cutOf s0 c sc m) 0)).element.score = sc →
      (getNode s0 (c.getD (cutOf s0 c sc m) 0)).element.member = m →
      (SkipList.Delete s0 m sc).2 = true ∧
      Inv (SkipList.Delete s0 m sc).1 (c.eraseIdx (cutOf s0 c sc m)) ∧
      (∀ j, (getNode (SkipList.Delete s0 m sc).1 j).element = (getNode s0 j).element) ∧
      (SkipList.Delete s0 m sc).1.nodes.length = s0.nodes.length ∧
      (SkipList.Delete s0 m sc).1.length = s0.length - 1 ∧
      (SkipList.Delete s0 m sc).1.elementMap = eraseKey m s0.elementMap ∧
      (SkipList.Delete s0 m sc).1.tail =
        (if cutOf s0 c sc m + 1 = c.length
         then some ((0 :: c).getD (cutOf s0 c sc m) 0) else s0.tail)) := by
  set ups := updates s0 sc m with hups
  set cut := cutOf s0 c sc m with hcut
  have hcutle : cut ≤ c.length := cutOf_le s0 c sc m
  have hzero : ups.getD 0 (0, 0) = ((0 :: c).getD cut 0, cut) := updates_zero h sc m
  have hu0 : (ups.getD 0 (0, 0)).1 = (0 :: c).getD cut 0 := by rw [hzero]
  have hspec : ∀ ℓ < s0.level, ∃ q, ups.getD ℓ (0, 0) = ((0 :: c).getD q 0, q) ∧
      q ≤ cut ∧ tall s0 ℓ ((0 :: c).getD q 0) ∧
      (∀ j, q < j → j ≤ cut → ¬ tall s0 ℓ ((0 :: c).getD j 0)) :=
    (updates_spec h sc m).2
  constructor
  · -- the failure paths
    intro hfail
    rcases Nat.lt_or_ge cut c.length with hlt | hge
    · have hfwd0 : (slotOf (getNode s0 ((ups.getD 0 (0, 0)).1)) 0).forward =
          some (c.getD cut 0) := by
        rw [hu0, inv_forward0 h cut hlt]
        rfl
      have hmis : ¬((getNode s0 (c.getD cut 0)).element.score = sc ∧
          (getNode s0 (c.getD cut 0)).element.member = m) := by
        rcases hfail with he | hne
        · omega
        · exact hne
      simp only [SkipList.Delete]
      rw [← hups, hfwd0]
      show (if (getNode s0 (c.getD cut 0)).element.score = sc ∧
          (getNode s0 (c.getD cut 0)).element.member = m
        then _ else (s0, false)) = (s0, false)
      rw [if_neg hmis]
    · have hgeq : cut = c.length := by omega
      have hfwd0 : (slotOf (getNode s0 ((ups.getD 0 (0, 0)).1)) 0).forward = none := by
        rw [hu0, hgeq]
        exact inv_forward0_last h
      simp only [SkipList.Delete]
      rw [← hups, hfwd0]
  · -- the success path
    intro hcutlt hsc hm
    set xi := c.getD cut 0 with hxi
    set s1 : SkipList δ := removeLoop s0 ups xi s0.level with hs1
    have hxipos : (0 :: c).getD (cut + 1) 0 = xi := rfl
    have hximem : xi ∈ c := by rw [hxi]; exact getD_mem_of_lt c 0 hcutlt
    have hxilt : xi < s0.nodes.length := (h.bounds xi hximem).1
    have hscrut : (slotOf (getNode s0 ((ups.getD 0 (0, 0)).1)) 0).forward = some xi := by
      rw [hu0, inv_forward0 h cut hcutlt]
      rfl
    -- the code path taken
    have e1 : SkipList.Delete s0 m sc =
        (match (slotOf (getNode s0 ((ups.getD 0 (0, 0)).1)) 0).forward with
         | none => (s0, false)
         | some xi2 =>
           if (getNode s0 xi2).element.score = sc ∧ (getNode s0 xi2).element.member = m then
             (let s1b := removeLoop s0 ups xi2 s0.level
              let s2b := if (slotOf (getNode s1b xi2) 0).forward = none
                then { s1b with tail := some ((ups.getD 0 (0, 0)).1) } else s1b
              let s3b := { s2b with level := shrink s2b s2b.level }
              ({ s3b with
                  elementMap := eraseKey m s3b.elementMap
                  length := s3b.length - 1 }, true))
           else (s0, false)) := rfl
    rw [hscrut] at e1
    have e2 : SkipList.Delete s0 m sc =
        (if (getNode s0 xi).element.score = sc ∧ (getNode s0 xi).element.member = m then
          (let s2b := if (slotOf (getNode s1 xi) 0).forward = none
            then { s1 with tail := some ((ups.getD 0 (0, 0)).1) } else s1
           let s3b := { s2b with level := shrink s2b s2b.level }
           ({ s3b with
               elementMap := eraseKey m s3b.elementMap
               length := s3b.length - 1 }, true))
         else (s0, false)) := e1
    rw [if_pos ⟨hsc, hm⟩] at e2
    -- bookkeeping facts about the unlink loop
    have h1tail : s1.tail = s0.tail := by
      rw [hs1]
      exact (removeLoop_fields s0 ups xi s0.level).1
    have h1length : s1.length = s0.length := by
      rw [hs1]
      exact (removeLoop_fields s0 ups xi s0.level).2.1
    have h1level : s1.level = s0.level := by
      rw [hs1]
      exact (removeLoop_fields s0 ups xi s0.level).2.2.1
    have h1map : s1.elementMap = s0.elementMap := by
      rw [hs1]
      exact (removeLoop_fields s0 ups xi s0.level).2.2.2.1
    have h1nodes : s1.nodes.length = s0.nodes.length := by
      rw [hs1]
      exact (removeLoop_fields s0 ups xi s0.level).2.2.2.2
    have hel1 : ∀ j, (getNode s1 j).element = (getNode s0 j).element := by
      intro j
      rw [hs1]
      exact removeLoop_element s0 ups xi s0.level j
    have hht1 : ∀ j, heightOf (getNode s1 j) = heightOf (getNode s0 j) := by
      intro j
      rw [hs1]
      exact removeLoop_height s0 ups xi s0.level j
    have htall1 : ∀ ℓ i, tall s1 ℓ i ↔ tall s0 ℓ i := by
      intro ℓ i
      unfold tall
      rw [hht1 i]
    have hfirst1 : ∀ ℓ l, firstTall s1 ℓ l = firstTall s0 ℓ l :=
      fun ℓ l => firstTall_congr s0 s1 ℓ l (fun i _ => hht1 i)
    have hxine : ∀ ℓ < s0.level, (ups.getD ℓ (0, 0)).1 ≠ xi := by
      intro ℓ hℓ
      obtain ⟨q, hq1, hq2, _, _⟩ := hspec ℓ hℓ
      rw [hq1]
      show (0 :: c).getD q 0 ≠ xi
      rw [← hxipos]
      intro he
      have := inv_pos_inj h (by simp; omega) (by simp; omega) he
      omega
    have hslot1_untouched : ∀ ℓd j, (ℓd < s0.level → j ≠ (ups.getD ℓd (0, 0)).1) →
        slotOf (getNode s1 j) ℓd = slotOf (getNode s0 j) ℓd := by
      intro ℓd j hne
      rw [hs1]
      exact removeLoop_slot_untouched s0 ups xi s0.level j ℓd hne
    have hslot1_upd : ∀ ℓ, ℓ < s0.level → ∀ q,
        ups.getD ℓ (0, 0) = ((0 :: c).getD q 0, q) →
        q < (0 :: c).length → tall s0 ℓ ((0 :: c).getD q 0) →
        slotOf (getNode s1 ((0 :: c).getD q 0)) ℓ =
          (if (slotOf (getNode s0 ((0 :: c).getD q 0)) ℓ).forward = some xi then
            ⟨(slotOf (getNode s0 xi) ℓ).forward,
             usub ((slotOf (getNode s0 ((0 :: c).getD q 0)) ℓ).span +
               (slotOf (getNode s0 xi) ℓ).span) 1⟩
          else ⟨(slotOf (getNode s0 ((0 :: c).getD q 0)) ℓ).forward,
             usub (slotOf (getNode s0 ((0 :: c).getD q 0)) ℓ).span 1⟩) := by
      intro ℓ hℓ q hq hqlen htq
      have hq1 : (ups.getD ℓ (0, 0)).1 = (0 :: c).getD q 0 := by rw [hq]
      rw [← hq1, hs1]
      exact removeLoop_slot_upd s0 ups xi s0.level ℓ hℓ hxine
        (by rw [hq1]; exact inv_pos_lt_nodes h hqlen)
        (by rw [hq1]; exact htq)
    -- the reduced chain and its positions
    set c1 := c.eraseIdx cut with hc1
    have hc1eq : (0 :: c1) = (0 :: c).take (cut + 1) ++ (0 :: c).drop (cut + 2) := by
      rw [hc1, List.eraseIdx_eq_take_drop_succ]
      rfl
    have hc1len : c1.length = c.length - 1 := by
      rw [hc1]
      exact List.length_eraseIdx_of_lt hcutlt
    have htakelen : ((0 :: c).take (cut + 1)).length = cut + 1 := by
      simp
      omega
    have hpos_le : ∀ p, p ≤ cut → (0 :: c1).getD p 0 = (0 :: c).getD p 0 := by
      intro p hp
      rw [hc1eq, List.getD_append _ _ _ _ (by rw [htakelen]; omega)]
      rw [List.getD_eq_getElem?_getD, List.getD_eq_getElem?_getD, List.getElem?_take]
      rw [if_pos (by omega)]
    have hpos_ge : ∀ p, cut + 1 ≤ p → (0 :: c1).getD p 0 = (0 :: c).getD (p + 1) 0 := by
      intro p hp
      rw [hc1eq, List.getD_append_right _ _ _ _ (by rw [htakelen]; omega), htakelen,
        getD_drop]
      congr 1
      omega
    have hdrop_le : ∀ p, p ≤ cut → (0 :: c1).drop (p + 1) =
        ((0 :: c).drop (p + 1)).take (cut - p) ++ (0 :: c).drop (cut + 2) := by
      intro p hp
      rw [hc1eq, List.drop_append_of_le_length (by rw [htakelen]; omega)]
      congr 1
      rw [List.drop_take]
      congr 1
      omega
    have hdrop_ge : ∀ p, cut + 1 ≤ p → (0 :: c1).drop (p + 1) = (0 :: c).drop (p + 2) := by
      intro p hp
      have h2 : p + 1 = ((0 :: c).take (cut + 1)).length + (p - cut) := by
        rw [htakelen]
        omega
      rw [hc1eq, h2, List.drop_append, List.drop_drop]
      congr 1
      omega
    have hXdecomp : (0 :: c).drop (cut + 1) = xi :: (0 :: c).drop (cut + 2) := by
      rw [show (0 :: c).drop (cut + 1) =
          (0 :: c).getD (cut + 1) 0 :: (0 :: c).drop (cut + 2) from by
        rw [getD_eq_get _ 0 (by simp; omega)]
        exact List.drop_eq_get_cons (by simp; omega)]
      rw [hxipos]
    have hseglen : ∀ q, q ≤ cut →
        (((0 :: c).drop (q + 1)).take (cut - q)).length = cut - q := by
      intro q hq
      simp
      omega
    have hsegsplit : ∀ q, q ≤ cut → (0 :: c).drop (q + 1) =
        ((0 :: c).drop (q + 1)).take (cut - q) ++ (0 :: c).drop (cut + 1) := by
      intro q hq
      conv_lhs => rw [← List.take_append_drop (cut - q) ((0 :: c).drop (q + 1))]
      congr 1
      rw [List.drop_drop]
      congr 1
      omega
    have hseg_short : ∀ ℓ q, (∀ j, q < j → j ≤ cut → ¬ tall s0 ℓ ((0 :: c).getD j 0)) →
        ∀ i ∈ ((0 :: c).drop (q + 1)).take (cut - q), ¬ tall s0 ℓ i := by
      intro ℓ q hmax i hi
      obtain ⟨idx, hidx, heq⟩ := List.mem_iff_getElem.mp hi
      have hlen2 : idx < cut - q := by
        simp at hidx
        omega
      have hieq : i = (0 :: c).getD (q + 1 + idx) 0 := by
        rw [← heq, ← List.getD_eq_getElem _ 0 hidx]
        rw [show ((((0 :: c).drop (q + 1)).take (cut - q))).getD idx 0 =
            ((0 :: c).drop (q + 1)).getD idx 0 from by
          simp [List.getD_eq_getElem?_getD, List.getElem?_take, hlen2]]
        rw [getD_drop]
      rw [hieq]
      exact hmax (q + 1 + idx) (by omega) (by omega)
    have hmem_lt : ∀ i ∈ (0 :: c), i < s0.nodes.length := by
      intro i hi
      rcases List.mem_cons.mp hi with rfl | hic
      · exact h.headIn
      · exact (h.bounds i hic).1
    have hold_short_high : ∀ ℓ, s0.level ≤ ℓ → ℓ < MaxLevel → ∀ i ∈ c, ¬ tall s0 ℓ i := by
      intro ℓ hge hlt i hic hti
      obtain ⟨idx, hidx⟩ := List.mem_iff_get.mp hic
      have hposi : (0 :: c).getD (idx.1 + 1) 0 = i := by
        simp only [List.getD_cons_succ]
        rw [getD_eq_get c 0 idx.2]
        exact hidx
      have ht1 : tall s0 ℓ ((0 :: c).getD (idx.1 + 1) 0) := by
        rw [hposi]
        exact hti
      have := inv_tall_lt_level h hlt (by omega) (by simp) ht1
      omega
    have hXnodup : xi ∉ (0 :: c).drop (cut + 2) := by
      have hnd : ((0 :: c).drop (cut + 1)).Nodup :=
        (inv_hc_nodup h).sublist (List.drop_sublist _ _)
      rw [hXdecomp] at hnd
      exact (List.nodup_cons.mp hnd).1
    -- span structure of the unlinked state along the reduced chain
    have hspans1 : ∀ ℓ < MaxLevel, ∀ p < (0 :: c1).length, tall s1 ℓ ((0 :: c1).getD p 0) →
        match firstTall s1 ℓ ((0 :: c1).drop (p + 1)) with
        | none => (slotOf (getNode s1 ((0 :: c1).getD p 0)) ℓ).forward = none
        | some r => (slotOf (getNode s1 ((0 :: c1).getD p 0)) ℓ).forward = some r.2 ∧
            (slotOf (getNode s1 ((0 :: c1).getD p 0)) ℓ).span = r.1 + 1 := by
      intro ℓ hℓ p hp ht
      have hp2 : p < c.length := by
        simp only [List.length_cons, hc1len] at hp
        omega
      rcases Nat.lt_or_ge p (cut + 1) with hple | hpge1
      · -- positions before the victim
        have hple' : p ≤ cut := by omega
        rw [hpos_le p hple'] at ht ⊢
        have hpold : p < (0 :: c).length := by simp; omega
        have htall0 : tall s0 ℓ ((0 :: c).getD p 0) := (htall1 ℓ _).mp ht
        have hseg_old : ∀ i ∈ ((0 :: c).drop (p + 1)).take (cut - p), i < s0.nodes.length :=
          fun i hi => hmem_lt i (List.drop_subset _ _ (List.take_subset _ _ hi))
        cases hseg : firstTall s0 ℓ (((0 :: c).drop (p + 1)).take (cut - p)) with
        | some r =>
          obtain ⟨k, f⟩ := r
          obtain ⟨hklen, hkget, hktall, hkbefore⟩ := firstTall_some_spec s0 ℓ _ k f hseg
          have hklt : k < cut - p := by
            simp at hklen
            omega
          have hfull : firstTall s0 ℓ ((0 :: c).drop (p + 1)) = some (k, f) := by
            apply firstTall_eq_some_of s0 ℓ _ k f
            · simp
              omega
            · rw [← hkget]
              simp [List.getD_eq_getElem?_getD, List.getElem?_take, hklt]
            · exact hktall
            · intro j hj
              have h2 := hkbefore j hj
              rw [show (((0 :: c).drop (p + 1)).take (cut - p)).getD j 0 =
                  ((0 :: c).drop (p + 1)).getD j 0 from by
                simp [List.getD_eq_getElem?_getD, List.getElem?_take,
                  (show j < cut - p by omega)]] at h2
              exact h2
          have hF : firstTall s1 ℓ ((0 :: c1).drop (p + 1)) = some (k, f) := by
            rw [hdrop_le p hple', firstTall_append, hfirst1 ℓ _, hseg]
          have hsp := h.spansOk ℓ hℓ p hpold htall0
          rw [hfull] at hsp
          simp only [slotAt] at hsp
          obtain ⟨hfw, hspn⟩ := hsp
          have hfpos : (0 :: c).getD (p + 1 + k) 0 = f := by
            rw [← hkget]
            rw [show (((0 :: c).drop (p + 1)).take (cut - p)).getD k 0 =
                ((0 :: c).drop (p + 1)).getD k 0 from by
              simp [List.getD_eq_getElem?_getD, List.getElem?_take, hklt]]
            rw [getD_drop]
          have hℓlt : ℓ < s0.level :=
            @inv_tall_lt_level δ _ s0 c h ℓ (p + 1 + k) hℓ (by omega)
              (by simp; omega) (by rw [hfpos]; exact hktall)
          obtain ⟨q, hq1, hq2, hq3, hq4⟩ := hspec ℓ hℓlt
          have hpq : p ≠ q := by
            rintro rfl
            exact hq4 (p + 1 + k) (by omega) (by omega) (by rw [hfpos]; exact hktall)
          have hunt : slotOf (getNode s1 ((0 :: c).getD p 0)) ℓ =
              slotOf (getNode s0 ((0 :: c).getD p 0)) ℓ := by
            apply hslot1_untouched
            intro hlt2
            rw [hq1]
            intro he
            exact hpq (inv_pos_inj h hpold (by simp; omega) he)
          rw [hF, hunt]
          exact ⟨hfw, hspn⟩
        | none =>
          have hshort : ∀ j, p < j → j ≤ cut → ¬ tall s0 ℓ ((0 :: c).getD j 0) := by
            intro j hj1 hj2 htj
            have hidx : j - p - 1 < (((0 :: c).drop (p + 1)).take (cut - p)).length := by
              simp
              omega
            have hgd : (((0 :: c).drop (p + 1)).take (cut - p)).getD (j - p - 1) 0 =
                (0 :: c).getD j 0 := by
              rw [show (((0 :: c).drop (p + 1)).take (cut - p)).getD (j - p - 1) 0 =
                  ((0 :: c).drop (p + 1)).getD (j - p - 1) 0 from by
                simp [List.getD_eq_getElem?_getD, List.getElem?_take,
                  (show j - p - 1 < cut - p by omega)]]
              rw [getD_drop]
              congr 1
              omega
            have hmem2 : (0 :: c).getD j 0 ∈ ((0 :: c).drop (p + 1)).take (cut - p) := by
              rw [← hgd]
              exact getD_mem_of_lt _ 0 hidx
            exact (firstTall_none_iff s0 ℓ _).mp hseg _ hmem2 htj
          rcases Nat.lt_or_ge ℓ s0.level with hℓlt | hℓge
          · obtain ⟨q, hq1, hq2, hq3, hq4⟩ := hspec ℓ hℓlt
            have hqp : q = p := by
              rcases Nat.lt_trichotomy q p with hlt2 | heq2 | hgt2
              · exact absurd htall0 (hq4 p hlt2 hple')
              · exact heq2
              · exact absurd hq3 (hshort q hgt2 hq2)
            rw [hqp] at hq1 hq2 hq3 hq4
            have hsl := hslot1_upd ℓ hℓlt p hq1 (by simp; omega) hq3
            have hsp := h.spansOk ℓ hℓ p (by simp; omega) hq3
            rw [hsegsplit p hple', firstTall_append, hseg, hXdecomp] at hsp
            simp only [slotAt] at hsp
            by_cases hvt : tall s0 ℓ xi
            · -- the victim participates at this level: it is the immediate successor
              have hxifirst : firstTall s0 ℓ (xi :: (0 :: c).drop (cut + 2)) =
                  some (0, xi) := by
                simp [firstTall, hvt]
              rw [hxifirst] at hsp
              obtain ⟨hfw, hspn⟩ := hsp
              have hspn2 : (slotOf (getNode s0 ((0 :: c).getD p 0)) ℓ).span =
                  0 + (((0 :: c).drop (p + 1)).take (cut - p)).length + 1 := hspn
              rw [hseglen p hple'] at hspn2
              have hfw2 : (slotOf (getNode s0 ((0 :: c).getD p 0)) ℓ).forward = some xi := hfw
              rw [hfw2] at hsl
              rw [if_pos rfl] at hsl
              -- victim slot from its own span invariant at position cut + 1
              have hvsp := h.spansOk ℓ hℓ (cut + 1) (by simp; omega)
                (by rw [hxipos]; exact hvt)
              have hvdrop : (0 :: c).drop (cut + 1 + 1) = (0 :: c).drop (cut + 2) := rfl
              rw [hvdrop] at hvsp
              simp only [slotAt, hxipos] at hvsp
              cases hD : firstTall s0 ℓ ((0 :: c).drop (cut + 2)) with
              | none =>
                rw [hD] at hvsp
                have hF : firstTall s1 ℓ ((0 :: c1).drop (p + 1)) = none := by
                  rw [hdrop_le p hple', firstTall_append, hfirst1 ℓ _, hseg,
                    hfirst1 ℓ _, hD]
                  rfl
                rw [hF, hsl]
                show (slotOf (getNode s0 xi) ℓ).forward = none
                exact hvsp
              | some r =>
                obtain ⟨kB, fB⟩ := r
                rw [hD] at hvsp
                obtain ⟨hvf, hvs⟩ := hvsp
                have hF : firstTall s1 ℓ ((0 :: c1).drop (p + 1)) =
                    some (kB + (cut - p), fB) := by
                  rw [hdrop_le p hple', firstTall_append, hfirst1 ℓ _, hseg,
                    hfirst1 ℓ _, hD]
                  show some (kB + (((0 :: c).drop (p + 1)).take (cut - p)).length, fB) =
                    some (kB + (cut - p), fB)
                  rw [hseglen p hple']
                rw [hF, hsl]
                constructor
                · show (slotOf (getNode s0 xi) ℓ).forward = some fB
                  exact hvf
                · show usub ((slotOf (getNode s0 ((0 :: c).getD p 0)) ℓ).span +
                      (slotOf (getNode s0 xi) ℓ).span) 1 = kB + (cut - p) + 1
                  have hvs2 : (slotOf (getNode s0 xi) ℓ).span = kB + 1 := hvs
                  rw [hspn2, hvs2]
                  unfold usub
                  rw [if_pos (by omega)]
                  omega
            · -- the victim does not participate at this level
              have hxifirst : firstTall s0 ℓ (xi :: (0 :: c).drop (cut + 2)) =
                  (firstTall s0 ℓ ((0 :: c).drop (cut + 2))).map
                    (fun r => (r.1 + 1, r.2)) := by
                simp [firstTall, hvt]
              rw [hxifirst] at hsp
              cases hD : firstTall s0 ℓ ((0 :: c).drop (cut + 2)) with
              | none =>
                rw [hD] at hsp
                have hfw : (slotOf (getNode s0 ((0 :: c).getD p 0)) ℓ).forward = none :=
                  hsp
                rw [hfw] at hsl
                rw [if_neg (by simp)] at hsl
                have hF : firstTall s1 ℓ ((0 :: c1).drop (p + 1)) = none := by
                  rw [hdrop_le p hple', firstTall_append, hfirst1 ℓ _, hseg,
                    hfirst1 ℓ _, hD]
                  rfl
                rw [hF, hsl]
              | some r =>
                obtain ⟨kB, fB⟩ := r
                rw [hD] at hsp
                obtain ⟨hfw, hspn⟩ := hsp
                have hfBmem : fB ∈ (0 :: c).drop (cut + 2) := by
                  obtain ⟨hkl, hkg, _, _⟩ :=
                    firstTall_some_spec s0 ℓ _ kB fB hD
                  rw [← hkg]
                  exact getD_mem_of_lt _ 0 hkl
                have hfBne : fB ≠ xi := by
                  intro he
                  rw [he] at hfBmem
                  exact hXnodup hfBmem
                have hfw2 : (slotOf (getNode s0 ((0 :: c).getD p 0)) ℓ).forward =
                    some fB := hfw
                rw [hfw2] at hsl
                rw [if_neg (by simp [hfBne])] at hsl
                have hspn2 : (slotOf (getNode s0 ((0 :: c).getD p 0)) ℓ).span =
                    kB + 1 + (((0 :: c).drop (p + 1)).take (cut - p)).length + 1 := hspn
                rw [hseglen p hple'] at hspn2
                have hF : firstTall s1 ℓ ((0 :: c1).drop (p + 1)) =
                    some (kB + (cut - p), fB) := by
                  rw [hdrop_le p hple', firstTall_append, hfirst1 ℓ _, hseg,
                    hfirst1 ℓ _, hD]
                  show some (kB + (((0 :: c).drop (p + 1)).take (cut - p)).length, fB) =
                    some (kB + (cut - p), fB)
                  rw [hseglen p hple']
                rw [hF, hsl]
                constructor
                · rfl
                · show usub (slotOf (getNode s0 ((0 :: c).getD p 0)) ℓ).span 1 =
                    kB + (cut - p) + 1
                  rw [hspn2]
                  unfold usub
                  rw [if_pos (by omega)]
                  omega
          · -- levels at or above the current level: only the head is tall
            have hp0 : p = 0 := by
              by_contra hne
              have := inv_tall_lt_level h hℓ (by omega) hpold htall0
              omega
            subst hp0
            have hunt : slotOf (getNode s1 ((0 :: c).getD 0 0)) ℓ =
                slotOf (getNode s0 ((0 :: c).getD 0 0)) ℓ :=
              hslot1_untouched ℓ _ (fun hlt2 => absurd hlt2 (by omega))
            have hF : firstTall s1 ℓ ((0 :: c1).drop (0 + 1)) = none := by
              apply firstTall_all_short
              intro i hi
              have hi' : i ∈ c1 := by simpa using hi
              have hic : i ∈ c := (List.eraseIdx_sublist c cut).subset (by rw [← hc1]; exact hi')
              rw [htall1]
              exact hold_short_high ℓ hℓge hℓ i hic
            rw [hF, hunt]
            exact h.headUpper ℓ (by omega) hℓ
      · -- positions after the victim: everything shifts down by one
        rw [hpos_ge p hpge1] at ht ⊢
        have hpold : p + 1 < (0 :: c).length := by simp; omega
        have htall0 : tall s0 ℓ ((0 :: c).getD (p + 1) 0) := (htall1 ℓ _).mp ht
        have hℓlt : ℓ < s0.level :=
          @inv_tall_lt_level δ _ s0 c h ℓ (p + 1) hℓ (by omega) hpold htall0
        obtain ⟨q, hq1, hq2, hq3, hq4⟩ := hspec ℓ hℓlt
        have hpq : (0 :: c).getD (p + 1) 0 ≠ (0 :: c).getD q 0 := by
          intro he
          have := inv_pos_inj h hpold (by simp; omega) he
          omega
        have hunt := hslot1_untouched ℓ _ (fun _ => by rw [hq1]; exact hpq)
        have hF : firstTall s1 ℓ ((0 :: c1).drop (p + 1)) =
            firstTall s0 ℓ ((0 :: c).drop (p + 2)) := by
          rw [hdrop_ge p (by omega), hfirst1 ℓ _]
        have hsp := h.spansOk ℓ hℓ (p + 1) hpold htall0
        simp only [slotAt] at hsp
        have hdp : (0 :: c).drop ((p + 1) + 1) = (0 :: c).drop (p + 2) := rfl
        rw [hdp] at hsp
        rw [hF, hunt]
        exact hsp
    -- level-0 spans on nil pointers after the unlink
    have hnil1 : ∀ p < (0 :: c1).length,
        (slotOf (getNode s1 ((0 :: c1).getD p 0)) 0).forward = none →
        (slotOf (getNode s1 ((0 :: c1).getD p 0)) 0).span = 0 := by
      intro p hp hfwd
      have hp2 : p < c.length := by
        simp only [List.length_cons, hc1len] at hp
        omega
      rcases Nat.lt_or_ge p (cut + 1) with hple | hpge1
      · have hple' : p ≤ cut := by omega
        rw [hpos_le p hple'] at hfwd ⊢
        rcases Nat.lt_or_ge p cut with hlt | hge
        · exfalso
          have hunt : slotOf (getNode s1 ((0 :: c).getD p 0)) 0 =
              slotOf (getNode s0 ((0 :: c).getD p 0)) 0 := by
            apply hslot1_untouched
            intro _
            rw [hzero]
            intro he
            have := inv_pos_inj h (by simp; omega) (by simp; omega) he
            omega
          rw [hunt, inv_forward0 h p (by omega)] at hfwd
          cases hfwd
        · have hpcut : p = cut := by omega
          rw [hpcut] at hfwd ⊢
          have hvt : tall s0 0 xi := by
            rw [← hxipos]
            exact inv_tall0 h (cut + 1) (by simp; omega)
          have hsl := hslot1_upd 0 h.levelOk.1 cut hzero (by simp; omega)
            (inv_tall0 h cut (by simp; omega))
          have hfw0 : (slotOf (getNode s0 ((0 :: c).getD cut 0)) 0).forward = some xi := by
            rw [inv_forward0 h cut (by omega)]
            rw [hxipos]
          rw [hfw0, if_pos rfl] at hsl
          rw [hsl] at hfwd ⊢
          have hxfwd : (slotOf (getNode s0 xi) 0).forward = none := hfwd
          -- the victim was last, so both spans are known
          have hxspan : (slotOf (getNode s0 xi) 0).span = 0 := by
            have := h.nilSpan0 (cut + 1) (by simp; omega)
            simp only [slotAt, hxipos] at this
            exact this hxfwd
          have hspan1 : (slotOf (getNode s0 ((0 :: c).getD cut 0)) 0).span = 1 := by
            have hsp := h.spansOk 0 (by simp [MaxLevel]) cut (by simp; omega)
              (inv_tall0 h cut (by simp; omega))
            rw [hsegsplit cut (by omega), firstTall_append,
              firstTall_all_short s0 0 _ (by
                intro i hi
                exfalso
                have hlen0 : (((0 :: c).drop (cut + 1)).take (cut - cut)).length = 0 := by
                  simp
                rw [List.length_eq_zero] at hlen0
                rw [hlen0] at hi
                cases hi), hXdecomp] at hsp
            rw [show firstTall s0 0 (xi :: (0 :: c).drop (cut + 2)) = some (0, xi) from by
              simp [firstTall, hvt]] at hsp
            simp only [slotAt] at hsp
            have hs2 : (slotOf (getNode s0 ((0 :: c).getD cut 0)) 0).span =
                0 + ((xi :: (0 :: c).drop (cut + 2)).take (cut - cut)).length + 1 := hsp.2
            rw [hs2, Nat.sub_self]
            simp
          show usub ((slotOf (getNode s0 ((0 :: c).getD cut 0)) 0).span +
              (slotOf (getNode s0 xi) 0).span) 1 = 0
          rw [hxspan, hspan1]
          unfold usub
          rw [if_pos (by omega)]
      · rw [hpos_ge p hpge1] at hfwd ⊢
        have hpold : p + 1 < (0 :: c).length := by simp; omega
        have hunt : slotOf (getNode s1 ((0 :: c).getD (p + 1) 0)) 0 =
            slotOf (getNode s0 ((0 :: c).getD (p + 1) 0)) 0 := by
          apply hslot1_untouched
          intro _
          rw [hzero]
          intro he
          have := inv_pos_inj h hpold (by simp; omega) he
          omega
        rw [hunt] at hfwd ⊢
        exact h.nilSpan0 (p + 1) hpold hfwd
    -- ordering, bounds, maps for the reduced chain
    have hord1 : List.Pairwise Prec (c1.map (fun i => (getNode s1 i).element)) := by
      have he : c1.map (fun i => (getNode s1 i).element) =
          c1.map (fun i => (getNode s0 i).element) :=
        List.map_congr_left (fun i _ => hel1 i)
      rw [he, hc1, map_eraseIdx]
      exact h.ordering.sublist (List.eraseIdx_sublist _ cut)
    have hc1mem : ∀ i ∈ c1, i ∈ c := fun i hi => (List.eraseIdx_sublist c cut).subset hi
    have hxinot : xi ∉ c1 := by
      rw [hc1, hxi]
      exact not_mem_eraseIdx_self c 0 cut hcutlt h.nodup
    have hmember_xi : (getNode s0 xi).element.member = m := hm
    -- the victim's own slot at level 0 decides whether it was last
    have hvictimlast : (slotOf (getNode s1 xi) 0).forward = none ↔ cut + 1 = c.length := by
      have hunt : slotOf (getNode s1 xi) 0 = slotOf (getNode s0 xi) 0 := by
        apply hslot1_untouched
        intro _
        rw [hzero]
        show xi ≠ (0 :: c).getD cut 0
        rw [← hxipos]
        intro he
        have := inv_pos_inj h (by simp; omega) (by simp; omega) he
        omega
      rw [hunt]
      constructor
      · intro hnone
        by_contra hne
        have hlt2 : cut + 1 < c.length := by omega
        have := inv_forward0 h (cut + 1) hlt2
        rw [hxipos] at this
        rw [this] at hnone
        cases hnone
      · intro he
        have := inv_forward0_last h
        rw [show c.length = cut + 1 from he.symm] at this
        rw [hxipos] at this
        exact this
    -- the reduced chain's last entry
    have hlast_eq : cut + 1 = c.length → 1 ≤ cut →
        c1.getLast? = some ((0 :: c).getD cut 0) := by
      intro he hge1
      rw [List.getLast?_eq_getElem?]
      rw [List.getElem?_eq_getElem (by omega : c1.length - 1 < c1.length)]
      have hidx : c1.length - 1 = cut - 1 := by omega
      have hgd : c1.getD (cut - 1) 0 = (0 :: c).getD cut 0 := by
        have h2 := hpos_le cut (le_refl cut)
        rw [show (0 :: c1).getD cut 0 = c1.getD (cut - 1) 0 from by
          rw [show cut = (cut - 1) + 1 from by omega]
          simp] at h2
        exact h2
      rw [← hgd, ← List.getD_eq_getElem c1 0 (by omega)]
      rw [hidx]
    have hlast_lt : cut + 1 < c.length → c1.getLast? = c.getLast? := by
      intro hlt
      have hdropne : c.drop (cut + 1) ≠ [] := by
        intro hnil
        have := List.drop_eq_nil_iff.mp hnil
        omega
      have h2 : c1.getLast? = (c.drop (cut + 1)).getLast? := by
        rw [hc1, List.eraseIdx_eq_take_drop_succ]
        exact List.getLast?_append_of_ne_nil _ hdropne
      have h3 : c.getLast? = (c.drop (cut + 1)).getLast? := by
        conv_lhs => rw [← List.take_append_drop (cut + 1) c]
        exact List.getLast?_append_of_ne_nil _ hdropne
      rw [h2, h3]
    -- assembling the invariant for any admissible tail and level
    have hbuild : ∀ (tl : Option Nat) (lv : Nat),
        1 ≤ lv → lv ≤ MaxLevel →
        (∀ ℓ, lv ≤ ℓ → ℓ < MaxLevel → (slotOf (getNode s1 0) ℓ).forward = none) →
        (match c1.getLast? with
         | none => tl = none ∨ tl = some 0
         | some t => tl = some t) →
        Inv { s1 with
            tail := tl
            level := lv
            elementMap := eraseKey m s1.elementMap
            length := s1.length - 1 } c1 := by
      intro tl lv hlv1 hlv2 hhead htlc
      refine ⟨?_, ?_, ?_, ?_, ?_, ⟨hlv1, hlv2⟩, ?_, ?_, hhead, hord1, ?_, ?_, ?_, ?_, htlc⟩
      · show 0 < s1.nodes.length
        rw [h1nodes]
        exact h.headIn
      · show heightOf (getNode s1 0) = MaxLevel
        rw [hht1 0]
        exact h.headHeight
      · intro i hic1
        obtain ⟨hb1, hb2⟩ := h.bounds i (hc1mem i hic1)
        refine ⟨?_, hb2⟩
        show i < s1.nodes.length
        rw [h1nodes]
        exact hb1
      · exact h.nodup.sublist (List.eraseIdx_sublist _ cut)
      · intro i hic1
        show 1 ≤ heightOf (getNode s1 i) ∧ heightOf (getNode s1 i) ≤ MaxLevel
        rw [hht1 i]
        exact h.heights i (hc1mem i hic1)
      · intro ℓ hℓ p hp ht
        rw [firstTall_congr s1 { s1 with
            tail := tl
            level := lv
            elementMap := eraseKey m s1.elementMap
            length := s1.length - 1 } ℓ ((0 :: c1).drop (p + 1)) (fun i _ => rfl)]
        exact hspans1 ℓ hℓ p hp ht
      · intro p hp hf
        exact hnil1 p hp hf
      · intro kv hkv
        have hkv2 : kv ∈ eraseKey m s1.elementMap := hkv
        rw [h1map] at hkv2
        obtain ⟨hkmem, hkne⟩ := mem_of_mem_eraseKey m _ kv hkv2
        obtain ⟨hs0mem, hs0name⟩ := h.mapSound kv hkmem
        have hkvne : kv.2 ≠ c.getD cut 0 := by
          intro he
          apply hkne
          rw [← hs0name, he]
          exact hm
        refine ⟨mem_eraseIdx_of_mem_ne c 0 cut hcutlt hs0mem hkvne, ?_⟩
        show (getNode s1 kv.2).element.member = kv.1
        rw [hel1 kv.2]
        exact hs0name
      · intro i hic1
        have hic : i ∈ c := hc1mem i hic1
        have hne : (getNode s0 i).element.member ≠ m := by
          intro he
          have : i = xi := inv_member_inj h hic hximem (by rw [he, hmember_xi])
          rw [this] at hic1
          exact hxinot hic1
        show ((getNode s1 i).element.member, i) ∈ eraseKey m s1.elementMap
        rw [h1map, hel1 i]
        exact mem_eraseKey_of_ne m _ _ (h.mapComplete i hic) hne
      · show ((eraseKey m s1.elementMap).map Prod.fst).Nodup
        rw [h1map]
        exact h.mapKeysNodup.sublist (eraseKey_keys_sublist m _)
      · show s1.length - 1 = c1.length
        rw [h1length, h.lengthOk, hc1len]
    -- resolve the tail update and finish
    by_cases htl2 : (slotOf (getNode s1 xi) 0).forward = none
    · rw [if_pos htl2] at e2
      have hcut1n : cut + 1 = c.length := hvictimlast.mp htl2
      have hfin : SkipList.Delete s0 m sc =
          ({ s1 with
              tail := some ((ups.getD 0 (0, 0)).1)
              level := shrink { s1 with tail := some ((ups.getD 0 (0, 0)).1) } s1.level
              elementMap := eraseKey m s1.elementMap
              length := s1.length - 1 }, true) := e2
      rw [hfin]
      refine ⟨rfl, ?_, ?_, ?_, ?_, ?_, ?_⟩
      · refine hbuild (some ((ups.getD 0 (0, 0)).1))
          (shrink { s1 with tail := some ((ups.getD 0 (0, 0)).1) } s1.level)
          (shrink_pos _ _ (by rw [h1level]; exact h.levelOk.1))
          (le_trans (shrink_le _ _) (by rw [h1level]; exact h.levelOk.2)) ?_ ?_
        · intro ℓ hge hlt
          rcases Nat.lt_or_ge ℓ s1.level with h2 | h2
          · exact shrink_above { s1 with tail := some ((ups.getD 0 (0, 0)).1) }
              s1.level ℓ hge h2
          · have hunt : slotOf (getNode s1 0) ℓ = slotOf (getNode s0 0) ℓ := by
              apply hslot1_untouched
              intro hlt2
              rw [h1level] at h2
              omega
            rw [hunt]
            exact h.headUpper ℓ (by rw [h1level] at h2; exact h2) hlt
        · rcases Nat.lt_or_ge cut 1 with hc0 | hc1'
          · have hcut0 : cut = 0 := by omega
            have hnil : c1 = [] := by
              rw [← List.length_eq_zero, hc1len]
              omega
            rw [hnil]
            right
            rw [hu0, hcut0]
            rfl
          · rw [hlast_eq hcut1n hc1', hu0]
      · intro j
        show (getNode s1 j).element = (getNode s0 j).element
        exact hel1 j
      · show s1.nodes.length = s0.nodes.length
        exact h1nodes
      · show s1.length - 1 = s0.length - 1
        rw [h1length]
      · show eraseKey m s1.elementMap = eraseKey m s0.elementMap
        rw [h1map]
      · show some ((ups.getD 0 (0, 0)).1) =
          (if cut + 1 = c.length then some ((0 :: c).getD cut 0) else s0.tail)
        rw [if_pos hcut1n, hu0]
    · rw [if_neg htl2] at e2
      have hcut1n : cut + 1 ≠ c.length := fun he => htl2 (hvictimlast.mpr he)
      have hcut1lt : cut + 1 < c.length := by omega
      have hfin : SkipList.Delete s0 m sc =
          ({ s1 with
              tail := s1.tail
              level := shrink s1 s1.level
              elementMap := eraseKey m s1.elementMap
              length := s1.length - 1 }, true) := e2
      rw [hfin]
      refine ⟨rfl, ?_, ?_, ?_, ?_, ?_, ?_⟩
      · refine hbuild s1.tail (shrink s1 s1.level)
          (shrink_pos _ _ (by rw [h1level]; exact h.levelOk.1))
          (le_trans (shrink_le _ _) (by rw [h1level]; exact h.levelOk.2)) ?_ ?_
        · intro ℓ hge hlt
          rcases Nat.lt_or_ge ℓ s1.level with h2 | h2
          · exact shrink_above s1 s1.level ℓ hge h2
          · have hunt : slotOf (getNode s1 0) ℓ = slotOf (getNode s0 0) ℓ := by
              apply hslot1_untouched
              intro hlt2
              rw [h1level] at h2
              omega
            rw [hunt]
            exact h.headUpper ℓ (by rw [h1level] at h2; exact h2) hlt
        · rw [hlast_lt hcut1lt]
          simp only [h1tail]
          exact h.tailOk
      · intro j
        show (getNode s1 j).element = (getNode s0 j).element
        exact hel1 j
      · show s1.nodes.length = s0.nodes.length
        exact h1nodes
      · show s1.length - 1 = s0.length - 1
        rw [h1length]
      · show eraseKey m s1.elementMap = eraseKey m s0.elementMap
        rw [h1map]
      · show s1.tail = (if cut + 1 = c.length then some ((0 :: c).getD cut 0) else s0.tail)
        rw [if_neg hcut1n, h1tail]

/-! ### The `Insert` wrapper and reachability -/

theorem lookupMap_cons_self (m : String) (i : Nat) (l : List (String × Nat)) :
    lookupMap ((m, i) :: l) m = some i := by
  simp [lookupMap]

/-- The search cut counts the chain entries that precede the key. -/
theorem cutOf_countP (s : SkipList δ) (c : List Nat) (sc : Int) (m : String) :
    cutOf s c sc m = (chainElems s c).countP (fun e => precB e sc m) := by
  simp only [cutOf, chainElems, List.countP_map]
  rfl

theorem chainElems_congr {s1 s2 : SkipList δ} (c : List Nat)
    (h : ∀ i ∈ c, (getNode s2 i).element = (getNode s1 i).element) :
    chainElems s2 c = chainElems s1 c :=
  List.map_congr_left h

theorem getD_map_of_lt {β γ : Type} (f : β → γ) (l : List β) (dβ : β) (dγ : γ)
    {n : Nat} (h : n < l.length) : (l.map f).getD n dγ = f (l.getD n dβ) := by
  rw [List.getD_eq_getElem _ dγ (by simpa using h), List.getD_eq_getElem _ dβ h]
  simp

/-- `insertCore` on a chain free of the new member: the resulting entries
are a permutation of the new element consed onto the old entries. -/
theorem insertCore_chain_perm {s1 : SkipList δ} {ce : List Nat} (h1 : Inv s1 ce)
    (m : String) (sc : Int) (d : δ) (lvl : Nat) (hl1 : 1 ≤ lvl) (hl2 : lvl ≤ MaxLevel)
    (hab : ∀ i ∈ ce, (getNode s1 i).element.member ≠ m) :
    ∃ c2, Inv (insertCore s1 m sc d lvl).1 c2 ∧
      List.Perm (chainElems (insertCore s1 m sc d lvl).1 c2)
        ((⟨m, sc, d⟩ : Element δ) :: chainElems s1 ce) ∧
      SkipList.GetElementByMember (insertCore s1 m sc d lvl).1 m = some ⟨m, sc, d⟩ ∧
      (insertCore s1 m sc d lvl).1.length = s1.length + 1 := by
  obtain ⟨hInv, hold, hnew, hmap, hlen, -⟩ := insertCore_spec h1 m sc d lvl hl1 hl2 hab
  refine ⟨ce.take (cutOf s1 ce sc m) ++ s1.nodes.length :: ce.drop (cutOf s1 ce sc m),
    hInv, ?_, ?_, hlen⟩
  · have hmc : ce.map (fun i => (getNode (insertCore s1 m sc d lvl).1 i).element) =
        ce.map (fun i => (getNode s1 i).element) :=
      List.map_congr_left (fun i hi => hold i (h1.bounds i hi).1)
    have hce2 : chainElems (insertCore s1 m sc d lvl).1
        (ce.take (cutOf s1 ce sc m) ++ s1.nodes.length :: ce.drop (cutOf s1 ce sc m)) =
        (chainElems s1 ce).take (cutOf s1 ce sc m) ++
          (⟨m, sc, d⟩ : Element δ) :: (chainElems s1 ce).drop (cutOf s1 ce sc m) := by
      simp only [chainElems, List.map_append, List.map_cons, List.map_take, List.map_drop]
      rw [hmc, hnew]
    rw [hce2]
    exact take_cons_drop_perm _ _ _
  · simp only [SkipList.GetElementByMember]
    rw [hmap, lookupMap_cons_self]
    show some ((getNode (insertCore s1 m sc d lvl).1 s1.nodes.length).element) =
      some (⟨m, sc, d⟩ : Element δ)
    rw [hnew]

/-- `Insert(member, score, data)` on a well-formed state: the result is
well formed, and its entries are — up to order — the new element together
with every old entry of a different member (the old entry of the same
member, when present, is deleted first). -/
theorem insert_spec {s0 : SkipList δ} {c : List Nat} (h : Inv s0 c) (m : String)
    (sc : Int) (d : δ) (lvl : Nat) (hl1 : 1 ≤ lvl) (hl2 : lvl ≤ MaxLevel) :
    ∃ c2, Inv (SkipList.Insert s0 m sc d lvl).1 c2 ∧
      List.Perm (chainElems (SkipList.Insert s0 m sc d lvl).1 c2)
        ((⟨m, sc, d⟩ : Element δ) ::
          (chainElems s0 c).filter (fun e => decide (e.member ≠ m))) ∧
      SkipList.GetElementByMember (SkipList.Insert s0 m sc d lvl).1 m =
        some ⟨m, sc, d⟩ ∧
      (SkipList.Insert s0 m sc d lvl).1.length =
        ((chainElems s0 c).filter (fun e => decide (e.member ≠ m))).length + 1 := by
  rcases hlk : lookupMap s0.elementMap m with _ | oldIdx
  · -- the member is absent: a plain `insertCore`
    have hab : ∀ i ∈ c, (getNode s0 i).element.member ≠ m := by
      intro i hi he
      have h2 := inv_lookup_of_mem h hi
      rw [he, hlk] at h2
      cases h2
    have hins : SkipList.Insert s0 m sc d lvl = insertCore s0 m sc d lvl := by
      simp only [SkipList.Insert]
      rw [hlk]
    have hfil : (chainElems s0 c).filter (fun e => decide (e.member ≠ m)) =
        chainElems s0 c := by
      rw [List.filter_eq_self]
      intro e hee
      obtain ⟨i, hi, rfl⟩ := List.mem_map.mp hee
      exact decide_eq_true (hab i hi)
    obtain ⟨c2, hInv, hperm, hget, hlen⟩ := insertCore_chain_perm h m sc d lvl hl1 hl2 hab
    rw [hins, hfil]
    refine ⟨c2, hInv, hperm, hget, ?_⟩
    rw [hlen, h.lengthOk]
    simp [chainElems]
  · -- the member is present: delete its node first
    have hmi : (m, oldIdx) ∈ s0.elementMap := lookupMap_mem hlk
    obtain ⟨hoc, hom⟩ := h.mapSound (m, oldIdx) hmi
    obtain ⟨jc, hjc, hjeq0⟩ := List.mem_iff_getElem.mp hoc
    have hjeq : c.getD jc 0 = oldIdx := by
      rw [List.getD_eq_getElem c 0 hjc]
      exact hjeq0
    have hcut : cutOf s0 c ((getNode s0 oldIdx).element.score) m = jc := by
      have h2 := cutOf_self h jc hjc
      rw [hjeq, hom] at h2
      exact h2
    have hins : SkipList.Insert s0 m sc d lvl =
        insertCore (SkipList.Delete s0 m ((getNode s0 oldIdx).element.score)).1
          m sc d lvl := by
      simp only [SkipList.Insert]
      rw [hlk]
    have hds := (delete_spec h m ((getNode s0 oldIdx).element.score)).2
      (by rw [hcut]; exact hjc) (by rw [hcut, hjeq]) (by rw [hcut, hjeq]; exact hom)
    rw [hcut] at hds
    obtain ⟨-, hInv1, hel1, -, hlen1, -, -⟩ := hds
    have hab1 : ∀ i ∈ c.eraseIdx jc,
        (getNode (SkipList.Delete s0 m
          ((getNode s0 oldIdx).element.score)).1 i).element.member ≠ m := by
      intro i hi he
      rw [hel1 i] at he
      have hic : i ∈ c := (List.eraseIdx_sublist c jc).subset hi
      have hieq : i = oldIdx := inv_member_inj h hic hoc (by rw [he, hom])
      rw [hieq, ← hjeq] at hi
      exact not_mem_eraseIdx_self c 0 jc hjc h.nodup hi
    obtain ⟨c2, hInv2, hperm2, hget2, hlen2⟩ :=
      insertCore_chain_perm hInv1 m sc d lvl hl1 hl2 hab1
    have hch1 : chainElems (SkipList.Delete s0 m
        ((getNode s0 oldIdx).element.score)).1 (c.eraseIdx jc) =
        (chainElems s0 c).filter (fun e => decide (e.member ≠ m)) := by
      rw [chainElems_congr (c.eraseIdx jc) (fun i _ => hel1 i)]
      rw [show chainElems s0 (c.eraseIdx jc) = (chainElems s0 c).eraseIdx jc from by
        simp only [chainElems]
        exact map_eraseIdx _ c jc]
      apply eraseIdx_eq_filter _ default
      · simp only [chainElems, List.length_map]
        exact hjc
      · simp only [chainElems]
        apply decide_eq_false
        rw [getD_map_of_lt _ c 0 default hjc, hjeq]
        intro hx
        exact hx hom
      · intro i hilen hne
        have hilen2 : i < c.length := by
          simpa only [chainElems, List.length_map] using hilen
        simp only [chainElems]
        apply decide_eq_true
        rw [getD_map_of_lt _ c 0 default hilen2]
        intro hmem
        apply hne
        have hceq : c.getD i 0 = oldIdx :=
          inv_member_inj h (getD_mem_of_lt c 0 hilen2) hoc (by rw [hmem, hom])
        have hpos : (0 :: c).getD (i + 1) 0 = (0 :: c).getD (jc + 1) 0 := by
          simp only [List.getD_cons_succ]
          rw [hceq, hjeq]
        have h3 := inv_pos_inj h (by simp; omega) (by simp; omega) hpos
        omega
    rw [hins]
    refine ⟨c2, hInv2, ?_, hget2, ?_⟩
    · rw [← hch1]
      exact hperm2
    · rw [hlen2, hlen1]
      have hfl : ((chainElems s0 c).filter
          (fun e => decide (e.member ≠ m))).length = c.length - 1 := by
        rw [← hch1, chainElems_congr (c.eraseIdx jc) (fun i _ => hel1 i)]
        simp only [chainElems, List.length_map]
        exact List.length_eraseIdx_of_lt hjc
      rw [hfl]
      have := h.lengthOk
      omega

/-- Every reachable state is well formed over some level-0 chain. -/
theorem reach_inv {s : SkipList δ} (h : Reach s) : ∃ c, Inv s c := by
  induction h with
  | empty => exact ⟨[], inv_empty⟩
  | @insert s0 m sc d lvl hr hl1 hl2 ih =>
    obtain ⟨c, hc⟩ := ih
    obtain ⟨c2, h2, -, -, -⟩ := insert_spec hc m sc d lvl hl1 hl2
    exact ⟨c2, h2⟩
  | @delete s0 m sc hr ih =>
    obtain ⟨c, hc⟩ := ih
    by_cases hf : cutOf s0 c sc m = c.length ∨
        ¬((getNode s0 (c.getD (cutOf s0 c sc m) 0)).element.score = sc ∧
          (getNode s0 (c.getD (cutOf s0 c sc m) 0)).element.member = m)
    · rw [(delete_spec hc m sc).1 hf]
      exact ⟨c, hc⟩
    · push_neg at hf
      have hlt : cutOf s0 c sc m < c.length :=
        lt_of_le_of_ne (cutOf_le s0 c sc m) hf.1
      obtain ⟨-, hInv, -⟩ := (delete_spec hc m sc).2 hlt hf.2.1 hf.2.2
      exact ⟨_, hInv⟩

/-! ### Policy and error-path helpers for `Leaderboard.Add` -/

theorem policyReject_none_iff (cfg : LeaderboardConfig) (ex sc : Int) :
    policyReject cfg ex sc = none ↔
      (cfg.updatePolicy = .UpdateAlways ∨
       (cfg.updatePolicy = .UpdateIfHigher ∧
         (if cfg.scoreOrder then ex < sc else sc < ex)) ∨
       (cfg.updatePolicy = .UpdateIfLower ∧
         (if cfg.scoreOrder then sc < ex else ex < sc))) := by
  rcases hp : cfg.updatePolicy <;> by_cases ho : cfg.scoreOrder <;>
    simp [policyReject, hp, ho] <;> omega

theorem policyReject_msgs (cfg : LeaderboardConfig) (ex sc : Int) (msg : String)
    (h : policyReject cfg ex sc = some msg) :
    msg = "new score is not higher than existing score" ∨
    msg = "new score is not lower than existing score" := by
  rcases hp : cfg.updatePolicy with _ | _ | _
  · simp only [policyReject, hp] at h
    split_ifs at h with h1 h2
    · exact Or.inl (Option.some_inj.mp h).symm
    · exact Or.inr (Option.some_inj.mp h).symm
  · simp only [policyReject, hp] at h
    split_ifs at h with h1 h2
    · exact Or.inr (Option.some_inj.mp h).symm
    · exact Or.inl (Option.some_inj.mp h).symm
  · simp only [policyReject, hp] at h
    cases h

theorem add_reject (lb : Leaderboard α) (m : String) (sc : Int) (msg : String)
    (d : α) (now lvl : Nat)
    (h : (match lb.skipList.GetElementByMember m with
          | some e => policyReject lb.config e.data.score sc
          | none => none) = some msg) :
    lb.Add m sc d now lvl = (lb, Except.error msg) := by
  simp only [Leaderboard.Add]
  rw [h]

theorem add_accept_fst (lb : Leaderboard α) (m : String) (sc : Int)
    (d : α) (now lvl : Nat)
    (h : (match lb.skipList.GetElementByMember m with
          | some e => policyReject lb.config e.data.score sc
          | none => none) = none) :
    (lb.Add m sc d now lvl).1 =
      { lb with skipList := (lb.skipList.Insert m
          (if lb.config.scoreOrder then sc else negInt64 sc) ⟨m, sc, d, now⟩ lvl).1 } := by
  simp only [Leaderboard.Add]
  rw [h]

theorem add_accept_snd (lb : Leaderboard α) (m : String) (sc : Int)
    (d : α) (now lvl : Nat)
    (h : (match lb.skipList.GetElementByMember m with
          | some e => policyReject lb.config e.data.score sc
          | none => none) = none) :
    (lb.Add m sc d now lvl).2 = Except.ok
      ⟨((lb.skipList.Insert m (if lb.config.scoreOrder then sc else negInt64 sc)
          ⟨m, sc, d, now⟩ lvl).1).GetRank m
          (if lb.config.scoreOrder then sc else negInt64 sc),
        ⟨m, sc, d, now⟩⟩ := by
  simp only [Leaderboard.Add]
  rw [h]

/-! ### Concrete well-formed states for the witnesses -/

theorem inv_cexA : Inv cexA [1] := by
  have hab0 : ∀ i ∈ ([] : List Nat),
      (getNode (NewSkipList : SkipList String) i).element.member ≠ "a" := by
    intro i hi
    cases hi
  exact (insertCore_spec inv_empty "a" 2 "da" 1 (by decide) (by decide) hab0).1

theorem inv_cexS : Inv cexS [1, 2] := by
  have hab1 : ∀ i ∈ [1], (getNode cexA i).element.member ≠ "b" := by decide
  exact (insertCore_spec inv_cexA "b" 1 "db" 2 (by decide) (by decide) hab1).1

theorem inv_cexLbHigh : Inv cexLbHigh.skipList [1, 2] := by
  have hab0 : ∀ i ∈ ([] : List Nat),
      (getNode (NewSkipList : SkipList (MemberData String)) i).element.member ≠ "alice" := by
    intro i hi
    cases hi
  have h1 : Inv ((NewLeaderboard ⟨"t", "t", true, .UpdateAlways⟩ :
      Leaderboard String).Add "alice" 5 "x" 0 1).1.skipList [1] :=
    (insertCore_spec (inv_empty : Inv (NewSkipList : SkipList (MemberData String)) [])
      "alice" 5 (⟨"alice", 5, "x", 0⟩ : MemberData String) 1
      (by decide) (by decide) hab0).1
  have hab1 : ∀ i ∈ [1], (getNode ((NewLeaderboard ⟨"t", "t", true, .UpdateAlways⟩ :
      Leaderboard String).Add "alice" 5 "x" 0 1).1.skipList i).element.member ≠ "bob" := by
    decide
  exact (insertCore_spec h1 "bob" 5 (⟨"bob", 5, "y", 0⟩ : MemberData String) 1
    (by decide) (by decide) hab1).1

theorem inv_cexLbLow : Inv cexLbLow.skipList [1, 2] := by
  have hab0 : ∀ i ∈ ([] : List Nat),
      (getNode (NewSkipList : SkipList (MemberData String)) i).element.member ≠ "alice" := by
    intro i hi
    cases hi
  have h1 : Inv ((NewLeaderboard ⟨"t", "t", false, .UpdateAlways⟩ :
      Leaderboard String).Add "alice" 5 "x" 0 1).1.skipList [1] :=
    (insertCore_spec (inv_empty : Inv (NewSkipList : SkipList (MemberData String)) [])
      "alice" (negInt64 5) (⟨"alice", 5, "x", 0⟩ : MemberData String) 1
      (by decide) (by decide) hab0).1
  have hab1 : ∀ i ∈ [1], (getNode ((NewLeaderboard ⟨"t", "t", false, .UpdateAlways⟩ :
      Leaderboard String).Add "alice" 5 "x" 0 1).1.skipList i).element.member ≠ "bob" := by
    decide
  exact (insertCore_spec h1 "bob" (negInt64 5) (⟨"bob", 5, "y", 0⟩ : MemberData String) 1
    (by decide) (by decide) hab1).1

/-! ### Claim theorems: C2, C3, C5, C9, C10 -/

/-- C2 (amended): after any sequence of `Insert` and `Delete` operations
starting from the empty list, the spans along the LEVEL-0 forward chain
starting at the head sum to the number of entries `Len()`.  (At higher
non-empty levels the claimed equality fails: see the counterexample, where
a level raise stores a wrapped `0 − 1` span.) -/
theorem spanSum_level0_total {s : SkipList δ} (h : Reach s) :
    spanSumAt s 0 = SkipList.Len s := by
  obtain ⟨c, hc⟩ := reach_inv h
  rw [inv_spanSum0 hc]
  show c.length = s.length
  rw [hc.lengthOk]

theorem spanSum_level0_total_witness : spanSumAt cexS 0 = SkipList.Len cexS :=
  spanSum_level0_total (Reach.insert "b" 1 "db"
    (Reach.insert "a" 2 "da" Reach.empty (by decide) (by decide))
    (by decide) (by decide))

/-- C3: on a well-typed `Add` of an already-present member, the call
succeeds exactly when the update policy allows the new score against the
stored original score — strictly better under `UpdateIfHigher` (greater in
high-first mode, smaller in low-first mode), strictly worse under
`UpdateIfLower`, always under `UpdateAlways`; a first-time insertion always
succeeds; and every error path returns the leaderboard completely
unchanged. -/
theorem add_policy_spec (lb : Leaderboard α) (m : String) (sc : Int) (d : α)
    (now lvl : Nat) :
    (lb.skipList.GetElementByMember m = none →
      ∃ r, (lb.Add m sc d now lvl).2 = Except.ok r) ∧
    (∀ e, lb.skipList.GetElementByMember m = some e →
      ((∃ r, (lb.Add m sc d now lvl).2 = Except.ok r) ↔
        (lb.config.updatePolicy = .UpdateAlways ∨
         (lb.config.updatePolicy = .UpdateIfHigher ∧
           (if lb.config.scoreOrder then e.data.score < sc else sc < e.data.score)) ∨
         (lb.config.updatePolicy = .UpdateIfLower ∧
           (if lb.config.scoreOrder then sc < e.data.score else e.data.score < sc))))) ∧
    (∀ msg, (lb.Add m sc d now lvl).2 = Except.error msg →
      (lb.Add m sc d now lvl).1 = lb) := by
  refine ⟨?_, ?_, ?_⟩
  · intro hnone
    exact ⟨_, add_accept_snd lb m sc d now lvl (by rw [hnone])⟩
  · intro e he
    constructor
    · rintro ⟨r, hr⟩
      rcases hrej : policyReject lb.config e.data.score sc with _ | msg
      · exact (policyReject_none_iff lb.config e.data.score sc).mp hrej
      · have h2 := add_reject lb m sc msg d now lvl (by rw [he]; exact hrej)
        rw [h2] at hr
        simp at hr
    · intro hdisj
      exact ⟨_, add_accept_snd lb m sc d now lvl
        (by rw [he]; exact (policyReject_none_iff lb.config e.data.score sc).mpr hdisj)⟩
  · intro msg hmsg
    rcases hmem : lb.skipList.GetElementByMember m with _ | e
    · have h2 := add_accept_snd lb m sc d now lvl (by rw [hmem])
      rw [h2] at hmsg
      simp at hmsg
    · rcases hrej : policyReject lb.config e.data.score sc with _ | msg2
      · have h2 := add_accept_snd lb m sc d now lvl (by rw [hmem]; exact hrej)
        rw [h2] at hmsg
        simp at hmsg
      · have h2 := add_reject lb m sc msg2 d now lvl (by rw [hmem]; exact hrej)
        rw [h2]

/-- C5 (amended): the code performs none of the claimed InvalidArgument
validations; `Add` either succeeds or fails with one of the two policy
messages (leaving the state unchanged), and `GetAroundMember` fails only
with "member does not exist" — in particular a negative count is accepted. -/
theorem add_around_error_messages (lb : Leaderboard α) (m : String) (sc : Int)
    (d : α) (now lvl : Nat) (cnt : Int) :
    (∀ msg, (lb.Add m sc d now lvl).2 = Except.error msg →
      ((msg = "new score is not higher than existing score" ∨
        msg = "new score is not lower than existing score") ∧
       (lb.Add m sc d now lvl).1 = lb)) ∧
    (∀ msg, lb.GetAroundMember m cnt = Except.error msg →
      msg = "member does not exist") := by
  constructor
  · intro msg hmsg
    rcases hmem : lb.skipList.GetElementByMember m with _ | e
    · have h2 := add_accept_snd lb m sc d now lvl (by rw [hmem])
      rw [h2] at hmsg
      simp at hmsg
    · rcases hrej : policyReject lb.config e.data.score sc with _ | msg2
      · have h2 := add_accept_snd lb m sc d now lvl (by rw [hmem]; exact hrej)
        rw [h2] at hmsg
        simp at hmsg
      · have h2 := add_reject lb m sc msg2 d now lvl (by rw [hmem]; exact hrej)
        rw [h2] at hmsg
        have hme : msg2 = msg := by simpa using hmsg
        rw [← hme]
        exact ⟨policyReject_msgs lb.config e.data.score sc msg2 hrej, by rw [h2]⟩
  · intro msg hmsg
    rcases hmem : lb.skipList.GetElementByMember m with _ | e
    · simp only [Leaderboard.GetAroundMember] at hmsg
      rw [hmem] at hmsg
      have h3 : "member does not exist" = msg := by simpa using hmsg
      exact h3.symm
    · simp only [Leaderboard.GetAroundMember] at hmsg
      rw [hmem] at hmsg
      simp [Leaderboard.GetRankList] at hmsg

/-- C9 (amended): when `Delete` removes the victim at chain position
`cut + 1` and the victim has no level-0 successor (it is the last entry),
the tail pointer becomes the level-0 predecessor `update[0]` — which is the
sentinel head (`some 0`), not null, when the list becomes empty. -/
theorem delete_tail_last {s : SkipList δ} {c : List Nat} (h : Inv s c) (m : String)
    (sc : Int)
    (hlt : cutOf s c sc m < c.length)
    (hsc : (getNode s (c.getD (cutOf s c sc m) 0)).element.score = sc)
    (hm : (getNode s (c.getD (cutOf s c sc m) 0)).element.member = m)
    (hlast : cutOf s c sc m + 1 = c.length) :
    (SkipList.Delete s m sc).2 = true ∧
    (SkipList.Delete s m sc).1.tail = some ((0 :: c).getD (cutOf s c sc m) 0) := by
  obtain ⟨h1, -, -, -, -, -, h7⟩ := (delete_spec h m sc).2 hlt hsc hm
  refine ⟨h1, ?_⟩
  rw [h7, if_pos hlast]

theorem delete_tail_last_witness :
    (SkipList.Delete cexS "b" 1).2 = true ∧
    (SkipList.Delete cexS "b" 1).1.tail = some 1 := by
  have h := delete_tail_last inv_cexS "b" 1 (by decide) (by decide) (by decide) (by decide)
  refine ⟨h.1, ?_⟩
  rw [h.2]
  decide

/-- C10: `UpdateScore(member, newScore)` returns true exactly when the
member is present; on success the member afterwards carries `newScore` with
its previous payload and `Len()` is unchanged; on a missing member it
returns false with the state unchanged. -/
theorem updateScore_spec {s : SkipList δ} {c : List Nat} (h : Inv s c) (m : String)
    (newScore : Int) (lvl : Nat) (hl1 : 1 ≤ lvl) (hl2 : lvl ≤ MaxLevel) :
    ((SkipList.UpdateScore s m newScore lvl).2 = true ↔
      lookupMap s.elementMap m ≠ none) ∧
    (∀ i, lookupMap s.elementMap m = some i →
      SkipList.GetElementByMember (SkipList.UpdateScore s m newScore lvl).1 m =
        some ⟨m, newScore, (getNode s i).element.data⟩ ∧
      SkipList.Len (SkipList.UpdateScore s m newScore lvl).1 = SkipList.Len s) ∧
    (lookupMap s.elementMap m = none →
      SkipList.UpdateScore s m newScore lvl = (s, false)) := by
  rcases hlk : lookupMap s.elementMap m with _ | i
  · have hupd : SkipList.UpdateScore s m newScore lvl = (s, false) := by
      simp only [SkipList.UpdateScore]
      rw [hlk]
    refine ⟨?_, ?_, fun _ => hupd⟩
    · rw [hupd]
      simp
    · intro i hi
      cases hi
  · have hmi : (m, i) ∈ s.elementMap := lookupMap_mem hlk
    obtain ⟨hoc, hom⟩ := h.mapSound (m, i) hmi
    obtain ⟨jc, hjc, hjeq0⟩ := List.mem_iff_getElem.mp hoc
    have hjeq : c.getD jc 0 = i := by
      rw [List.getD_eq_getElem c 0 hjc]
      exact hjeq0
    have hcut : cutOf s c ((getNode s i).element.score) m = jc := by
      have h2 := cutOf_self h jc hjc
      rw [hjeq, hom] at h2
      exact h2
    have hds := (delete_spec h m ((getNode s i).element.score)).2
      (by rw [hcut]; exact hjc) (by rw [hcut, hjeq]) (by rw [hcut, hjeq]; exact hom)
    rw [hcut] at hds
    obtain ⟨-, hInv1, hel1, -, hlen1, hmap1, -⟩ := hds
    have hab1 : ∀ j ∈ c.eraseIdx jc,
        (getNode (SkipList.Delete s m
          ((getNode s i).element.score)).1 j).element.member ≠ m := by
      intro j hj he
      rw [hel1 j] at he
      have hjc2 : j ∈ c := (List.eraseIdx_sublist c jc).subset hj
      have hjeq2 : j = i := inv_member_inj h hjc2 hoc (by rw [he, hom])
      rw [hjeq2, ← hjeq] at hj
      exact not_mem_eraseIdx_self c 0 jc hjc h.nodup hj
    have hlk1 : lookupMap (SkipList.Delete s m
        ((getNode s i).element.score)).1.elementMap m = none := by
      rw [hmap1]
      exact lookupMap_eq_none (fun kv hkv => (mem_of_mem_eraseKey m _ kv hkv).2)
    have hins : SkipList.Insert (SkipList.Delete s m ((getNode s i).element.score)).1
        m newScore ((getNode s i).element.data) lvl =
        insertCore (SkipList.Delete s m ((getNode s i).element.score)).1
          m newScore ((getNode s i).element.data) lvl := by
      simp only [SkipList.Insert]
      rw [hlk1]
    obtain ⟨c2, hInv2, -, hget2, hlen2⟩ :=
      insertCore_chain_perm hInv1 m newScore ((getNode s i).element.data) lvl hl1 hl2 hab1
    have hupd : SkipList.UpdateScore s m newScore lvl =
        ((SkipList.Insert (SkipList.Delete s m ((getNode s i).element.score)).1
          m newScore ((getNode s i).element.data) lvl).1, true) := by
      simp only [SkipList.UpdateScore]
      rw [hlk]
    refine ⟨?_, ?_, ?_⟩
    · rw [hupd]
      simp [hlk]
    · intro i2 hi2
      obtain rfl := Option.some_inj.mp hi2
      constructor
      · rw [hupd, hins]
        exact hget2
      · rw [hupd, hins]
        show (insertCore (SkipList.Delete s m ((getNode s i).element.score)).1
          m newScore ((getNode s i).element.data) lvl).1.length = s.length
        rw [hlen2, hlen1, h.lengthOk]
        omega
    · intro hnone
      cases hnone

theorem updateScore_spec_witness :
    (SkipList.UpdateScore cexS "a" 5 1).2 = true ∧
    SkipList.GetElementByMember (SkipList.UpdateScore cexS "a" 5 1).1 "a" =
      some ⟨"a", 5, "da"⟩ ∧
    SkipList.Len (SkipList.UpdateScore cexS "a" 5 1).1 = 2 := by
  have h := updateScore_spec inv_cexS "a" 5 1 (by decide) (by decide)
  refine ⟨h.1.mpr (by decide), ?_, ?_⟩
  · exact ((h.2.1 1 (by decide)).1).trans (by decide)
  · rw [(h.2.1 1 (by decide)).2]
    decide

/-! ### Rank-range machinery for C7 -/

theorem filterMap_eq_map_of_all_some {β γ : Type} (f : β → Option γ) (g : β → γ) :
    ∀ l : List β, (∀ x ∈ l, f x = some (g x)) → l.filterMap f = l.map g
  | [], _ => rfl
  | x :: xs, h => by
    rw [List.filterMap_cons, h x (List.mem_cons_self x xs), List.map_cons,
      filterMap_eq_map_of_all_some f g xs (fun y hy => h y (List.mem_cons_of_mem x hy))]

theorem range_map_getD_eq_drop_take {β : Type} (E : List β) (d : β) (n a : Nat)
    (hn : a + n ≤ E.length) :
    (List.range n).map (fun k => E.getD (a + k) d) = (E.drop a).take n := by
  apply List.ext_getElem
  · simp
    omega
  · intro i h1 h2
    simp only [List.getElem_map, List.getElem_range, List.getElem_take, List.getElem_drop]
    rw [List.getD_eq_getElem E d (by simp at h1; omega)]

/-- `GetRankRange(start, end)` on a well-formed state returns exactly the
slice of the entry list between the clamped bounds (1-based, inclusive). -/
theorem getRankRange_spec {s : SkipList δ} {c : List Nat} (h : Inv s c)
    (start stop st en : Int)
    (hst : st = if start ≤ 0 then 1 else start)
    (hen : en = if stop > (s.length : Int) then (s.length : Int) else stop) :
    (en < st → s.GetRankRange start stop = []) ∧
    (st ≤ en → s.GetRankRange start stop =
      ((chainElems s c).drop (st.toNat - 1)).take ((en - st).toNat + 1)) := by
  have hunf : s.GetRankRange start stop =
      (if st > en then []
       else (List.range ((en - st).toNat + 1)).filterMap
         (fun (k : Nat) => SkipList.GetByRank s (st + (k : Int)))) := by
    subst hst
    subst hen
    rfl
  have hN : (s.length : Int) = (c.length : Int) := by
    rw [h.lengthOk]
  have hst1 : 1 ≤ st := by
    rw [hst]
    split <;> omega
  have henN : en ≤ (c.length : Int) := by
    rw [hen, hN]
    split <;> omega
  refine ⟨?_, ?_⟩
  · intro hlt
    rw [hunf, if_pos (by omega)]
  · intro hle
    rw [hunf, if_neg (by omega)]
    have hall : ∀ (k : Nat), k ∈ List.range ((en - st).toNat + 1) →
        SkipList.GetByRank s (st + (k : Int)) =
          some ((chainElems s c).getD (st.toNat - 1 + k) default) := by
      intro k hk
      have hk2 : (k : Int) ≤ en - st := by
        rw [List.mem_range] at hk
        omega
      have hr1 : 1 ≤ st + (k : Int) := by omega
      have hr2 : st + (k : Int) ≤ (c.length : Int) := by omega
      rw [getByRank_spec h (st + (k : Int)) hr1 hr2]
      congr 1
      have hpos : (st + (k : Int)).toNat = (st.toNat - 1 + k) + 1 := by omega
      rw [hpos]
      simp only [List.getD_cons_succ]
      rw [show chainElems s c = c.map (fun i => (getNode s i).element) from rfl]
      rw [getD_map_of_lt (fun i => (getNode s i).element) c 0 default (by omega)]
    rw [filterMap_eq_map_of_all_some _ _ _ hall]
    exact range_map_getD_eq_drop_take (chainElems s c) default ((en - st).toNat + 1)
      (st.toNat - 1) (by simp only [chainElems, List.length_map]; omega)

/-- C7 (amended): `GetRankList(start, end)` returns exactly the entries
whose ranks lie in `start..end` after clamping (start up to 1, end down to
N), but the i-th returned entry (0-based) is labelled with rank
`start + i` counted from the RAW start, not from the clamped start. -/
theorem rankList_spec {lb : Leaderboard α} {c : List Nat} (h : Inv lb.skipList c)
    (start stop st en : Int)
    (hst : st = if start ≤ 0 then 1 else start)
    (hen : en = if stop > (lb.skipList.length : Int) then (lb.skipList.length : Int)
      else stop) :
    (en < st → lb.GetRankList start stop = Except.ok []) ∧
    (st ≤ en → lb.GetRankList start stop = Except.ok
      ((((chainElems lb.skipList c).drop (st.toNat - 1)).take
          ((en - st).toNat + 1)).enum.map
        (fun p => ⟨start + (p.1 : Int), p.2.data⟩))) := by
  obtain ⟨hemp, hsl⟩ := getRankRange_spec h start stop st en hst hen
  constructor
  · intro hlt
    show Except.ok ((lb.skipList.GetRankRange start stop).enum.map
      (fun p => (⟨start + (p.1 : Int), p.2.data⟩ : RankData α))) = Except.ok []
    rw [hemp hlt]
    rfl
  · intro hle
    show Except.ok ((lb.skipList.GetRankRange start stop).enum.map
      (fun p => (⟨start + (p.1 : Int), p.2.data⟩ : RankData α))) = _
    rw [hsl hle]

theorem rankList_spec_witness :
    cexLbHigh.GetRankList 0 2 = Except.ok
      ((((chainElems cexLbHigh.skipList [1, 2]).drop ((1 : Int).toNat - 1)).take
          (((2 : Int) - 1).toNat + 1)).enum.map
        (fun p => ⟨0 + (p.1 : Int), p.2.data⟩)) :=
  (rankList_spec inv_cexLbHigh 0 2 1 2 (by decide) (by decide)).2 (by decide)

/-! ### Rank helpers for C8 -/

theorem precB_self_false (e : Element δ) (sc : Int) (m : String)
    (hs : e.score = sc) (hm : e.member = m) : precB e sc m = false := by
  simp [precB, hs, hm, strLt_irrefl]

/-- The rank reported for a stored member counts the entries that precede
its key, plus one. -/
theorem getRank_of_gem {s : SkipList δ} {c : List Nat} (h : Inv s c) {m : String}
    {e : Element δ} (hg : SkipList.GetElementByMember s m = some e) :
    e.member = m ∧
    s.GetRank m e.score =
      (((chainElems s c).countP (fun x => precB x e.score m) : Nat) : Int) + 1 := by
  rcases hlk : lookupMap s.elementMap m with _ | i
  · simp only [SkipList.GetElementByMember] at hg
    rw [hlk] at hg
    cases hg
  · simp only [SkipList.GetElementByMember] at hg
    rw [hlk] at hg
    have hg2 : some ((getNode s i).element) = some e := hg
    have he : e = (getNode s i).element := (Option.some_inj.mp hg2).symm
    obtain ⟨hoc, hom⟩ := h.mapSound (m, i) (lookupMap_mem hlk)
    have hom2 : (getNode s i).element.member = m := hom
    obtain ⟨jc, hjc, hjeq0⟩ := List.mem_iff_getElem.mp hoc
    have hjeq : c.getD jc 0 = i := by
      rw [List.getD_eq_getElem c 0 hjc]
      exact hjeq0
    subst he
    refine ⟨hom2, ?_⟩
    have hr := getRank_spec h jc hjc
    rw [hjeq, hom2] at hr
    have hc2 := cutOf_self h jc hjc
    rw [hjeq, hom2] at hc2
    rw [hr, ← cutOf_countP, hc2]

theorem lbGetRank_of_gem {lb : Leaderboard α} {m : String} {e : Element (MemberData α)}
    (hg : lb.skipList.GetElementByMember m = some e) :
    lb.GetRank m = Except.ok (lb.skipList.GetRank m e.score) := by
  simp only [Leaderboard.GetRank]
  rw [hg]

theorem lbGetMember_of_gem {lb : Leaderboard α} {m : String} {e : Element (MemberData α)}
    (hg : lb.skipList.GetElementByMember m = some e) :
    lb.GetMember m = Except.ok e.data := by
  simp only [Leaderboard.GetMember]
  rw [hg]

/-- C8: with `updatePolicy = Always`, `Add(m, s, d)` followed immediately by
`Add(m, s, d2)` leaves `Total()` unchanged and `Rank(m)` unchanged, and the
stored payload afterwards is `d2` — because `Insert` on an existing member
first deletes the old node keyed by its stored score. -/
theorem readd_same_score {lb : Leaderboard α} {c : List Nat}
    (h : Inv lb.skipList c) (hpol : lb.config.updatePolicy = .UpdateAlways)
    (m : String) (sc : Int) (d d2 : α) (now now2 lvl lvl2 : Nat)
    (hl1 : 1 ≤ lvl) (hl2 : lvl ≤ MaxLevel) (hl1b : 1 ≤ lvl2) (hl2b : lvl2 ≤ MaxLevel) :
    ((lb.Add m sc d now lvl).1.Add m sc d2 now2 lvl2).1.GetTotal =
      (lb.Add m sc d now lvl).1.GetTotal ∧
    ((lb.Add m sc d now lvl).1.Add m sc d2 now2 lvl2).1.GetRank m =
      (lb.Add m sc d now lvl).1.GetRank m ∧
    ((lb.Add m sc d now lvl).1.Add m sc d2 now2 lvl2).1.GetMember m =
      Except.ok ⟨m, sc, d2, now2⟩ := by
  have hrej1 : (match lb.skipList.GetElementByMember m with
      | some e => policyReject lb.config e.data.score sc
      | none => none) = none := by
    rcases lb.skipList.GetElementByMember m with _ | e
    · rfl
    · simp [policyReject, hpol]
  have hfst1 := add_accept_fst lb m sc d now lvl hrej1
  have hcfg1 : (lb.Add m sc d now lvl).1.config = lb.config := by
    rw [hfst1]
  have hsl1 : (lb.Add m sc d now lvl).1.skipList =
      (lb.skipList.Insert m (if lb.config.scoreOrder then sc else negInt64 sc)
        ⟨m, sc, d, now⟩ lvl).1 := by
    rw [hfst1]
  have hrej2 : (match (lb.Add m sc d now lvl).1.skipList.GetElementByMember m with
      | some e => policyReject (lb.Add m sc d now lvl).1.config e.data.score sc
      | none => none) = none := by
    rcases (lb.Add m sc d now lvl).1.skipList.GetElementByMember m with _ | e
    · rfl
    · simp [policyReject, hcfg1, hpol]
  have hfst2 := add_accept_fst (lb.Add m sc d now lvl).1 m sc d2 now2 lvl2 hrej2
  have hsl2 : ((lb.Add m sc d now lvl).1.Add m sc d2 now2 lvl2).1.skipList =
      (((lb.skipList.Insert m (if lb.config.scoreOrder then sc else negInt64 sc)
          ⟨m, sc, d, now⟩ lvl).1).Insert m
        (if lb.config.scoreOrder then sc else negInt64 sc) ⟨m, sc, d2, now2⟩ lvl2).1 := by
    rw [hfst2]
    show ((lb.Add m sc d now lvl).1.skipList.Insert m
        (if (lb.Add m sc d now lvl).1.config.scoreOrder then sc else negInt64 sc)
        ⟨m, sc, d2, now2⟩ lvl2).1 = _
    rw [hcfg1, hsl1]
  obtain ⟨c1, hInv1, hperm1, hget1, hlen1⟩ :=
    insert_spec h m (if lb.config.scoreOrder then sc else negInt64 sc)
      ⟨m, sc, d, now⟩ lvl hl1 hl2
  obtain ⟨c2, hInv2, hperm2, hget2, hlen2⟩ :=
    insert_spec hInv1 m (if lb.config.scoreOrder then sc else negInt64 sc)
      ⟨m, sc, d2, now2⟩ lvl2 hl1b hl2b
  -- the entries of different members are the same before and after the re-add
  have hF0 : ((chainElems lb.skipList c).filter
      (fun e => decide (e.member ≠ m))).filter (fun e => decide (e.member ≠ m)) =
      (chainElems lb.skipList c).filter (fun e => decide (e.member ≠ m)) := by
    rw [List.filter_eq_self]
    intro a ha
    exact (List.mem_filter.mp ha).2
  have hcons : ((⟨m, (if lb.config.scoreOrder then sc else negInt64 sc), ⟨m, sc, d, now⟩⟩ :
      Element (MemberData α)) ::
        (chainElems lb.skipList c).filter (fun e => decide (e.member ≠ m))).filter
        (fun e => decide (e.member ≠ m)) =
      (chainElems lb.skipList c).filter (fun e => decide (e.member ≠ m)) := by
    rw [List.filter_cons_of_neg (by simp)]
    exact hF0
  have hp1 : ((chainElems (lb.skipList.Insert m
      (if lb.config.scoreOrder then sc else negInt64 sc) ⟨m, sc, d, now⟩ lvl).1 c1).filter
        (fun e => decide (e.member ≠ m))).Perm
      ((chainElems lb.skipList c).filter (fun e => decide (e.member ≠ m))) := by
    have h2 := hperm1.filter (fun e => decide (e.member ≠ m))
    rw [hcons] at h2
    exact h2
  refine ⟨?_, ?_, ?_⟩
  · show ((lb.Add m sc d now lvl).1.Add m sc d2 now2 lvl2).1.skipList.length =
      (lb.Add m sc d now lvl).1.skipList.length
    rw [hsl2, hsl1, hlen2, hlen1]
    rw [hp1.length_eq]
  · have hg1 : (lb.Add m sc d now lvl).1.skipList.GetElementByMember m =
        some ⟨m, (if lb.config.scoreOrder then sc else negInt64 sc), ⟨m, sc, d, now⟩⟩ := by
      rw [hsl1]
      exact hget1
    have hg2 : ((lb.Add m sc d now lvl).1.Add m sc d2 now2 lvl2).1.skipList.GetElementByMember m =
        some ⟨m, (if lb.config.scoreOrder then sc else negInt64 sc), ⟨m, sc, d2, now2⟩⟩ := by
      rw [hsl2]
      exact hget2
    rw [lbGetRank_of_gem hg2, lbGetRank_of_gem hg1]
    have hr1 : (lb.skipList.Insert m (if lb.config.scoreOrder then sc else negInt64 sc)
        ⟨m, sc, d, now⟩ lvl).1.GetRank m
          (if lb.config.scoreOrder then sc else negInt64 sc) =
        (((chainElems (lb.skipList.Insert m
            (if lb.config.scoreOrder then sc else negInt64 sc) ⟨m, sc, d, now⟩ lvl).1
              c1).countP (fun x => precB x
                (if lb.config.scoreOrder then sc else negInt64 sc) m) : Nat) : Int) + 1 :=
      (getRank_of_gem hInv1 hget1).2
    have hr2 : (((lb.skipList.Insert m (if lb.config.scoreOrder then sc else negInt64 sc)
        ⟨m, sc, d, now⟩ lvl).1).Insert m
          (if lb.config.scoreOrder then sc else negInt64 sc) ⟨m, sc, d2, now2⟩ lvl2).1.GetRank m
          (if lb.config.scoreOrder then sc else negInt64 sc) =
        (((chainElems (((lb.skipList.Insert m
            (if lb.config.scoreOrder then sc else negInt64 sc) ⟨m, sc, d, now⟩ lvl).1).Insert m
            (if lb.config.scoreOrder then sc else negInt64 sc) ⟨m, sc, d2, now2⟩ lvl2).1
              c2).countP (fun x => precB x
                (if lb.config.scoreOrder then sc else negInt64 sc) m) : Nat) : Int) + 1 :=
      (getRank_of_gem hInv2 hget2).2
    have hcnt : (chainElems (((lb.skipList.Insert m
        (if lb.config.scoreOrder then sc else negInt64 sc) ⟨m, sc, d, now⟩ lvl).1).Insert m
        (if lb.config.scoreOrder then sc else negInt64 sc) ⟨m, sc, d2, now2⟩ lvl2).1
          c2).countP (fun x => precB x
            (if lb.config.scoreOrder then sc else negInt64 sc) m) =
        (chainElems (lb.skipList.Insert m
          (if lb.config.scoreOrder then sc else negInt64 sc) ⟨m, sc, d, now⟩ lvl).1
            c1).countP (fun x => precB x
              (if lb.config.scoreOrder then sc else negInt64 sc) m) := by
      rw [hperm2.countP_eq (fun x => precB x
        (if lb.config.scoreOrder then sc else negInt64 sc) m)]
      rw [hperm1.countP_eq (fun x => precB x
        (if lb.config.scoreOrder then sc else negInt64 sc) m)]
      rw [List.countP_cons_of_neg _ _ (by simp [precB, strLt_irrefl])]
      rw [List.countP_cons_of_neg _ _ (by simp [precB, strLt_irrefl])]
      exact hp1.countP_eq _
    show Except.ok (((lb.Add m sc d now lvl).1.Add m sc d2 now2 lvl2).1.skipList.GetRank m
        (if lb.config.scoreOrder then sc else negInt64 sc)) =
      Except.ok ((lb.Add m sc d now lvl).1.skipList.GetRank m
        (if lb.config.scoreOrder then sc else negInt64 sc))
    rw [hsl2, hsl1, hr2, hr1, hcnt]
  · have hg2 : ((lb.Add m sc d now lvl).1.Add m sc d2 now2 lvl2).1.skipList.GetElementByMember m =
        some ⟨m, (if lb.config.scoreOrder then sc else negInt64 sc), ⟨m, sc, d2, now2⟩⟩ := by
      rw [hsl2]
      exact hget2
    rw [lbGetMember_of_gem hg2]

theorem readd_same_score_witness :
    ((cexLbHigh.Add "carol" 7 "p" 3 1).1.Add "carol" 7 "q" 4 2).1.GetTotal =
      (cexLbHigh.Add "carol" 7 "p" 3 1).1.GetTotal ∧
    ((cexLbHigh.Add "carol" 7 "p" 3 1).1.Add "carol" 7 "q" 4 2).1.GetRank "carol" =
      (cexLbHigh.Add "carol" 7 "p" 3 1).1.GetRank "carol" ∧
    ((cexLbHigh.Add "carol" 7 "p" 3 1).1.Add "carol" 7 "q" 4 2).1.GetMember "carol" =
      Except.ok ⟨"carol", 7, "q", 4⟩ :=
  readd_same_score inv_cexLbHigh (by decide) "carol" 7 "p" "q" 3 4 1 2
    (by decide) (by decide) (by decide) (by decide)

/-! ### Order-inversion machinery for C6 -/

theorem modelAdds_prop {P : MemberData α → Prop} :
    ∀ (ops : List (AddOp α)) (acc : List (MemberData α)),
      (∀ md ∈ acc, P md) →
      (∀ op ∈ ops, P ⟨op.member, op.score, op.data, op.now⟩) →
      ∀ md ∈ modelAdds acc ops, P md
  | [], acc, hacc, _, md, hmd => hacc md hmd
  | op :: ops, acc, hacc, hops, md, hmd => by
    refine modelAdds_prop ops _ ?_ (fun o ho => hops o (List.mem_cons_of_mem op ho)) md hmd
    intro md2 hmd2
    rcases List.mem_cons.mp hmd2 with rfl | h2
    · exact hops op (List.mem_cons_self op ops)
    · exact hacc md2 (List.mem_filter.mp h2).1

/-- The element returned for a member is one of the chain entries. -/
theorem gem_mem_chain {s : SkipList δ} {c : List Nat} (h : Inv s c) {m : String}
    {e : Element δ} (hg : SkipList.GetElementByMember s m = some e) :
    e ∈ chainElems s c ∧ e.member = m := by
  rcases hlk : lookupMap s.elementMap m with _ | i
  · simp only [SkipList.GetElementByMember] at hg
    rw [hlk] at hg
    cases hg
  · simp only [SkipList.GetElementByMember] at hg
    rw [hlk] at hg
    have hg2 : some ((getNode s i).element) = some e := hg
    have he : e = (getNode s i).element := (Option.some_inj.mp hg2).symm
    obtain ⟨hoc, hom⟩ := h.mapSound (m, i) (lookupMap_mem hlk)
    have hom2 : (getNode s i).element.member = m := hom
    subst he
    exact ⟨List.mem_map_of_mem _ hoc, hom2⟩

/-- Conversely, every chain entry is returned for its own member. -/
theorem gem_of_chain_mem {s : SkipList δ} {c : List Nat} (h : Inv s c) {e : Element δ}
    (he : e ∈ chainElems s c) : SkipList.GetElementByMember s e.member = some e := by
  obtain ⟨i, hi, heq⟩ := List.mem_map.mp he
  have hlk := inv_lookup_of_mem h hi
  rw [heq] at hlk
  simp only [SkipList.GetElementByMember]
  rw [hlk]
  show some ((getNode s i).element) = some e
  rw [heq]

theorem lbGetMember_inv {lb : Leaderboard α} {m : String} {md : MemberData α}
    (h : lb.GetMember m = Except.ok md) :
    ∃ e, lb.skipList.GetElementByMember m = some e ∧ e.data = md := by
  rcases hg : lb.skipList.GetElementByMember m with _ | e
  · simp only [Leaderboard.GetMember] at h
    rw [hg] at h
    cases h
  · refine ⟨e, rfl, ?_⟩
    simp only [Leaderboard.GetMember] at h
    rw [hg] at h
    have h2 : Except.ok e.data = Except.ok md := h
    exact Except.ok.inj h2

/-- A stored member sits at a unique chain position; its reported rank is
that position plus one. -/
theorem gem_rank_position {s : SkipList δ} {c : List Nat} (h : Inv s c) {m : String}
    {e : Element δ} (hg : SkipList.GetElementByMember s m = some e) :
    ∃ jc, jc < c.length ∧ e = (getNode s (c.getD jc 0)).element ∧
      e.member = m ∧ s.GetRank m e.score = (jc : Int) + 1 := by
  rcases hlk : lookupMap s.elementMap m with _ | i
  · simp only [SkipList.GetElementByMember] at hg
    rw [hlk] at hg
    cases hg
  · simp only [SkipList.GetElementByMember] at hg
    rw [hlk] at hg
    have hg2 : some ((getNode s i).element) = some e := hg
    have he : e = (getNode s i).element := (Option.some_inj.mp hg2).symm
    obtain ⟨hoc, hom⟩ := h.mapSound (m, i) (lookupMap_mem hlk)
    have hom2 : (getNode s i).element.member = m := hom
    obtain ⟨jc, hjc, hjeq0⟩ := List.mem_iff_getElem.mp hoc
    have hjeq : c.getD jc 0 = i := by
      rw [List.getD_eq_getElem c 0 hjc]
      exact hjeq0
    subst he
    have hr := getRank_spec h jc hjc
    rw [hjeq, hom2] at hr
    exact ⟨jc, hjc, by rw [hjeq], hom2, hr⟩

/-- On a well-formed state the reported ranks of two distinct stored
members compare exactly as their entries compare in the chain order. -/
theorem rank_lt_iff_prec {s : SkipList δ} {c : List Nat} (h : Inv s c)
    {x y : String} {ex ey : Element δ}
    (hgx : SkipList.GetElementByMember s x = some ex)
    (hgy : SkipList.GetElementByMember s y = some ey)
    (hxy : x ≠ y) :
    (s.GetRank x ex.score < s.GetRank y ey.score ↔ Prec ex ey) := by
  obtain ⟨jx, hjx, hex, hmx, hrx⟩ := gem_rank_position h hgx
  obtain ⟨jy, hjy, hey, hmy, hry⟩ := gem_rank_position h hgy
  have hne : jx ≠ jy := by
    intro he
    apply hxy
    rw [← hmx, ← hmy, hex, hey, he]
  have hpw := List.pairwise_iff_get.mp (List.pairwise_map.mp h.ordering)
  rw [hrx, hry]
  constructor
  · intro hlt
    have hjlt : jx < jy := by omega
    have h2 := hpw ⟨jx, hjx⟩ ⟨jy, hjy⟩ hjlt
    rw [← getD_eq_get c 0 hjx, ← getD_eq_get c 0 hjy] at h2
    rw [hex, hey]
    exact h2
  · intro hp
    by_contra hge
    have hjge : jy < jx := by omega
    have h2 := hpw ⟨jy, hjy⟩ ⟨jx, hjx⟩ hjge
    rw [← getD_eq_get c 0 hjx, ← getD_eq_get c 0 hjy] at h2
    rw [← hex, ← hey] at h2
    exact prec_asymm hp h2

/-- Applying a sequence of always-accepted `Add` calls keeps the state well
formed, keeps the configuration, and stores — up to order — exactly the
model records, keyed by the (possibly inverted) scores. -/
theorem applyAdds_chain :
    ∀ (ops : List (AddOp α)), (∀ op ∈ ops, 1 ≤ op.lvl ∧ op.lvl ≤ MaxLevel) →
      ∀ (lb : Leaderboard α) (c : List Nat) (model : List (MemberData α)),
        Inv lb.skipList c → lb.config.updatePolicy = .UpdateAlways →
        (chainElems lb.skipList c).Perm (model.map (toEntry lb.config.scoreOrder)) →
        ∃ c2, Inv (applyAdds lb ops).skipList c2 ∧
          (applyAdds lb ops).config = lb.config ∧
          (chainElems (applyAdds lb ops).skipList c2).Perm
            ((modelAdds model ops).map (toEntry lb.config.scoreOrder))
  | [], _, lb, c, model, h, hpol, hperm => ⟨c, h, rfl, hperm⟩
  | op :: ops, hlv, lb, c, model, h, hpol, hperm => by
    have hop := hlv op (List.mem_cons_self op ops)
    have hrej : (match lb.skipList.GetElementByMember op.member with
        | some e => policyReject lb.config e.data.score op.score
        | none => none) = none := by
      rcases lb.skipList.GetElementByMember op.member with _ | e
      · rfl
      · simp [policyReject, hpol]
    have hfst := add_accept_fst lb op.member op.score op.data op.now op.lvl hrej
    obtain ⟨c1, hInv1, hperm1, -, -⟩ :=
      insert_spec h op.member
        (if lb.config.scoreOrder then op.score else negInt64 op.score)
        ⟨op.member, op.score, op.data, op.now⟩ op.lvl hop.1 hop.2
    have hsl : (lb.Add op.member op.score op.data op.now op.lvl).1.skipList =
        (lb.skipList.Insert op.member
          (if lb.config.scoreOrder then op.score else negInt64 op.score)
          ⟨op.member, op.score, op.data, op.now⟩ op.lvl).1 := by
      rw [hfst]
    have hcfg : (lb.Add op.member op.score op.data op.now op.lvl).1.config = lb.config := by
      rw [hfst]
    have hstep : (chainElems
        (lb.Add op.member op.score op.data op.now op.lvl).1.skipList c1).Perm
        (((⟨op.member, op.score, op.data, op.now⟩ : MemberData α) ::
          model.filter (fun md => decide (md.member ≠ op.member))).map
          (toEntry lb.config.scoreOrder)) := by
      rw [hsl, List.map_cons]
      refine hperm1.trans ?_
      have hhead : (⟨op.member,
          (if lb.config.scoreOrder then op.score else negInt64 op.score),
          ⟨op.member, op.score, op.data, op.now⟩⟩ : Element (MemberData α)) =
          toEntry lb.config.scoreOrder ⟨op.member, op.score, op.data, op.now⟩ := rfl
      rw [hhead]
      apply List.Perm.cons
      have h2 := hperm.filter (fun e => decide (e.member ≠ op.member))
      rw [List.filter_map] at h2
      exact h2
    obtain ⟨c2, hI2, hcfg2, hp2⟩ :=
      applyAdds_chain ops (fun o ho => hlv o (List.mem_cons_of_mem op ho))
        (lb.Add op.member op.score op.data op.now op.lvl).1 c1
        ((⟨op.member, op.score, op.data, op.now⟩ : MemberData α) ::
          model.filter (fun md => decide (md.member ≠ op.member)))
        (by rw [hsl]; exact hInv1)
        (by rw [hcfg]; exact hpol)
        (by rw [hcfg]; exact hstep)
    rw [hcfg] at hcfg2 hp2
    exact ⟨c2, hI2, hcfg2, hp2⟩

/-- C6 (amended): for two otherwise identical leaderboards with
`updatePolicy = Always`, built by the same `Add` sequence with no reserved
score −2⁶³, the ranks of two members holding DISTINCT stored scores are
ordered in the low-score-first board exactly opposite to the
high-score-first board.  (On equal scores the order is NOT reversed — ties
break by ascending member in both modes; see the counterexample.) -/
theorem order_inversion (cfgH cfgL : LeaderboardConfig)
    (hso : cfgH.scoreOrder = true) (hsoL : cfgL.scoreOrder = false)
    (hpolH : cfgH.updatePolicy = .UpdateAlways)
    (hpolL : cfgL.updatePolicy = .UpdateAlways)
    (ops : List (AddOp α))
    (hlv : ∀ op ∈ ops, 1 ≤ op.lvl ∧ op.lvl ≤ MaxLevel)
    (hmin : ∀ op ∈ ops, op.score ≠ int64Min)
    (x y : String) (hxy : x ≠ y) (mdx mdy : MemberData α)
    (hgx : (applyAdds (NewLeaderboard cfgH) ops).GetMember x = Except.ok mdx)
    (hgy : (applyAdds (NewLeaderboard cfgH) ops).GetMember y = Except.ok mdy)
    (hsc : mdx.score ≠ mdy.score) :
    ∃ rhx rhy rlx rly : Int,
      (applyAdds (NewLeaderboard cfgH) ops).GetRank x = Except.ok rhx ∧
      (applyAdds (NewLeaderboard cfgH) ops).GetRank y = Except.ok rhy ∧
      (applyAdds (NewLeaderboard cfgL) ops).GetRank x = Except.ok rlx ∧
      (applyAdds (NewLeaderboard cfgL) ops).GetRank y = Except.ok rly ∧
      ((rhx < rhy) ↔ (rly < rlx)) := by
  obtain ⟨ch, hIH, hcfgH, hpermH⟩ :=
    applyAdds_chain ops hlv (NewLeaderboard cfgH) [] [] inv_empty hpolH
      (by exact List.Perm.refl [])
  obtain ⟨cl, hIL, hcfgL, hpermL⟩ :=
    applyAdds_chain ops hlv (NewLeaderboard cfgL) [] [] inv_empty hpolL
      (by exact List.Perm.refl [])
  have hpermH2 : (chainElems (applyAdds (NewLeaderboard cfgH) ops).skipList ch).Perm
      ((modelAdds [] ops).map (toEntry true)) := by
    have h2 : (modelAdds ([] : List (MemberData α)) ops).map
        (toEntry (NewLeaderboard cfgH : Leaderboard α).config.scoreOrder) =
        (modelAdds [] ops).map (toEntry true) := by
      show (modelAdds ([] : List (MemberData α)) ops).map (toEntry cfgH.scoreOrder) = _
      rw [hso]
    rw [← h2]
    exact hpermH
  have hpermL2 : (chainElems (applyAdds (NewLeaderboard cfgL) ops).skipList cl).Perm
      ((modelAdds [] ops).map (toEntry false)) := by
    have h2 : (modelAdds ([] : List (MemberData α)) ops).map
        (toEntry (NewLeaderboard cfgL : Leaderboard α).config.scoreOrder) =
        (modelAdds [] ops).map (toEntry false) := by
      show (modelAdds ([] : List (MemberData α)) ops).map (toEntry cfgL.scoreOrder) = _
      rw [hsoL]
    rw [← h2]
    exact hpermL
  -- the high-board entries of x and y come from model records
  obtain ⟨ex, hgex, hexd⟩ := lbGetMember_inv hgx
  obtain ⟨ey, hgey, heyd⟩ := lbGetMember_inv hgy
  obtain ⟨hexc, hexm⟩ := gem_mem_chain hIH hgex
  obtain ⟨heyc, heym⟩ := gem_mem_chain hIH hgey
  obtain ⟨mdx2, hmdx2, hmdx2e⟩ := List.mem_map.mp (hpermH2.subset hexc)
  obtain ⟨mdy2, hmdy2, hmdy2e⟩ := List.mem_map.mp (hpermH2.subset heyc)
  have hmdx2d : mdx2 = mdx := by
    rw [← hexd, ← hmdx2e]
    rfl
  have hmdy2d : mdy2 = mdy := by
    rw [← heyd, ← hmdy2e]
    rfl
  have hmdxM : mdx ∈ modelAdds ([] : List (MemberData α)) ops := hmdx2d ▸ hmdx2
  have hmdyM : mdy ∈ modelAdds ([] : List (MemberData α)) ops := hmdy2d ▸ hmdy2
  have hex2 : ex = toEntry true mdx := by
    rw [← hmdx2e, hmdx2d]
  have hey2 : ey = toEntry true mdy := by
    rw [← hmdy2e, hmdy2d]
  have hxm : mdx.member = x := by
    rw [← hexm, hex2]
    rfl
  have hym : mdy.member = y := by
    rw [← heym, hey2]
    rfl
  -- the low board stores the same records with inverted keys
  have hlx : (applyAdds (NewLeaderboard cfgL) ops).skipList.GetElementByMember x =
      some (toEntry false mdx) := by
    have hmem : toEntry false mdx ∈
        chainElems (applyAdds (NewLeaderboard cfgL) ops).skipList cl :=
      hpermL2.symm.subset (List.mem_map_of_mem _ hmdxM)
    have h2 := gem_of_chain_mem hIL hmem
    rw [show (toEntry false mdx).member = x from hxm] at h2
    exact h2
  have hly : (applyAdds (NewLeaderboard cfgL) ops).skipList.GetElementByMember y =
      some (toEntry false mdy) := by
    have hmem : toEntry false mdy ∈
        chainElems (applyAdds (NewLeaderboard cfgL) ops).skipList cl :=
      hpermL2.symm.subset (List.mem_map_of_mem _ hmdyM)
    have h2 := gem_of_chain_mem hIL hmem
    rw [show (toEntry false mdy).member = y from hym] at h2
    exact h2
  -- scores are not the reserved value
  have hminM : ∀ md ∈ modelAdds ([] : List (MemberData α)) ops, md.score ≠ int64Min := by
    refine modelAdds_prop ops [] (fun md hmd => absurd hmd (List.not_mem_nil md)) ?_
    intro o ho
    exact hmin o ho
  have hminx : mdx.score ≠ int64Min := hminM mdx hmdxM
  have hminy : mdy.score ≠ int64Min := hminM mdy hmdyM
  -- assemble the four ranks
  refine ⟨(applyAdds (NewLeaderboard cfgH) ops).skipList.GetRank x ex.score,
    (applyAdds (NewLeaderboard cfgH) ops).skipList.GetRank y ey.score,
    (applyAdds (NewLeaderboard cfgL) ops).skipList.GetRank x (toEntry false mdx).score,
    (applyAdds (NewLeaderboard cfgL) ops).skipList.GetRank y (toEntry false mdy).score,
    lbGetRank_of_gem hgex, lbGetRank_of_gem hgey,
    lbGetRank_of_gem hlx, lbGetRank_of_gem hly, ?_⟩
  have hiffH := rank_lt_iff_prec hIH hgex hgey hxy
  have hiffL := rank_lt_iff_prec hIL hly hlx (Ne.symm hxy)
  rw [hiffH, hiffL]
  have hiff1 : Prec ex ey ↔ mdy.score < mdx.score := by
    rw [hex2, hey2]
    constructor
    · rintro (h1 | ⟨h1, -⟩)
      · exact h1
      · exact absurd h1 hsc
    · exact fun h1 => Or.inl h1
  have hiff2 : Prec (toEntry false mdy) (toEntry false mdx) ↔ mdy.score < mdx.score := by
    constructor
    · rintro (h1 | ⟨h1, -⟩)
      · have h2 : negInt64 mdx.score < negInt64 mdy.score := h1
        simp only [negInt64] at h2
        rw [if_neg hminx, if_neg hminy] at h2
        omega
      · have h2 : negInt64 mdy.score = negInt64 mdx.score := h1
        simp only [negInt64] at h2
        rw [if_neg hminy, if_neg hminx] at h2
        exact absurd (by omega) hsc
    · intro h1
      left
      show negInt64 mdx.score < negInt64 mdy.score
      simp only [negInt64]
      rw [if_neg hminx, if_neg hminy]
      omega
  rw [hiff1, hiff2]

theorem order_inversion_witness :
    ∃ rhx rhy rlx rly : Int,
      (applyAdds (NewLeaderboard ⟨"t", "t", true, .UpdateAlways⟩ : Leaderboard String)
        [⟨"alice", 5, "x", 0, 1⟩, ⟨"bob", 7, "y", 0, 1⟩]).GetRank "alice" =
          Except.ok rhx ∧
      (applyAdds (NewLeaderboard ⟨"t", "t", true, .UpdateAlways⟩ : Leaderboard String)
        [⟨"alice", 5, "x", 0, 1⟩, ⟨"bob", 7, "y", 0, 1⟩]).GetRank "bob" =
          Except.ok rhy ∧
      (applyAdds (NewLeaderboard ⟨"t", "t", false, .UpdateAlways⟩ : Leaderboard String)
        [⟨"alice", 5, "x", 0, 1⟩, ⟨"bob", 7, "y", 0, 1⟩]).GetRank "alice" =
          Except.ok rlx ∧
      (applyAdds (NewLeaderboard ⟨"t", "t", false, .UpdateAlways⟩ : Leaderboard String)
        [⟨"alice", 5, "x", 0, 1⟩, ⟨"bob", 7, "y", 0, 1⟩]).GetRank "bob" =
          Except.ok rly ∧
      ((rhx < rhy) ↔ (rly < rlx)) :=
  order_inversion ⟨"t", "t", true, .UpdateAlways⟩ ⟨"t", "t", false, .UpdateAlways⟩
    (by decide) (by decide) (by decide) (by decide)
    [⟨"alice", 5, "x", 0, 1⟩, ⟨"bob", 7, "y", 0, 1⟩]
    (by decide) (by decide) "alice" "bob" (by decide)
    ⟨"alice", 5, "x", 0⟩ ⟨"bob", 7, "y", 0⟩ (by rfl) (by rfl) (by decide)

/-- C1 (failing evaluation): on the reachable two-element state `cexS`
(level-0 chain "a" before "b"), `src/skiplist.go`'s `GetByRank 1` returns
the entry "b" — the node reached by the head's level-1 edge of span 2 —
instead of the rank-1 entry "a", while the repository's second translation
returns "a".  The rank is inside `[1, N]`, so the claimed behaviour
(return the entry at 1-based position 1) is violated by the src variant. -/
theorem getByRankSrc_bug_cexS :
    Reach cexS ∧
    entriesOf cexS = [⟨"a", 2, "da"⟩, ⟨"b", 1, "db"⟩] ∧
    cexS.length = 2 ∧
    cexS.GetByRankSrc 1 = some ⟨"b", 1, "db"⟩ ∧
    cexS.GetByRank 1 = some ⟨"a", 2, "da"⟩ := by
  refine ⟨?_, by decide, by decide, by decide, by decide⟩
  exact Reach.insert "b" 1 "db"
    (Reach.insert "a" 2 "da" Reach.empty (by decide) (by decide)) (by decide) (by decide)

/-- C4 (failing evaluation): the rank round-trip `AtRank(Rank(m)) = entry(m)`
fails on `cexS` for member "a": `GetRank "a" 2 = 1` but `GetByRank 1`
(the `src/skiplist.go` translation) returns "b". -/
theorem rank_roundtrip_fails_cexS :
    Reach cexS ∧
    cexS.GetRank "a" 2 = 1 ∧
    cexS.GetByRankSrc 1 ≠ some ⟨"a", 2, "da"⟩ ∧
    cexS.GetElementByMember "a" = some ⟨"a", 2, "da"⟩ := by
  refine ⟨?_, by decide, by decide, by decide⟩
  exact Reach.insert "b" 1 "db"
    (Reach.insert "a" 2 "da" Reach.empty (by decide) (by decide)) (by decide) (by decide)

/-- C2 (counterexample): on the reachable state `cexS` the level-1 chain is
non-empty (head → "b"), but the spans stored along it sum to
`2 + (2⁶⁴ − 1) ≠ 2 = N`: the insertion that raised the current level
computed the new node's level-1 span as `0 − 1` in `uint64`.  The span-sum
invariant fails at non-zero levels. -/
theorem spanSum_level1_ne_total_cexS :
    Reach cexS ∧
    (slotOf (getNode cexS 0) 1).forward ≠ none ∧
    cexS.length = 2 ∧
    spanSumAt cexS 1 = 2 + (U64 - 1) ∧
    spanSumAt cexS 1 ≠ cexS.length := by
  refine ⟨?_, by decide, by decide, by decide, by decide⟩
  exact Reach.insert "b" 1 "db"
    (Reach.insert "a" 2 "da" Reach.empty (by decide) (by decide)) (by decide) (by decide)

/-- C9 (counterexample): deleting the only entry of the reachable state
`cexA` removes a victim with no level-0 successor whose predecessor
`update[0]` is the sentinel head; afterwards the tail pointer is the head
sentinel (`some 0`), not null, contradicting the claimed "null when that
predecessor is the head". -/
theorem delete_tail_is_head_cexA :
    Reach cexA ∧
    (SkipList.Delete cexA "a" 2).2 = true ∧
    (slotOf (getNode cexA 1) 0).forward = none ∧
    cexDel.length = 0 ∧
    cexDel.tail = some 0 ∧
    cexDel.tail ≠ none := by
  refine ⟨?_, by decide, by decide, by decide, by decide, by decide⟩
  exact Reach.insert "a" 2 "da" Reach.empty (by decide) (by decide)

/-- C6 (counterexample): with the same insertion sequence
(`alice`, 5) then (`bob`, 5) — a score tie — the high-first and low-first
leaderboards rank the two members in the SAME order (alice 1, bob 2), not
in reverse: ties break by ascending member in both modes. -/
theorem order_inversion_fails_on_ties :
    cexLbHigh.GetRank "alice" = Except.ok 1 ∧
    cexLbHigh.GetRank "bob" = Except.ok 2 ∧
    cexLbLow.GetRank "alice" = Except.ok 1 ∧
    cexLbLow.GetRank "bob" = Except.ok 2 := by
  refine ⟨by rfl, by rfl, by rfl, by rfl⟩

/-- C7 (counterexample): `GetRankList 0 2` on the two-member leaderboard
`cexLbHigh` clamps the range to ranks 1..2 and returns both entries, but
labels them with ranks `0` and `1` — `raw start + i`, not
`clamped start + i` (which would be 1 and 2). -/
theorem rankList_unclamped_labels :
    cexLbHigh.GetRankList 0 2 =
      Except.ok [⟨0, "alice", 5, "x", 0⟩, ⟨1, "bob", 5, "y", 0⟩] ∧
    cexLbHigh.GetTotal = 2 := by
  refine ⟨by rfl, by decide⟩

/-- C5 (counterexample): none of the three claimed validations exists in
the code: `Add` with an empty member succeeds and inserts a member
(mutating the state), `Add` with the reserved score −2⁶³ on a low-first
leaderboard succeeds, and `Around` with a negative count returns a normal
(empty) result instead of an `InvalidArgument` error. -/
theorem no_invalid_argument_checks :
    (Leaderboard.Add (NewLeaderboard ⟨"t", "t", true, .UpdateAlways⟩ : Leaderboard String)
        "" 7 "z" 0 1).2.isOk = true ∧
    (Leaderboard.Add (NewLeaderboard ⟨"t", "t", true, .UpdateAlways⟩ : Leaderboard String)
        "" 7 "z" 0 1).1.GetTotal = 1 ∧
    (Leaderboard.Add (NewLeaderboard ⟨"t", "t", false, .UpdateAlways⟩ : Leaderboard String)
        "m" int64Min "z" 0 1).2.isOk = true ∧
    cexLbHigh.GetAroundMember "alice" (-3) = Except.ok [] := by
  refine ⟨by decide, by decide, by decide, by rfl⟩

end Rank
